import Mathlib

/-!
# zhkit: pinyin segmenter and Chinese numeral conversion

A shallow embedding of `zhkit.go` and `number.go`.

* A Go `string` is the list of its bytes (`GoString`); indexing, slicing and
  `len` are byte operations, exactly as in Go.  Chinese literals of the source
  are written `str "零"`, the UTF-8 bytes of the literal.
* A Go `[]string` is a slice header (`Slice`) pointing into a heap of backing
  arrays (`Heap`); `append` writes in place while capacity remains and
  allocates a grown copy otherwise.
* What the code takes from the Go library and runtime without defining it
  (`strings.ToLower`, `strings.TrimSpace`, the capacity chosen by `append`) is a
  parameter (`GoRuntime`); `gc` is the standard toolchain on ASCII text.
-/

namespace Zhkit

/-! ## Go strings -/

/-- A Go string: its bytes. -/
abbrev GoString := List Nat

/-- Go `string(rune)` (`utf8.AppendRune`): the UTF-8 bytes of one code point,
`U+FFFD` for a surrogate or a value beyond `U+10FFFF`. -/
def encodeRune (r : Nat) : GoString :=
  if r < 0x80 then [r]
  else if r < 0x800 then [0xC0 + r / 64, 0x80 + r % 64]
  else if 0xD800 ≤ r ∧ r ≤ 0xDFFF then [0xEF, 0xBF, 0xBD]
  else if r < 0x10000 then [0xE0 + r / 4096, 0x80 + r / 64 % 64, 0x80 + r % 64]
  else if r < 0x110000 then
    [0xF0 + r / 262144, 0x80 + r / 4096 % 64, 0x80 + r / 64 % 64, 0x80 + r % 64]
  else [0xEF, 0xBF, 0xBD]

/-- Go `string([]rune)`. -/
def runesToString (rs : List Nat) : GoString := (rs.map encodeRune).flatten

/-- The bytes of a string literal of the source (source files are UTF-8). -/
def str (s : String) : GoString := runesToString (s.toList.map Char.toNat)

/-- Go `strings.HasPrefix`. -/
def HasPrefix (s pre : GoString) : Bool := pre.isPrefixOf s

/-- Go `strings.HasSuffix`. -/
def HasSuffix (s suf : GoString) : Bool := suf.isSuffixOf s

/-- Go `strings.Join`. -/
def Join : List GoString → GoString → GoString
  | [], _ => []
  | [a], _ => a
  | a :: b :: rest, sep => a ++ sep ++ Join (b :: rest) sep

/-! ## Library and runtime parameters -/

/-- What the segmenter uses of the Go library and runtime: the two `strings`
functions of its normalisation step (both return the empty string on the empty
string) and the capacity `append` gives a slice that has to grow, from the old
capacity and the length needed. -/
structure GoRuntime where
  ToLower : GoString → GoString
  TrimSpace : GoString → GoString
  growCap : Nat → Nat → Nat
  ToLower_nil : ToLower [] = []
  TrimSpace_nil : TrimSpace [] = []

/-- ASCII case folding: `strings.ToLower` on a string without bytes `≥ 0x80`. -/
def asciiToLower (s : GoString) : GoString :=
  s.map (fun b => if 65 ≤ b ∧ b ≤ 90 then b + 32 else b)

/-- The ASCII white space of `strings.TrimSpace`: `\t \n \v \f \r` and space. -/
def asciiSpace (b : Nat) : Bool := (9 ≤ b && b ≤ 13) || b == 32

/-- ASCII trimming: `strings.TrimSpace` on a string without bytes `≥ 0x80`. -/
def asciiTrimSpace (s : GoString) : GoString :=
  ((s.dropWhile asciiSpace).reverse.dropWhile asciiSpace).reverse

/-- The growth loop of the `nextslicecap` rule of the gc runtime for capacities
from 256 elements on: steps of `(cap + 768) / 4` until the needed length fits. -/
def gcGrowLoop : Nat → Nat → Nat → Nat
  | 0, newcap, _ => newcap
  | fuel + 1, newcap, needed =>
    let c := newcap + (newcap + 768) / 4
    if needed ≤ c then c else gcGrowLoop fuel c needed

/-- The capacity the gc runtime gives a grown slice (`nextslicecap`): the needed
length when it exceeds twice the old capacity, else twice the old capacity below
256 elements and the growth loop above.  The runtime then rounds the byte size
up to a malloc size class; for the 16-byte elements of a `[]string` the
capacities 1, 2, 4, ..., 32 (at most 512 bytes) are size classes already; the
rounding of larger ones (with the malloc header of Go 1.22 a slice of capacity 32
grows to 71, not 64) is left out, so the model is that of the runtime up to
capacity 32 only. -/
def gcGrowCap (oldCap needed : Nat) : Nat :=
  if 2 * oldCap < needed then needed
  else if oldCap < 256 then 2 * oldCap
  else gcGrowLoop needed oldCap needed

/-- The standard Go toolchain, on ASCII text. -/
def gc : GoRuntime where
  ToLower := asciiToLower
  TrimSpace := asciiTrimSpace
  growCap := gcGrowCap
  ToLower_nil := rfl
  TrimSpace_nil := rfl

/-! ## Slices of strings -/

/-- A slice header of a `[]string`: backing array, length, capacity (every
slice of the segmenter starts at the first element of its array). -/
structure Slice where
  arr : Nat
  len : Nat
  cap : Nat
deriving DecidableEq, Repr

/-- The backing arrays allocated so far. -/
abbrev Heap := List (List GoString)

/-- The heap before any `append`: array 0 is the empty array of `[]string{}`. -/
def Heap.init : Heap := [[]]

/-- Go `[]string{}`. -/
def Slice.empty : Slice := ⟨0, 0, 0⟩

/-- The elements a slice shows in a heap. -/
def readSlice (h : Heap) (s : Slice) : List GoString :=
  (h.getD s.arr []).take s.len

/-- Go `append(s, x)` on a `[]string`: with spare capacity the element is
written into the shared backing array; otherwise a new array of the grown
capacity receives a copy of the elements and then `x`. -/
def goAppend (rt : GoRuntime) (h : Heap) (s : Slice) (x : GoString) : Heap × Slice :=
  if s.len < s.cap then
    (h.set s.arr ((h.getD s.arr []).set s.len x), ⟨s.arr, s.len + 1, s.cap⟩)
  else
    let newcap := max (rt.growCap s.cap (s.len + 1)) (s.len + 1)
    (h ++ [readSlice h s ++ [x] ++ List.replicate (newcap - (s.len + 1)) []],
      ⟨h.length, s.len + 1, newcap⟩)

/-! ## The segmenter (`zhkit.go`) -/

/-- The syllable table of `isValidPinyin`. -/
def validPinyins : List GoString := [
  "a", "ai", "an", "ang", "ao",
  "ba", "bai", "ban", "bang", "bao", "bei", "ben", "beng", "bi", "bian", "biao", "bie", "bin", "bing", "bo", "bu",
  "ca", "cai", "can", "cang", "cao", "ce", "cen", "ceng", "cha", "chai", "chan", "chang", "chao", "che", "chen", "cheng", "chi", "chong", "chou", "chu", "chuai", "chuan", "chuang", "chui", "chun", "chuo", "ci", "cong", "cou", "cu", "cuan", "cui", "cun", "cuo",
  "da", "dai", "dan", "dang", "dao", "de", "deng", "di", "dian", "diao", "die", "ding", "diu", "dong", "dou", "du", "duan", "dui", "dun", "duo",
  "e", "en", "er",
  "fa", "fan", "fang", "fei", "fen", "feng", "fo", "fou", "fu",
  "ga", "gai", "gan", "gang", "gao", "ge", "gei", "gen", "geng", "gong", "gou", "gu", "gua", "guai", "guan", "guang", "gui", "gun", "guo",
  "ha", "hai", "han", "hang", "hao", "he", "hei", "hen", "heng", "hong", "hou", "hu", "hua", "huai", "huan", "huang", "hui", "hun", "huo",
  "ji", "jia", "jian", "jiang", "jiao", "jie", "jin", "jing", "jiong", "jiu", "ju", "juan", "jue", "jun",
  "ka", "kai", "kan", "kang", "kao", "ke", "ken", "keng", "kong", "kou", "ku", "kua", "kuai", "kuan", "kuang", "kui", "kun", "kuo",
  "la", "lai", "lan", "lang", "lao", "le", "lei", "leng", "li", "lia", "lian", "liang", "liao", "lie", "lin", "ling", "liu", "long", "lou", "lu", "luan", "lue", "lun", "luo", "lv",
  "ma", "mai", "man", "mang", "mao", "me", "mei", "men", "meng", "mi", "mian", "miao", "mie", "min", "ming", "miu", "mo", "mou", "mu",
  "na", "nai", "nan", "nang", "nao", "ne", "nei", "nen", "neng", "ni", "nian", "niang", "niao", "nie", "nin", "ning", "niu", "nong", "nu", "nuan", "nue", "nuo", "nv",
  "o", "ou",
  "pa", "pai", "pan", "pang", "pao", "pei", "pen", "peng", "pi", "pian", "piao", "pie", "pin", "ping", "po", "pou", "pu",
  "qi", "qia", "qian", "qiang", "qiao", "qie", "qin", "qing", "qiong", "qiu", "qu", "quan", "que", "qun",
  "ran", "rang", "rao", "re", "ren", "reng", "ri", "rong", "rou", "ru", "ruan", "rui", "run", "ruo",
  "sa", "sai", "san", "sang", "sao", "se", "sen", "seng", "sha", "shai", "shan", "shang", "shao", "she", "shen", "sheng", "shi", "shou", "shu", "shua", "shuai", "shuan", "shuang", "shui", "shun", "shuo", "si", "song", "sou", "su", "suan", "sui", "sun", "suo",
  "ta", "tai", "tan", "tang", "tao", "te", "teng", "ti", "tian", "tiao", "tie", "ting", "tong", "tou", "tu", "tuan", "tui", "tun", "tuo",
  "wa", "wai", "wan", "wang", "wei", "wen", "weng", "wo", "wu",
  "xi", "xia", "xian", "xiang", "xiao", "xie", "xin", "xing", "xiong", "xiu", "xu", "xuan", "xue", "xun",
  "ya", "yan", "yang", "yao", "ye", "yi", "yin", "ying", "yo", "yong", "you", "yu", "yuan", "yue", "yun",
  "za", "zai", "zan", "zang", "zao", "ze", "zei", "zen", "zeng", "zha", "zhai", "zhan", "zhang", "zhao", "zhe", "zhen", "zheng", "zhi", "zhong", "zhou", "zhu", "zhua", "zhuai", "zhuan", "zhuang", "zhui", "zhun", "zhuo", "zi", "zong", "zou", "zu", "zuan", "zui", "zun", "zuo"
  ].map str

/-- Go `isValidPinyin`: membership in the table, by linear search. -/
def isValidPinyin (pinyin : GoString) : Bool :=
  validPinyins.any (fun valid => valid == pinyin)

/-- One pass of the loop body of `splitPinyinRecursive` for cut length `i`,
given the recursive call `recurse`. -/
def splitStep (rt : GoRuntime) (recurse : GoString → Heap → Slice → Heap × List Slice)
    (pinyin : GoString) (current : Slice) (st : Heap × List Slice) (i : Nat) :
    Heap × List Slice :=
  if i ≤ pinyin.length then
    let pre := pinyin.take i
    if isValidPinyin pre then
      let newCurrent := goAppend rt st.1 current pre
      let subResults := recurse (pinyin.drop i) newCurrent.1 newCurrent.2
      (subResults.1, st.2 ++ subResults.2)
    else st
  else st

/-- Go `splitPinyinRecursive`, threading the heap.  The first argument bounds
the recursion depth; every call consumes at least one byte, so the length of
`pinyin` plus one is enough (`splitPinyinRecursive_fuel`). -/
def splitPinyinRecursive (rt : GoRuntime) :
    Nat → GoString → Heap → Slice → Heap × List Slice
  | 0, _, h, _ => (h, [])
  | fuel + 1, pinyin, h, current =>
    if pinyin = [] then (h, [current])
    else
      [1, 2, 3, 4, 5, 6].foldl
        (splitStep rt (splitPinyinRecursive rt fuel) pinyin current) (h, [])

/-- The call `c.splitPinyinRecursive(pinyin, []string{})` of the two entry
points, with the decompositions read when it returns. -/
def splitAll (rt : GoRuntime) (pinyin : GoString) : List (List GoString) :=
  let results := splitPinyinRecursive rt (pinyin.length + 1) pinyin Heap.init Slice.empty
  results.2.map (readSlice results.1)

/-- Go `SplitPinyinArray` (its error result is always `nil`). -/
def SplitPinyinArray (rt : GoRuntime) (pinyin : GoString) : List (List GoString) :=
  if pinyin = [] then []
  else
    let pinyin := rt.ToLower (rt.TrimSpace pinyin)
    let results := splitAll rt pinyin
    if results.length = 0 then [[pinyin]]
    else results

/-- Go `SplitPinyin` (its error result is always `nil`). -/
def SplitPinyin (rt : GoRuntime) (pinyin : GoString) : List GoString :=
  if pinyin = [] then []
  else
    let pinyin := rt.ToLower (rt.TrimSpace pinyin)
    let results := splitAll rt pinyin
    if results.length = 0 then [pinyin]
    else results.map (fun result => Join result (str " "))

/-! ## More of the Go library -/

/-- Go `utf8.DecodeRuneInString`: the first code point of a string and its width
in bytes; an invalid or truncated encoding yields `U+FFFD` with width 1. -/
def decodeRune : GoString → Nat × Nat
  | [] => (0xFFFD, 0)
  | b0 :: rest =>
    if b0 < 0x80 then (b0, 1)
    else if b0 < 0xC2 ∨ 0xF4 < b0 then (0xFFFD, 1)
    else if b0 < 0xE0 then
      match rest with
      | b1 :: _ =>
        if 0x80 ≤ b1 ∧ b1 ≤ 0xBF then (b0 % 32 * 64 + b1 % 64, 2) else (0xFFFD, 1)
      | _ => (0xFFFD, 1)
    else if b0 < 0xF0 then
      let lo := if b0 = 0xE0 then 0xA0 else 0x80
      let hi := if b0 = 0xED then 0x9F else 0xBF
      match rest with
      | b1 :: b2 :: _ =>
        if lo ≤ b1 ∧ b1 ≤ hi ∧ 0x80 ≤ b2 ∧ b2 ≤ 0xBF then
          (b0 % 16 * 4096 + b1 % 64 * 64 + b2 % 64, 3)
        else (0xFFFD, 1)
      | _ => (0xFFFD, 1)
    else
      let lo := if b0 = 0xF0 then 0x90 else 0x80
      let hi := if b0 = 0xF4 then 0x8F else 0xBF
      match rest with
      | b1 :: b2 :: b3 :: _ =>
        if lo ≤ b1 ∧ b1 ≤ hi ∧ 0x80 ≤ b2 ∧ b2 ≤ 0xBF ∧ 0x80 ≤ b3 ∧ b3 ≤ 0xBF then
          (b0 % 8 * 262144 + b1 % 64 * 4096 + b2 % 64 * 64 + b3 % 64, 4)
        else (0xFFFD, 1)
      | _ => (0xFFFD, 1)

/-- Decoding loop of `toRunes`: `skip` bytes of the code point just decoded are
still to be passed over. -/
def toRunesFrom : Nat → GoString → List Nat
  | _, [] => []
  | skip + 1, _ :: rest => toRunesFrom skip rest
  | 0, b :: rest => (decodeRune (b :: rest)).1 :: toRunesFrom ((decodeRune (b :: rest)).2 - 1) rest

/-- Go `[]rune(s)`, also the code points a `range` loop over a string visits. -/
def toRunes (s : GoString) : List Nat := toRunesFrom 0 s

/-- Splitting loop of `Split`: `cur` is the piece being collected, `skip` bytes
of a separator just matched are still to be passed over. -/
def splitFrom (sep : GoString) : Nat → GoString → GoString → List GoString
  | _, [], cur => [cur]
  | skip + 1, _ :: rest, cur => splitFrom sep skip rest cur
  | 0, b :: rest, cur =>
    if sep.isPrefixOf (b :: rest) then cur :: splitFrom sep (sep.length - 1) rest []
    else splitFrom sep 0 rest (cur ++ [b])

/-- Go `strings.Split(s, sep)` for a non-empty separator. -/
def Split (s sep : GoString) : List GoString := splitFrom sep 0 s []

/-- Go `strings.Contains`. -/
def Contains : GoString → GoString → Bool
  | [], sub => sub.isEmpty
  | b :: rest, sub => sub.isPrefixOf (b :: rest) || Contains rest sub

/-- Go `strings.TrimLeft(s, "0")`. -/
def TrimLeftZeros (s : GoString) : GoString := s.dropWhile (fun b => b == 48)

/-- Decimal digits of a natural number, most significant first, before `acc`. -/
def formatNatAux : Nat → Nat → GoString → GoString
  | 0, _, acc => acc
  | fuel + 1, n, acc =>
    if n < 10 then (48 + n) :: acc else formatNatAux fuel (n / 10) ((48 + n % 10) :: acc)

/-- Go `strconv.Itoa` and `strconv.FormatInt(v, 10)`. -/
def Itoa (v : Int) : GoString :=
  if v < 0 then 45 :: formatNatAux (v.natAbs + 1) v.natAbs []
  else formatNatAux (v.natAbs + 1) v.natAbs []

/-- Subtraction of two `byte` values, wrapping modulo 256. -/
def byteSub (a b : Nat) : Nat := (a + 256 - b % 256) % 256

/-- Wrapping of an integer into the `int64` range. -/
def wrapInt64 (x : Int) : Int := (x + 2 ^ 63) % 2 ^ 64 - 2 ^ 63

/-! ## Numeral conversion (`number.go`) -/

/-- How a call ends without a value: a non-nil `error` with its message, or a
run-time panic (index out of range). -/
inductive Fault where
  | error (msg : GoString)
  | panic
deriving DecidableEq, Repr

deriving instance DecidableEq for Except

/-- The index expression `table[i]` of a `[]string`. -/
def index (table : List GoString) (i : Nat) : Except Fault GoString :=
  match table.get? i with
  | some x => .ok x
  | none => .error .panic

def chineseNumbers : List GoString :=
  ["零", "一", "二", "三", "四", "五", "六", "七", "八", "九"].map str

def chineseUnits : List GoString := ["", "十", "百", "千"].map str

def chineseBigUnits : List GoString := ["", "万", "亿", "兆"].map str

def currencyNumbers : List GoString :=
  ["零", "壹", "贰", "叁", "肆", "伍", "陆", "柒", "捌", "玖"].map str

def currencyUnits : List GoString := ["", "拾", "佰", "仟"].map str

def currencyBigUnits : List GoString := ["", "万", "亿", "兆"].map str

def currencyDecimalUnits : List GoString := ["角", "分"].map str

/-- Go `NumberOptions`. -/
structure NumberOptions where
  TenMin : Bool
deriving DecidableEq, Repr

/-- The `interface{}` argument of the encoders, by dynamic type.  A `float64` is
given by the two texts the encoders format it to: `strconv.FormatFloat(v, 'f',
-1, 64)` in `ToChineseNumber` and `fmt.Sprintf("%.2f", v)` in
`ToCurrencyNumber`. -/
inductive Number where
  | int (v : Int)
  | int64 (v : Int)
  | float64 (shortest twoPlaces : GoString)
  | string (v : GoString)
  | other
deriving DecidableEq, Repr

/-- The body of the digit loop shared, up to the three tables, by
`convertIntegerToChinese` and `convertIntegerToCurrency`: the state is
`(result, zeroFlag)`, `b` is `integerStr[i]`. -/
def integerStep (numbers units bigUnits : List GoString) (length i b : Nat)
    (st : GoString × Bool) : Except Fault (GoString × Bool) :=
  let digit := byteSub b 48
  let pos := length - i - 1
  let bigUnitPos := pos / 4
  let unitPos := pos % 4
  if digit = 0 then
    if unitPos = 0 ∧ bigUnitPos > 0 then do
      let big ← index bigUnits bigUnitPos
      if !HasSuffix st.1 big then pure (st.1 ++ big, true) else pure (st.1, true)
    else pure (st.1, true)
  else do
    let result := if st.2 = true ∧ st.1 ≠ [] then st.1 ++ str "零" else st.1
    let number ← index numbers digit
    let result := result ++ number
    let result ← if unitPos > 0 then do
        let unit ← index units unitPos
        pure (result ++ unit)
      else pure result
    let result ← if unitPos = 0 ∧ bigUnitPos > 0 then do
        let big ← index bigUnits bigUnitPos
        pure (result ++ big)
      else pure result
    pure (result, false)

/-- The digit loop `for i := 0; i < length; i++` over the bytes still to be
processed, `i` being the index of the first of them. -/
def integerLoop (numbers units bigUnits : List GoString) (length : Nat) :
    GoString → Nat → GoString × Bool → Except Fault GoString
  | [], _, st => pure st.1
  | b :: rest, i, st => do
    let st ← integerStep numbers units bigUnits length i b st
    integerLoop numbers units bigUnits length rest (i + 1) st

/-- Go `convertIntegerToChinese`. -/
def convertIntegerToChinese (integerStr : GoString) (options : NumberOptions) :
    Except Fault GoString :=
  if integerStr = [] ∨ integerStr = str "0" then pure (str "零")
  else
    let integerStr := TrimLeftZeros integerStr
    if integerStr = [] then pure (str "零")
    else
      let length := integerStr.length
      if length > 16 then .error (.error (str "数字过大，超出处理范围"))
      else do
        let result ←
          integerLoop chineseNumbers chineseUnits chineseBigUnits length integerStr 0 ([], false)
        if options.TenMin = true ∧ HasPrefix result (str "一十") = true then
          pure (str "十" ++ result.drop 2)
        else pure result

/-- Go `convertDecimalToChinese`: one table lookup per code point of the
fraction, indexed by `int(char - '0')`. -/
def convertDecimalToChinese (decimalStr : GoString) : Except Fault GoString :=
  if decimalStr = [] then pure []
  else
    (toRunes decimalStr).foldlM
      (fun result char =>
        if char < 48 then .error .panic
        else do
          let number ← index chineseNumbers (char - 48)
          pure (result ++ number))
      []

/-- Go `convertIntegerToCurrency`. -/
def convertIntegerToCurrency (integerStr : GoString) : Except Fault GoString :=
  if integerStr = [] ∨ integerStr = str "0" then pure (str "零")
  else
    let integerStr := TrimLeftZeros integerStr
    if integerStr = [] then pure (str "零")
    else
      let length := integerStr.length
      if length > 16 then .error (.error (str "金额过大，超出处理范围"))
      else
        integerLoop currencyNumbers currencyUnits currencyBigUnits length integerStr 0 ([], false)

/-- Go `convertDecimalToCurrency`. -/
def convertDecimalToCurrency (decimalStr : GoString) : Except Fault GoString :=
  match decimalStr with
  | [b0, b1] =>
    let jiao := byteSub b0 48
    let fen := byteSub b1 48
    do
      let result ← if jiao > 0 then do
          let number ← index currencyNumbers jiao
          let unit ← index currencyDecimalUnits 0
          pure (number ++ unit)
        else pure []
      if fen > 0 then do
        let result := if jiao = 0 then result ++ str "零" else result
        let number ← index currencyNumbers fen
        let unit ← index currencyDecimalUnits 1
        pure (result ++ number ++ unit)
      else pure result
  | _ => pure []

/-- The `numStr` a `ToChineseNumber` argument is formatted to, if its type is
supported. -/
def Number.chineseText : Number → Option GoString
  | .int v => some (Itoa v)
  | .int64 v => some (Itoa v)
  | .float64 shortest _ => some shortest
  | .string v => some v
  | .other => none

/-- The `amountStr` a `ToCurrencyNumber` argument is formatted to, if its type
is supported. -/
def Number.currencyText : Number → Option GoString
  | .int v => some (Itoa v)
  | .int64 v => some (Itoa v)
  | .float64 _ twoPlaces => some twoPlaces
  | .string v => some v
  | .other => none

/-- Go `ToChineseNumber`; `options = none` is the `nil` pointer. -/
def ToChineseNumber (number : Number) (options : Option NumberOptions) :
    Except Fault GoString :=
  let options := options.getD ⟨false⟩
  match number.chineseText with
  | none => .error (.error (str "不支持的数字类型"))
  | some numStr =>
    let isNegative := HasPrefix numStr (str "-")
    let numStr := if isNegative then numStr.drop 1 else numStr
    let parts := Split numStr (str ".")
    let integerPart := parts.headD []
    let decimalPart := if parts.length > 1 then parts.getD 1 [] else []
    do
      let integerChinese ← convertIntegerToChinese integerPart options
      let decimalChinese ←
        if decimalPart ≠ [] then convertDecimalToChinese decimalPart else pure []
      let result :=
        if decimalChinese ≠ [] then integerChinese ++ str "点" ++ decimalChinese
        else integerChinese
      if isNegative then pure (str "负" ++ result) else pure result

/-- Go `ToCurrencyNumber`. -/
def ToCurrencyNumber (amount : Number) (unit : GoString) : Except Fault GoString :=
  let unit := if unit = [] then str "元" else unit
  match amount.currencyText with
  | none => .error (.error (str "不支持的金额类型"))
  | some amountStr =>
    let isNegative := HasPrefix amountStr (str "-")
    let amountStr := if isNegative then amountStr.drop 1 else amountStr
    let parts := Split amountStr (str ".")
    let integerPart := parts.headD []
    let decimalPart :=
      if parts.length > 1 then
        let decimalPart := parts.getD 1 []
        if decimalPart.length = 1 then decimalPart ++ str "0"
        else if decimalPart.length > 2 then decimalPart.take 2
        else decimalPart
      else str "00"
    do
      let integerChinese ← convertIntegerToCurrency integerPart
      let decimalChinese ← convertDecimalToCurrency decimalPart
      let result := if isNegative then str "负" else []
      if integerChinese = [] ∨ integerChinese = str "零" then
        if decimalChinese = [] then pure (result ++ (str "零" ++ unit ++ str "整"))
        else pure (result ++ decimalChinese)
      else
        let result := result ++ (integerChinese ++ unit)
        if decimalChinese = [] then pure (result ++ str "整")
        else pure (result ++ decimalChinese)

/-- The `numberMap` of `convertChineseToInteger`. -/
def numberMap : List (GoString × Int) :=
  [(str "零", 0), (str "一", 1), (str "二", 2), (str "三", 3), (str "四", 4), (str "五", 5),
   (str "六", 6), (str "七", 7), (str "八", 8), (str "九", 9), (str "十", 10),
   (str "壹", 1), (str "贰", 2), (str "叁", 3), (str "肆", 4), (str "伍", 5),
   (str "陆", 6), (str "柒", 7), (str "捌", 8), (str "玖", 9), (str "拾", 10)]

/-- The `numberMap` of `parseChineseTen`. -/
def tenNumberMap : List (GoString × Int) :=
  [(str "一", 1), (str "二", 2), (str "三", 3), (str "四", 4), (str "五", 5),
   (str "六", 6), (str "七", 7), (str "八", 8), (str "九", 9)]

/-- The `numberMap` of `convertChineseToDecimal`. -/
def decimalNumberMap : List (GoString × Int) :=
  [(str "零", 0), (str "一", 1), (str "二", 2), (str "三", 3), (str "四", 4), (str "五", 5),
   (str "六", 6), (str "七", 7), (str "八", 8), (str "九", 9)]

/-- Go `parseChineseTen`. -/
def parseChineseTen (chineseNum : GoString) : Except Fault Int :=
  if chineseNum = str "十" then pure 10
  else
    let failure : Except Fault Int :=
      .error (.error (str "无法解析的十位数字: " ++ chineseNum))
    if HasPrefix chineseNum (str "十") = true ∧ chineseNum.length > 1 then
      match (toRunes chineseNum).get? 1 with
      | none => .error .panic
      | some r =>
        match tenNumberMap.lookup (encodeRune r) with
        | some val => pure (10 + val)
        | none => failure
    else failure

/-- Go `convertChineseToInteger`; the accumulator is an `int64`. -/
def convertChineseToInteger (chineseNum : GoString) : Except Fault Int :=
  if chineseNum = str "零" then pure 0
  else
    match numberMap.lookup chineseNum with
    | some val => pure val
    | none =>
      if Contains chineseNum (str "十") then parseChineseTen chineseNum
      else
        (toRunes chineseNum).foldlM
          (fun result r =>
            match numberMap.lookup (encodeRune r) with
            | some val => pure (wrapInt64 (result * 10 + val))
            | none => .error (.error (str "无法解析的中文数字: " ++ chineseNum)))
          0

/-- Go `convertChineseToDecimal`; the state is `(result, divisor)`.  A `float64`
is represented by the rational number it denotes and the operations are the
exact ones: rounding is not modelled here (`convertChineseToDecimal64` below
rounds every operation to binary64). -/
def convertChineseToDecimal (chineseDecimal : GoString) : Except Fault ℚ :=
  Prod.fst <$> (toRunes chineseDecimal).foldlM
    (fun (st : ℚ × ℚ) char =>
      match decimalNumberMap.lookup (encodeRune char) with
      | some val => pure (st.1 + (val : ℚ) / st.2, st.2 * 10)
      | none => .error (.error (str "无法解析的中文小数: " ++ chineseDecimal)))
    (0, 10)

/-- Go `ChineseToNumber`.  The `float64` result is represented by the rational
number it denotes; `float64(integerValue) + decimalValue` is the exact sum,
which is what the code computes whenever the decimal part is absent and the
integer is below `2^53` (`ChineseToNumber64_eq_exact`); `ChineseToNumber64` below
rounds every operation to binary64. -/
def ChineseToNumber (chineseNum : GoString) : Except Fault ℚ :=
  if chineseNum = [] then .error (.error (str "输入为空"))
  else
    let isNegative := HasPrefix chineseNum (str "负")
    let chineseNum :=
      if isNegative then runesToString ((toRunes chineseNum).drop 1) else chineseNum
    let parts := Split chineseNum (str "点")
    let integerPart := parts.headD []
    let decimalPart := if parts.length > 1 then parts.getD 1 [] else []
    do
      let integerValue ← convertChineseToInteger integerPart
      let decimalValue ←
        if decimalPart ≠ [] then convertChineseToDecimal decimalPart else pure 0
      let result := (integerValue : ℚ) + decimalValue
      if isNegative then pure (-result) else pure result

/-! ## Specification vocabulary -/

/-- A string has a complete decomposition into dictionary syllables. -/
def Decomposable (s : GoString) : Prop :=
  ∃ parts : List GoString, (∀ y ∈ parts, isValidPinyin y = true) ∧ parts.flatten = s

/-- A byte is an ASCII decimal digit. -/
def isDigit (b : Nat) : Bool := 48 ≤ b && b ≤ 57

/-- Every byte of a string is an ASCII decimal digit. -/
def Digits (s : GoString) : Prop := ∀ b ∈ s, isDigit b = true

/-- Encoding an `int` with `ToChineseNumber(n, nil)` and decoding the text with
`ChineseToNumber`. -/
def roundTrip (n : Int) : Except Fault ℚ :=
  ToChineseNumber (.int n) none >>= ChineseToNumber

/-- A call returned a non-nil `error` (and did not panic). -/
def returnsError {α : Type} : Except Fault α → Bool
  | .error (.error _) => true
  | _ => false

/-- The text `[-]I[.D]`: an optional sign, the integer digits and an optional
fraction. -/
def numeral (negative : Bool) (I : GoString) (frac : Option GoString) : GoString :=
  (if negative then str "-" else []) ++
    (I ++ (match frac with
      | none => []
      | some D => str "." ++ D))

/-- The two-digit fraction `ToCurrencyNumber` derives from the text. -/
def currencyFraction (frac : Option GoString) : GoString :=
  match frac with
  | none => str "00"
  | some D =>
    if D.length = 1 then D ++ str "0"
    else if D.length > 2 then D.take 2
    else D

instance (s : GoString) : Decidable (Digits s) := by
  unfold Digits; infer_instance

/-- How `ToChineseNumber` assembles its text from the two converted parts. -/
def plainText (negative : Bool) (integerChinese decimalChinese : GoString) : GoString :=
  (if negative then str "负" else []) ++
    (if decimalChinese ≠ [] then integerChinese ++ str "点" ++ decimalChinese
     else integerChinese)

/-- How `ToCurrencyNumber` assembles its text from the two converted parts. -/
def currencyText (negative : Bool) (integerChinese unit decimalChinese : GoString) :
    GoString :=
  (if negative then str "负" else []) ++
    (if integerChinese = [] ∨ integerChinese = str "零" then
      (if decimalChinese = [] then str "零" ++ unit ++ str "整" else decimalChinese)
    else
      (integerChinese ++ unit) ++ (if decimalChinese = [] then str "整" else decimalChinese))

/-- The first byte of a text is that of a plain digit symbol, of `十` or of `零`
(`0xE4`, `0xE5`, `0xE9`), hence not that of `负` (`0xE8`). -/
def plainHead (t : GoString) : Prop :=
  t.head? = some 228 ∨ t.head? = some 229 ∨ t.head? = some 233

/-- The string of `k` digits `0`. -/
def zeros (k : Nat) : GoString := List.replicate k 48

/-- What C14 asks of the text of a decimal-only amount: the 角/分 text `dc` is
not empty and the result, `dc` behind the optional `负`, contains neither `整`
nor `元`. -/
def decimalOnlyCheck (negative : Bool) : Except Fault GoString → Bool
  | .ok dc =>
    dc != [] &&
    !Contains ((if negative then str "负" else []) ++ dc) (str "整") &&
    !Contains ((if negative then str "负" else []) ++ dc) (str "元")
  | .error _ => false

/-- The digit symbol of value `p.2` in the plain (`p.1 = false`) or the financial
(`p.1 = true`) alphabet. -/
def digitSymbol (p : Bool × Nat) : GoString :=
  (if p.1 then currencyNumbers else chineseNumbers).getD p.2 []

/-- The text that consists of the given digit symbols. -/
def symbolsText (syms : List (Bool × Nat)) : GoString := (syms.map digitSymbol).flatten

/-- The number with the given decimal digits, most significant first. -/
def decimalValue : List Nat → Nat
  | [] => 0
  | d :: ds => d * 10 ^ ds.length + decimalValue ds

/-- A string is the three-byte UTF-8 encoding of one code point from `U+1000`
to `U+CFFF` (which covers every symbol of the numeral tables). -/
def isHan3 : GoString → Bool
  | [a, b, c] => 0xE1 ≤ a && a ≤ 0xEC && 0x80 ≤ b && b ≤ 0xBF && 0x80 ≤ c && c ≤ 0xBF
  | _ => false

/-! ## Character tables and per-character conversions (zhkit.go) -/

/-- Go `Chinese`.  A map is the function that gives the value stored under a
key, if there is one; a `rune` is the number of the code point. -/
structure Chinese where
  pinyinData : Nat → Option (List GoString)
  simplifiedData : Nat → Option (List Nat)
  traditionalData : Nat → Option (List Nat)
  pinyinSplitData : GoString → Option (List GoString)

/-- Go `NewChinese`: four empty maps. -/
def NewChinese : Chinese :=
  ⟨fun _ => none, fun _ => none, fun _ => none, fun _ => none⟩

/-- Go `ConvertMode` flag `ModePinyin = 1 << iota`. -/
def ModePinyin : Nat := 1

/-- Go `ModePinyinFirst`. -/
def ModePinyinFirst : Nat := 2

/-- Go `ModePinyinSound`. -/
def ModePinyinSound : Nat := 4

/-- Go `ModePinyinSoundNumber`. -/
def ModePinyinSoundNumber : Nat := 8

/-- Go `PinyinResult`; `none` is the `nil` slice of a mode that was not asked
for. -/
structure PinyinResult where
  Pinyin : Option (List (List GoString))
  PinyinFirst : Option (List (List GoString))
  PinyinSound : Option (List (List GoString))
  PinyinSoundNumber : Option (List (List GoString))
deriving DecidableEq, Repr

/-- Go `addToneMarks`. -/
def addToneMarks (pinyin : GoString) : GoString := pinyin

/-- Go `addToneNumbers`. -/
def addToneNumbers (pinyin : GoString) : GoString := pinyin ++ str "1"

/-- Go `append(field, row)` on a field of the result, when the mode is set. -/
def appendRow (enabled : Bool) (field : Option (List (List GoString))) (row : List GoString) :
    Option (List (List GoString)) :=
  if enabled then some (field.getD [] ++ [row]) else field

/-- The first-letter row of `ToPinyin`: `firsts[i] = string(py[0])` for a
non-empty `py`, the empty string otherwise; `py[0]` is the first byte. -/
def firstLetters (pinyins : List GoString) : List GoString :=
  pinyins.map (fun py =>
    match py with
    | [] => []
    | b :: _ => encodeRune b)

/-- The body of the loop of `ToPinyin` for the rune `r`. -/
def pinyinStep (c : Chinese) (mode : Nat) (result : PinyinResult) (r : Nat) : PinyinResult :=
  match c.pinyinData r with
  | some pinyins =>
    { Pinyin := appendRow (mode &&& ModePinyin != 0) result.Pinyin pinyins
      PinyinFirst := appendRow (mode &&& ModePinyinFirst != 0) result.PinyinFirst
        (firstLetters pinyins)
      PinyinSound := appendRow (mode &&& ModePinyinSound != 0) result.PinyinSound
        (pinyins.map addToneMarks)
      PinyinSoundNumber := appendRow (mode &&& ModePinyinSoundNumber != 0)
        result.PinyinSoundNumber (pinyins.map addToneNumbers) }
  | none =>
    let charStr := encodeRune r
    { Pinyin := appendRow (mode &&& ModePinyin != 0) result.Pinyin [charStr]
      PinyinFirst := appendRow (mode &&& ModePinyinFirst != 0) result.PinyinFirst [charStr]
      PinyinSound := appendRow (mode &&& ModePinyinSound != 0) result.PinyinSound [charStr]
      PinyinSoundNumber := appendRow (mode &&& ModePinyinSoundNumber != 0)
        result.PinyinSoundNumber [charStr] }

/-- Go `ToPinyin` (its error result is always `nil`; the separator and
`splitNonChinese` are not used by the code). -/
def ToPinyin (c : Chinese) (text : GoString) (mode : Nat) (separator : GoString)
    (splitNonChinese : Bool) : PinyinResult :=
  if text = [] then ⟨none, none, none, none⟩
  else
    let _separator := if separator = [] then str " " else separator
    let _split := splitNonChinese
    let runes := toRunes text
    let result : PinyinResult :=
      { Pinyin := if mode &&& ModePinyin != 0 then some [] else none
        PinyinFirst := if mode &&& ModePinyinFirst != 0 then some [] else none
        PinyinSound := if mode &&& ModePinyinSound != 0 then some [] else none
        PinyinSoundNumber := if mode &&& ModePinyinSoundNumber != 0 then some [] else none }
    runes.foldl (pinyinStep c mode) result

/-- The rune the loops of `ToSimplified` and `ToTraditional` store for `r`: the
first candidate of a non-empty table entry, else `r` itself. -/
def substitute (table : Nat → Option (List Nat)) (r : Nat) : Nat :=
  match table r with
  | some (first :: _) => first
  | _ => r

/-- Go `ToSimplified` (its error result is always `nil`). -/
def ToSimplified (c : Chinese) (text : GoString) : List GoString :=
  if text = [] then [[]]
  else [runesToString ((toRunes text).map (substitute c.simplifiedData))]

/-- Go `ToTraditional` (its error result is always `nil`). -/
def ToTraditional (c : Chinese) (text : GoString) : List GoString :=
  if text = [] then [[]]
  else [runesToString ((toRunes text).map (substitute c.traditionalData))]

/-- A number is a Unicode scalar value: a code point that is not a surrogate. -/
def isScalar (r : Nat) : Bool := r < 0xD800 || (0xDFFF < r && r < 0x110000)

/-- A pinyin table with the single entry `爱 ↦ ["ài"]`. -/
def aiTable : Chinese :=
  { NewChinese with pinyinData := fun r => if r = 0x7231 then some [str "ài"] else none }

/-- A table with the single entry `發 ↦ [发]` for simplification. -/
def faTable : Chinese :=
  { NewChinese with simplifiedData := fun r => if r = 0x767C then some [0x53D1] else none }

/-! ## The integer encoders as sequences of symbols -/

/-- A symbol of an integer text: the digit symbol of a value, the unit of a
position inside a group (`十 百 千`), or the big unit of a group (`万 亿 兆`). -/
inductive Sym where
  | digit (d : Nat)
  | unit (u : Nat)
  | big (g : Nat)
deriving DecidableEq, Repr

/-- The symbols an encoder can emit. -/
def validSyms : List Sym :=
  [.digit 0, .digit 1, .digit 2, .digit 3, .digit 4, .digit 5, .digit 6, .digit 7, .digit 8,
   .digit 9, .unit 1, .unit 2, .unit 3, .big 1, .big 2, .big 3]

/-- The text of a symbol in an alphabet given by its three tables. -/
def renderSym (numbers units bigUnits : List GoString) : Sym → GoString
  | .digit d => numbers.getD d []
  | .unit u => units.getD u []
  | .big g => bigUnits.getD g []

/-- The text of a sequence of symbols. -/
def render (numbers units bigUnits : List GoString) (syms : List Sym) : GoString :=
  (syms.map (renderSym numbers units bigUnits)).flatten

/-- The symbols the positional rule emits for the digit of value `digit` at index
`i` of `length` digits: `syms` are the symbols so far, the flag tells whether a
zero is pending.  A zero digit emits the big unit when it closes a group; a
non-zero digit emits `零` for pending zeros, its own symbol, its unit and, when it
closes a group, the big unit. -/
def symStep (length i digit : Nat) (st : List Sym × Bool) : List Sym × Bool :=
  let pos := length - i - 1
  if digit = 0 then
    (if pos % 4 = 0 ∧ pos / 4 > 0 then st.1 ++ [.big (pos / 4)] else st.1, true)
  else
    (st.1 ++ (if st.2 = true ∧ st.1 ≠ [] then [.digit 0] else []) ++ [.digit digit] ++
      (if pos % 4 > 0 then [.unit (pos % 4)] else []) ++
      (if pos % 4 = 0 ∧ pos / 4 > 0 then [.big (pos / 4)] else []), false)

/-- The positional rule over the digits still to be processed. -/
def symLoop (length : Nat) : GoString → Nat → List Sym × Bool → List Sym
  | [], _, st => st.1
  | b :: rest, i, st => symLoop length rest (i + 1) (symStep length i (b - 48) st)

/-- The symbols of the integer text of a digit string. -/
def integerSyms (integerStr : GoString) : List Sym :=
  if TrimLeftZeros integerStr = [] then [.digit 0]
  else symLoop (TrimLeftZeros integerStr).length (TrimLeftZeros integerStr) 0 ([], false)

/-- What the symbol view needs of an alphabet: the sizes of the tables, `零` as
digit 0, every symbol three UTF-8 bytes long, and the big units and `零`
different from every other symbol. -/
def TablesOk (numbers units bigUnits : List GoString) : Prop :=
  numbers.length = 10 ∧ units.length = 4 ∧ bigUnits.length = 4 ∧
  numbers.getD 0 [] = str "零" ∧
  ∀ s ∈ validSyms, isHan3 (renderSym numbers units bigUnits s) = true ∧
    (∀ g ∈ [1, 2, 3], renderSym numbers units bigUnits s = bigUnits.getD g [] ↔ s = .big g) ∧
    (renderSym numbers units bigUnits s = str "零" ↔ s = .digit 0) ∧
    renderSym numbers units bigUnits s ≠ str "点"

instance (numbers units bigUnits : List GoString) : Decidable (TablesOk numbers units bigUnits) := by
  unfold TablesOk; infer_instance

/-- The invariant of the symbol view: only valid symbols, and every big unit
already emitted belongs to a group above the position `pos`. -/
def SymsOk (syms : List Sym) (pos : Nat) : Prop :=
  (∀ s ∈ syms, s ∈ validSyms) ∧ ∀ g, Sym.big g ∈ syms → pos < 4 * g

/-! ## Specification vocabulary of the encoders -/

/-- The symbols of a text: its code points, each as a string. -/
def symbolsOf (t : GoString) : List GoString := (toRunes t).map encodeRune

/-- The financial counterpart of each plain symbol that has one. -/
def financialPairs : List (GoString × GoString) :=
  [(str "一", str "壹"), (str "二", str "贰"), (str "三", str "叁"), (str "四", str "肆"),
   (str "五", str "伍"), (str "六", str "陆"), (str "七", str "柒"), (str "八", str "捌"),
   (str "九", str "玖"), (str "十", str "拾"), (str "百", str "佰"), (str "千", str "仟")]

/-- The financial counterpart of a symbol; `零`, `万`, `亿`, `兆` and every other
symbol are unchanged. -/
def financialSymbol (s : GoString) : GoString := (financialPairs.lookup s).getD s

/-- The text with each plain symbol replaced by its financial counterpart. -/
def toFinancial (t : GoString) : GoString := ((symbolsOf t).map financialSymbol).flatten

/-- The groups of the big units in a sequence of symbols, in order. -/
def bigsOf (syms : List Sym) : List Nat :=
  syms.filterMap (fun s => match s with
    | .big g => some g
    | _ => none)

/-- The big-unit symbols. -/
def bigUnitSymbols : List GoString := [str "万", str "亿", str "兆"]

/-- The big-unit symbols of the groups `G, G - 1, …, 1`, in this order. -/
def descendingBigUnits (G : Nat) : List GoString :=
  (List.iota G).map (fun g => chineseBigUnits.getD g [])

/-- The number of non-zero digits of a digit string that directly follow a zero
digit; `flag` tells whether a zero digit precedes the string. -/
def zeroRunsFrom : Bool → GoString → Nat
  | _, [] => 0
  | flag, b :: rest =>
    (if flag = true ∧ b ≠ 48 then 1 else 0) + zeroRunsFrom (decide (b = 48)) rest

/-- The number of runs of zero digits between two non-zero digits of a digit
string without leading zeros. -/
def interiorZeroRuns (s : GoString) : Nat := zeroRunsFrom false s

/-- Two neighbouring symbols are not both `零`. -/
def notBothZero (a b : GoString) : Prop := ¬ (a = str "零" ∧ b = str "零")

/-- Zero collapsing of a text with `runs` runs of interior zeros: it does not
begin with `零`, does not end with `零`, has no two adjacent `零`, and has exactly
`runs` symbols `零`. -/
def ZeroCollapsed (runs : Nat) (t : GoString) : Prop :=
  (symbolsOf t).head? ≠ some (str "零") ∧ (symbolsOf t).getLast? ≠ some (str "零") ∧
  List.Chain' notBothZero (symbolsOf t) ∧ (symbolsOf t).count (str "零") = runs

/-- The symbol-level form of `notBothZero`. -/
def symNotBothZero (a b : Sym) : Prop := ¬ (a = Sym.digit 0 ∧ b = Sym.digit 0)

/-- A sequence of symbols that does not end with `零` and has no two adjacent
`零`. -/
def SymsCollapsed (syms : List Sym) : Prop :=
  syms.getLast? ≠ some (Sym.digit 0) ∧ List.Chain' symNotBothZero syms

/-- The 角/分 text of the two fraction digits `d1 d2` as the rule states it. -/
def fractionText (d1 d2 : Nat) : GoString :=
  (if d1 ≠ 0 then currencyNumbers.getD d1 [] ++ str "角" else []) ++
  (if d1 = 0 ∧ d2 ≠ 0 then str "零" else []) ++
  (if d2 ≠ 0 then currencyNumbers.getD d2 [] ++ str "分" else [])

/-- The value of the digit at index `i` of a fraction, `0` when the fraction is
shorter. -/
def fractionDigit (D : GoString) (i : Nat) : Nat := D.getD i 48 - 48

/-- The plain symbols of the digits of a fraction, one per digit. -/
def plainDigits (D : GoString) : GoString :=
  (D.map (fun b => chineseNumbers.getD (b - 48) [])).flatten

/-! ## Values of digit strings and symbol sequences; numeral strings -/

/-- The number a string of decimal digits denotes. -/
def digitsValue : GoString → Nat
  | [] => 0
  | b :: rest => (b - 48) * 10 ^ rest.length + digitsValue rest

/-- Reading one symbol of an integer text: the state is `(total, section,
pending)`; a digit symbol becomes the pending digit, a unit of position `u` adds
`pending * 10^u` to the section, and the big unit of group `g` adds the section
and the pending digit, times `10^(4g)`, to the total. -/
def parseStep (st : Nat × Nat × Nat) : Sym → Nat × Nat × Nat
  | .digit d => (st.1, st.2.1, d)
  | .unit u => (st.1, st.2.1 + st.2.2 * 10 ^ u, 0)
  | .big g => (st.1 + (st.2.1 + st.2.2) * 10 ^ (4 * g), 0, 0)

/-- The number a sequence of symbols denotes. -/
def symsValue (syms : List Sym) : Nat :=
  let st := syms.foldl parseStep (0, 0, 0)
  st.1 + st.2.1 + st.2.2

/-- Every byte of a string is an ASCII decimal digit or `.`. -/
def NumeralChars (s : GoString) : Prop := ∀ b ∈ s, isDigit b = true ∨ b = 46

instance (s : GoString) : Decidable (NumeralChars s) := by
  unfold NumeralChars; infer_instance

/-- The text of a Chinese numeral after removing a leading `负`. -/
def afterSign (s : GoString) : GoString :=
  if HasPrefix s (str "负") = true then runesToString ((toRunes s).drop 1) else s

/-- The integer-text of a Chinese numeral: what precedes the first `点` after the
sign. -/
def integerText (s : GoString) : GoString := (Split (afterSign s) (str "点")).headD []

/-- The decimal-text of a Chinese numeral: what stands between the first and the
second `点`, empty without `点`. -/
def decimalText (s : GoString) : GoString :=
  if (Split (afterSign s) (str "点")).length > 1 then (Split (afterSign s) (str "点")).getD 1 []
  else []

/-! ## The decoder in binary64 arithmetic -/

/-- The fraction `(num / den) / 2^k` as a pair of natural numbers. -/
def scaleByPow2 (num den : Nat) (k : Int) : Nat × Nat :=
  if 0 ≤ k then (num, den * 2 ^ k.toNat) else (num * 2 ^ (-k).toNat, den)

/-- The integer nearest to `a / b`, the even one of the two when `a / b` lies
half-way between them. -/
def nearestEven (a b : Nat) : Nat :=
  let q := a / b
  let r := a % b
  if 2 * r < b then q
  else if b < 2 * r then q + 1
  else if q % 2 = 0 then q else q + 1

/-- Halving `n` until it is below 2, at most `fuel` times: the number of
halvings. -/
def floorLog2Aux : Nat → Nat → Nat
  | 0, _ => 0
  | fuel + 1, n => if n < 2 then 0 else floorLog2Aux fuel (n / 2) + 1

/-- The `k` with `2^k ≤ n < 2^(k+1)` for `n ≥ 1` (`n` halvings are more than
enough). -/
def floorLog2 (n : Nat) : Nat := floorLog2Aux n n

/-- The binary exponent of a positive fraction: the `e` with
`2^e ≤ num / den < 2^(e+1)`; it is `floorLog2 num - floorLog2 den` or one
less. -/
def binaryExponent (num den : Nat) : Int :=
  let e0 : Int := (floorLog2 num : Int) - (floorLog2 den : Int)
  if (scaleByPow2 num den e0).2 ≤ (scaleByPow2 num den e0).1 then e0 else e0 - 1

/-- Rounding of a real number (here a rational) to `float64`, as every IEEE-754
binary64 operation rounds its exact result: to the nearest number with a 53-bit
significand, ties to even, with the subnormal spacing `2^-1074` below `2^-1022`.
The exponent is not bounded above: a result of `2^1024` or more stands for an
overflow, which the caller checks where it can happen.  A `float64` is
represented by the rational it denotes; the sign of zero is not represented. -/
def roundFloat64 (x : ℚ) : ℚ :=
  if x = 0 then 0
  else
    let num := x.num.natAbs
    let den := x.den
    let qe : Int := max (binaryExponent num den) (-1022) - 52
    let n := nearestEven (scaleByPow2 num den qe).1 (scaleByPow2 num den qe).2
    let magnitude : ℚ :=
      if 0 ≤ qe then ((n * 2 ^ qe.toNat : Nat) : ℚ) else (n : ℚ) / ((2 ^ (-qe).toNat : Nat) : ℚ)
    if x.num < 0 then -magnitude else magnitude

/-- The values the `float64` variable `divisor` of `convertChineseToDecimal` can
take: a finite value or `+Inf` (it starts at 10 and is only multiplied by 10). -/
inductive Float64 where
  | finite (q : ℚ)
  | inf
deriving DecidableEq

/-- Go `divisor *= 10` on a `float64`: the rounded product, `+Inf` when it
overflows. -/
def Float64.mul10 : Float64 → Float64
  | .finite q =>
    if ((2 ^ 1024 : Nat) : ℚ) ≤ roundFloat64 (q * 10) then .inf
    else .finite (roundFloat64 (q * 10))
  | .inf => .inf

/-- Go `float64(val) / divisor` for an `int` `val` of a digit: the rounded
quotient, `0` when the divisor is `+Inf`. -/
def Float64.quotient (val : Int) : Float64 → ℚ
  | .finite q => roundFloat64 ((val : ℚ) / q)
  | .inf => 0

/-- The body of the loop of `convertChineseToDecimal` for a digit of value
`val`: `result += float64(val) / divisor; divisor *= 10`. -/
def decimalStep64 (st : ℚ × Float64) (val : Int) : ℚ × Float64 :=
  (roundFloat64 (st.1 + st.2.quotient val), st.2.mul10)

/-- Go `convertChineseToDecimal` with its `float64` operations rounded to
binary64; the state is `(result, divisor)`.  (`convertChineseToDecimal` above
is the same function in exact arithmetic.) -/
def convertChineseToDecimal64 (chineseDecimal : GoString) : Except Fault ℚ :=
  Prod.fst <$> (toRunes chineseDecimal).foldlM
    (fun (st : ℚ × Float64) char =>
      match decimalNumberMap.lookup (encodeRune char) with
      | some val => pure (decimalStep64 st val)
      | none => .error (.error (str "无法解析的中文小数: " ++ chineseDecimal)))
    (0, .finite 10)

/-- Go `ChineseToNumber` with its `float64` operations rounded to binary64:
`float64(integerValue)` and the sum are rounded, the negation is exact.
(`ChineseToNumber` above is the same function in exact arithmetic; the two agree
wherever no operation rounds.) -/
def ChineseToNumber64 (chineseNum : GoString) : Except Fault ℚ :=
  if chineseNum = [] then .error (.error (str "输入为空"))
  else
    let isNegative := HasPrefix chineseNum (str "负")
    let chineseNum :=
      if isNegative then runesToString ((toRunes chineseNum).drop 1) else chineseNum
    let parts := Split chineseNum (str "点")
    let integerPart := parts.headD []
    let decimalPart := if parts.length > 1 then parts.getD 1 [] else []
    do
      let integerValue ← convertChineseToInteger integerPart
      let decimalValue ←
        if decimalPart ≠ [] then convertChineseToDecimal64 decimalPart else pure 0
      let result := roundFloat64 (roundFloat64 (integerValue : ℚ) + decimalValue)
      if isNegative then pure (-result) else pure result

/-- The text of the plain digit symbols of the given values. -/
def digitsText (ds : List Nat) : GoString :=
  (ds.map (fun d => chineseNumbers.getD d [])).flatten

/-- The `float64` sum the loop of `convertChineseToDecimal` builds for the digits
`ds`: every quotient, sum and power of ten rounded to binary64. -/
def decimalSum64 (ds : List Nat) : ℚ :=
  (ds.foldl (fun st (d : Nat) => decimalStep64 st (d : Int)) (0, Float64.finite 10)).1

/-- The exact value `Σ d_i · 10^(-i)` of the decimal digits `ds`. -/
def decimalSum : List Nat → ℚ
  | [] => 0
  | d :: ds => ((d : ℚ) + decimalSum ds) / 10

/-! ## Segmenter: the enumeration finds a decomposition exactly when one exists -/

theorem validPinyins_length : ∀ y ∈ validPinyins, 1 ≤ y.length ∧ y.length ≤ 6 := by
  decide!

theorem isValidPinyin_length {y : GoString} (hy : isValidPinyin y = true) :
    1 ≤ y.length ∧ y.length ≤ 6 := by
  unfold isValidPinyin at hy
  rw [List.any_eq_true] at hy
  obtain ⟨v, hv, hvy⟩ := hy
  have h := validPinyins_length v hv
  have : v = y := by simpa using hvy
  rwa [this] at h

theorem splitStep_congr (rt : GoRuntime) (r1 r2 : GoString → Heap → Slice → Heap × List Slice)
    (pinyin : GoString) (current : Slice) (st : Heap × List Slice) (i : Nat)
    (h : ∀ hp c, r1 (pinyin.drop i) hp c = r2 (pinyin.drop i) hp c) :
    splitStep rt r1 pinyin current st i = splitStep rt r2 pinyin current st i := by
  unfold splitStep
  simp only [h]

theorem foldl_splitStep_congr (rt : GoRuntime)
    (r1 r2 : GoString → Heap → Slice → Heap × List Slice)
    (pinyin : GoString) (current : Slice) (l : List Nat)
    (h : ∀ i ∈ l, ∀ hp c, r1 (pinyin.drop i) hp c = r2 (pinyin.drop i) hp c) :
    ∀ st, l.foldl (splitStep rt r1 pinyin current) st
      = l.foldl (splitStep rt r2 pinyin current) st := by
  induction l with
  | nil => intro st; rfl
  | cons i l ih =>
    intro st
    simp only [List.foldl_cons]
    rw [splitStep_congr rt r1 r2 pinyin current st i (h i (List.mem_cons_self _ _))]
    exact ih (fun j hj => h j (List.mem_cons_of_mem _ hj)) _

/-- Fuel beyond the length of the input does not change the result of
`splitPinyinRecursive`: the recursion always terminates within that bound. -/
theorem splitPinyinRecursive_fuel (rt : GoRuntime) :
    ∀ (f1 f2 : Nat) (pinyin : GoString) (h : Heap) (c : Slice),
      pinyin.length < f1 → pinyin.length < f2 →
      splitPinyinRecursive rt f1 pinyin h c = splitPinyinRecursive rt f2 pinyin h c := by
  intro f1
  induction f1 with
  | zero => intro f2 pinyin h c h1; omega
  | succ f1 ih =>
    intro f2 pinyin h c h1 h2
    cases f2 with
    | zero => omega
    | succ f2 =>
      simp only [splitPinyinRecursive]
      split
      · rfl
      · rename_i hne
        apply foldl_splitStep_congr
        intro i hi hp c2
        have hpos : 0 < pinyin.length := List.length_pos.mpr hne
        have hi1 : 1 ≤ i := by
          simp only [List.mem_cons, List.mem_singleton, List.not_mem_nil, or_false] at hi
          omega
        have hlen : (pinyin.drop i).length < pinyin.length := by
          rw [List.length_drop]; omega
        exact ih f2 _ hp c2 (by omega) (by omega)

theorem splitStep_results_mono (rt : GoRuntime)
    (r : GoString → Heap → Slice → Heap × List Slice)
    (pinyin : GoString) (current : Slice) (st : Heap × List Slice) (i : Nat)
    (h : st.2 ≠ []) : (splitStep rt r pinyin current st i).2 ≠ [] := by
  unfold splitStep
  by_cases hi : i ≤ pinyin.length
  · by_cases hv : isValidPinyin (pinyin.take i) = true
    · simp [hi, hv, h]
    · simpa [hi, hv] using h
  · simpa [hi] using h

theorem foldl_splitStep_mono (rt : GoRuntime)
    (r : GoString → Heap → Slice → Heap × List Slice)
    (pinyin : GoString) (current : Slice) (l : List Nat) :
    ∀ st : Heap × List Slice, st.2 ≠ [] →
      (l.foldl (splitStep rt r pinyin current) st).2 ≠ [] := by
  induction l with
  | nil => intro st h; exact h
  | cons i l ih =>
    intro st h
    simp only [List.foldl_cons]
    exact ih _ (splitStep_results_mono rt r pinyin current st i h)

theorem foldl_splitStep_complete (rt : GoRuntime)
    (r : GoString → Heap → Slice → Heap × List Slice)
    (pinyin : GoString) (current : Slice) (l : List Nat) (i : Nat) (hi : i ∈ l)
    (hlen : i ≤ pinyin.length) (hv : isValidPinyin (pinyin.take i) = true)
    (hr : ∀ hp c, (r (pinyin.drop i) hp c).2 ≠ []) :
    ∀ st : Heap × List Slice, (l.foldl (splitStep rt r pinyin current) st).2 ≠ [] := by
  induction l with
  | nil => simp at hi
  | cons j l ih =>
    intro st
    simp only [List.foldl_cons]
    rcases List.mem_cons.mp hi with rfl | hmem
    · apply foldl_splitStep_mono
      unfold splitStep
      simp [hlen, hv, hr]
    · exact ih hmem _

theorem foldl_splitStep_sound (rt : GoRuntime)
    (r : GoString → Heap → Slice → Heap × List Slice)
    (pinyin : GoString) (current : Slice) (l : List Nat) :
    ∀ st : Heap × List Slice, (l.foldl (splitStep rt r pinyin current) st).2 ≠ [] →
      st.2 ≠ [] ∨ ∃ i ∈ l, i ≤ pinyin.length ∧ isValidPinyin (pinyin.take i) = true ∧
        ∃ hp c, (r (pinyin.drop i) hp c).2 ≠ [] := by
  induction l with
  | nil => intro st h; exact Or.inl h
  | cons j l ih =>
    intro st h
    simp only [List.foldl_cons] at h
    rcases ih _ h with h1 | ⟨i, hi, h2⟩
    · by_cases hst : st.2 = []
      · right
        refine ⟨j, List.mem_cons_self _ _, ?_⟩
        unfold splitStep at h1
        by_cases hj : j ≤ pinyin.length
        · by_cases hv : isValidPinyin (pinyin.take j) = true
          · simp only [hj, hv, if_true, hst, List.nil_append] at h1
            exact ⟨hj, hv, _, _, h1⟩
          · simp [hj, hv, hst] at h1
        · simp [hj, hst] at h1
      · exact Or.inl hst
    · exact Or.inr ⟨i, List.mem_cons_of_mem _ hi, h2⟩

/-- Soundness of the search: a non-empty result means a decomposition exists. -/
theorem splitPinyinRecursive_sound (rt : GoRuntime) :
    ∀ (fuel : Nat) (pinyin : GoString) (h : Heap) (c : Slice),
      (splitPinyinRecursive rt fuel pinyin h c).2 ≠ [] → Decomposable pinyin := by
  intro fuel
  induction fuel with
  | zero => intro pinyin h c hne; simp [splitPinyinRecursive] at hne
  | succ fuel ih =>
    intro pinyin h c hne
    simp only [splitPinyinRecursive] at hne
    by_cases hp : pinyin = []
    · exact ⟨[], by simp, by simp [hp]⟩
    · simp only [hp, if_false] at hne
      rcases foldl_splitStep_sound rt _ pinyin c _ _ hne with h0 | ⟨i, _, _, hv, hp2, c2, hr⟩
      · simp at h0
      · obtain ⟨parts, hparts, hflat⟩ := ih _ hp2 c2 hr
        refine ⟨pinyin.take i :: parts, ?_, ?_⟩
        · intro y hy
          rcases List.mem_cons.mp hy with rfl | hy
          · exact hv
          · exact hparts y hy
        · simp [hflat]

/-- Completeness of the search: with enough fuel, a decomposable input gives a
non-empty result. -/
theorem splitPinyinRecursive_complete (rt : GoRuntime) :
    ∀ (fuel : Nat) (pinyin : GoString) (h : Heap) (c : Slice),
      pinyin.length < fuel → Decomposable pinyin →
      (splitPinyinRecursive rt fuel pinyin h c).2 ≠ [] := by
  intro fuel
  induction fuel with
  | zero => intro pinyin h c hf; omega
  | succ fuel ih =>
    intro pinyin h c hf hd
    simp only [splitPinyinRecursive]
    by_cases hp : pinyin = []
    · simp [hp]
    · simp only [hp, if_false]
      obtain ⟨parts, hparts, hflat⟩ := hd
      cases parts with
      | nil => simp at hflat; exact absurd hflat.symm (by simpa using hp)
      | cons y parts =>
        have hy := hparts y (List.mem_cons_self _ _)
        have hylen := isValidPinyin_length hy
        simp only [List.flatten_cons] at hflat
        have htake : pinyin.take y.length = y := by
          rw [← hflat]; simp
        have hdrop : pinyin.drop y.length = parts.flatten := by
          rw [← hflat]; simp
        have hle : y.length ≤ pinyin.length := by
          rw [← hflat]; simp
        apply foldl_splitStep_complete rt _ pinyin c _ y.length
        · simp only [List.mem_cons, List.mem_singleton]
          omega
        · exact hle
        · rw [htake]; exact hy
        · intro hp2 c2
          apply ih
          · rw [List.length_drop]; omega
          · rw [hdrop]
            exact ⟨parts, fun z hz => hparts z (List.mem_cons_of_mem _ hz), rfl⟩

/-- The segmenter finds no decomposition exactly when none exists. -/
theorem splitAll_eq_nil_iff (rt : GoRuntime) (pinyin : GoString) :
    splitAll rt pinyin = [] ↔ ¬ Decomposable pinyin := by
  unfold splitAll
  simp only [List.map_eq_nil_iff]
  constructor
  · intro h hd
    exact splitPinyinRecursive_complete rt _ pinyin _ _ (Nat.lt_succ_self _) hd h
  · intro h
    by_contra hne
    exact h (splitPinyinRecursive_sound rt _ pinyin _ _ hne)

/-! ## Segmenter: the claims -/

/-- C1 (segmenter completeness), evaluated on the code: on the gc toolchain
`SplitPinyinArray("bababababaxian")`, whose input is already normalised, returns
as first decomposition `ba ba ba ba ba xian an`, whose syllables concatenate to
`bababababaxianan` and not to the input: the sixth element of the backing array
shared by the two branches was overwritten by the later branch. -/
theorem SplitPinyinArray_concat_differs :
    gc.ToLower (gc.TrimSpace (str "bababababaxian")) = str "bababababaxian" ∧
    SplitPinyinArray gc (str "bababababaxian")
      = [["ba", "ba", "ba", "ba", "ba", "xian", "an"].map str,
         ["ba", "ba", "ba", "ba", "ba", "xian"].map str] ∧
    (["ba", "ba", "ba", "ba", "ba", "xian", "an"].map str).flatten
      = str "bababababaxianan" ∧
    str "bababababaxianan" ≠ str "bababababaxian" := by
  decide!

/-- C2 (segmenter full enumeration), evaluated on the code: `ba ba ba ba ba xi an`
is a partition of `bababababaxian` into dictionary syllables, yet on the gc
toolchain it is not among the decompositions `SplitPinyinArray` returns for
that input, while `bei jing` is returned for `beijing`. -/
theorem SplitPinyinArray_misses_partition :
    (∀ y ∈ ["ba", "ba", "ba", "ba", "ba", "xi", "an"].map str, isValidPinyin y = true) ∧
    (["ba", "ba", "ba", "ba", "ba", "xi", "an"].map str).flatten = str "bababababaxian" ∧
    ["ba", "ba", "ba", "ba", "ba", "xi", "an"].map str
      ∉ SplitPinyinArray gc (str "bababababaxian") ∧
    ["bei", "jing"].map str ∈ SplitPinyinArray gc (str "beijing") := by
  decide!

/-- C3 (segmenter fallback): whenever the normalised input is non-empty and has
no complete decomposition into dictionary syllables, `SplitPinyinArray` returns
exactly one decomposition, whose only element is the normalised input, and
`SplitPinyin` returns exactly that string (neither function has a non-nil
error result). -/
theorem SplitPinyin_fallback (rt : GoRuntime) (pinyin : GoString)
    (hne : rt.ToLower (rt.TrimSpace pinyin) ≠ [])
    (hnone : ¬ Decomposable (rt.ToLower (rt.TrimSpace pinyin))) :
    SplitPinyinArray rt pinyin = [[rt.ToLower (rt.TrimSpace pinyin)]] ∧
    SplitPinyin rt pinyin = [rt.ToLower (rt.TrimSpace pinyin)] := by
  have hraw : pinyin ≠ [] := by
    intro h
    apply hne
    rw [h, rt.TrimSpace_nil, rt.ToLower_nil]
  have hnil := (splitAll_eq_nil_iff rt _).mpr hnone
  unfold SplitPinyinArray SplitPinyin
  simp [hraw, hnil]

/-- C3 at `"xyzzy"`: the input is its own normal form, no partition of it
exists, and both entry points return the input as the single unit. -/
theorem SplitPinyin_fallback_witness :
    gc.ToLower (gc.TrimSpace (str "xyzzy")) = str "xyzzy" ∧
    ¬ Decomposable (gc.ToLower (gc.TrimSpace (str "xyzzy"))) ∧
    SplitPinyinArray gc (str "xyzzy") = [[gc.ToLower (gc.TrimSpace (str "xyzzy"))]] ∧
    SplitPinyin gc (str "xyzzy") = [gc.ToLower (gc.TrimSpace (str "xyzzy"))] :=
  have hnone : ¬ Decomposable (gc.ToLower (gc.TrimSpace (str "xyzzy"))) :=
    (splitAll_eq_nil_iff gc _).mp (by decide!)
  ⟨by decide!, hnone, SplitPinyin_fallback gc (str "xyzzy") (by decide!) hnone⟩

/-- C4 (empty input), evaluated on the code: the one-space string is empty after
normalisation, yet `SplitPinyinArray` returns one decomposition (with no
syllable) and `SplitPinyin` returns one string (the empty one); only the
input that is empty before normalisation gives the empty result. -/
theorem SplitPinyin_whitespace_only :
    gc.ToLower (gc.TrimSpace (str " ")) = [] ∧
    SplitPinyinArray gc (str " ") = [[]] ∧
    SplitPinyin gc (str " ") = [[]] ∧
    SplitPinyinArray gc [] = [] ∧ SplitPinyin gc [] = [] := by
  decide!

/-- C5 (two output shapes): for every input, `SplitPinyin` is `SplitPinyinArray`
with each decomposition joined by single spaces: the two results have the same
length and agree position by position. -/
theorem SplitPinyin_eq_map_Join (rt : GoRuntime) (pinyin : GoString) :
    (SplitPinyin rt pinyin).length = (SplitPinyinArray rt pinyin).length ∧
    SplitPinyin rt pinyin
      = (SplitPinyinArray rt pinyin).map (fun d => Join d (str " ")) := by
  have key : SplitPinyin rt pinyin
      = (SplitPinyinArray rt pinyin).map (fun d => Join d (str " ")) := by
    unfold SplitPinyin SplitPinyinArray
    by_cases h : pinyin = []
    · simp [h]
    · by_cases h2 : (splitAll rt (rt.ToLower (rt.TrimSpace pinyin))).length = 0
      · simp [h, h2, Join]
      · simp [h, h2]
  exact ⟨by rw [key, List.length_map], key⟩

/-! ## Numeral conversion: lemmas -/

theorem str_minus : str "-" = [45] := by decide!
theorem str_dot : str "." = [46] := by decide!
theorem str_zero : str "0" = [48] := by decide!
theorem str_zero_zero : str "00" = [48, 48] := by decide!

theorem except_pure {α : Type} (a : α) : (pure a : Except Fault α) = .ok a := rfl

theorem except_bind_ok {α β : Type} (a : α) (f : α → Except Fault β) :
    ((Except.ok a : Except Fault α) >>= f) = f a := rfl

theorem except_bind_error {α β : Type} (e : Fault) (f : α → Except Fault β) :
    ((Except.error e : Except Fault α) >>= f) = .error e := rfl

theorem index_ok (table : List GoString) (i : Nat) (h : i < table.length) :
    ∃ x, index table i = .ok x := by
  unfold index
  rw [List.get?_eq_get h]
  exact ⟨_, rfl⟩

theorem byteSub_digit {b : Nat} (h : isDigit b = true) : byteSub b 48 = b - 48 ∧ b - 48 < 10 := by
  unfold isDigit at h
  simp only [Bool.and_eq_true, decide_eq_true_eq] at h
  unfold byteSub
  omega

theorem Digits.tail {b : Nat} {s : GoString} (h : Digits (b :: s)) : Digits s :=
  fun x hx => h x (List.mem_cons_of_mem _ hx)

theorem Digits.head {b : Nat} {s : GoString} (h : Digits (b :: s)) : isDigit b = true :=
  h b (List.mem_cons_self _ _)

theorem Digits.trimLeftZeros {s : GoString} (h : Digits s) : Digits (TrimLeftZeros s) :=
  fun x hx => h x ((List.dropWhile_sublist _).subset hx)

/-- On a decimal digit, with tables of the sizes of the source and at most 16
digits in all, the loop body neither fails nor panics. -/
theorem integerStep_ok (numbers units bigUnits : List GoString)
    (hn : numbers.length = 10) (hu : units.length = 4) (hb : bigUnits.length = 4)
    (length i b : Nat) (st : GoString × Bool) (hlen : length ≤ 16)
    (hd : isDigit b = true) :
    ∃ st', integerStep numbers units bigUnits length i b st = .ok st' := by
  obtain ⟨hsub, hlt⟩ := byteSub_digit hd
  obtain ⟨n, hn'⟩ := index_ok numbers (byteSub b 48) (by omega)
  obtain ⟨u, hu'⟩ := index_ok units ((length - i - 1) % 4) (by omega)
  obtain ⟨g, hg'⟩ := index_ok bigUnits ((length - i - 1) / 4) (by omega)
  unfold integerStep
  simp only [hn', hu', hg', except_pure, except_bind_ok]
  split_ifs <;> exact ⟨_, rfl⟩

theorem integerLoop_ok (numbers units bigUnits : List GoString)
    (hn : numbers.length = 10) (hu : units.length = 4) (hb : bigUnits.length = 4)
    (length : Nat) (hlen : length ≤ 16) :
    ∀ (s : GoString) (i : Nat) (st : GoString × Bool), Digits s →
      ∃ r, integerLoop numbers units bigUnits length s i st = .ok r := by
  intro s
  induction s with
  | nil => intro i st _; exact ⟨st.1, rfl⟩
  | cons b rest ih =>
    intro i st hd
    obtain ⟨st', hst'⟩ :=
      integerStep_ok numbers units bigUnits hn hu hb length i b st hlen hd.head
    simp only [integerLoop, hst', except_bind_ok]
    exact ih (i + 1) st' hd.tail

theorem trimLeftZeros_length_pos {s : GoString} (h : 0 < (TrimLeftZeros s).length) :
    s ≠ [] ∧ s ≠ str "0" := by
  constructor
  · rintro rfl; simp [TrimLeftZeros] at h
  · rintro rfl; rw [str_zero] at h; simp [TrimLeftZeros] at h

/-- The integer part of the plain encoder fails exactly on more than 16
significant digits. -/
theorem convertIntegerToChinese_digits (I : GoString) (options : NumberOptions)
    (hI : Digits I) :
    (16 < (TrimLeftZeros I).length →
      convertIntegerToChinese I options = .error (.error (str "数字过大，超出处理范围"))) ∧
    ((TrimLeftZeros I).length ≤ 16 → ∃ t, convertIntegerToChinese I options = .ok t) := by
  constructor
  · intro h
    obtain ⟨h1, h2⟩ := trimLeftZeros_length_pos (by omega : 0 < (TrimLeftZeros I).length)
    have h3 : TrimLeftZeros I ≠ [] := by
      intro h0; rw [h0] at h; simp at h
    unfold convertIntegerToChinese
    simp [h1, h2, h3, h]
  · intro h
    unfold convertIntegerToChinese
    by_cases h1 : I = [] ∨ I = str "0"
    · exact ⟨_, if_pos h1⟩
    · rw [if_neg h1]
      by_cases h3 : TrimLeftZeros I = []
      · exact ⟨_, if_pos h3⟩
      · simp only [h3, if_false, not_lt.mpr h]
        obtain ⟨r, hr⟩ := integerLoop_ok chineseNumbers chineseUnits chineseBigUnits
          (by decide!) (by decide!) (by decide!) _ h (TrimLeftZeros I) 0 ([], false)
          hI.trimLeftZeros
        rw [hr, except_bind_ok]
        split_ifs <;> exact ⟨_, rfl⟩

/-- The integer part of the currency encoder fails exactly on more than 16
significant digits. -/
theorem convertIntegerToCurrency_digits (I : GoString) (hI : Digits I) :
    (16 < (TrimLeftZeros I).length →
      convertIntegerToCurrency I = .error (.error (str "金额过大，超出处理范围"))) ∧
    ((TrimLeftZeros I).length ≤ 16 → ∃ t, convertIntegerToCurrency I = .ok t) := by
  constructor
  · intro h
    obtain ⟨h1, h2⟩ := trimLeftZeros_length_pos (by omega : 0 < (TrimLeftZeros I).length)
    have h3 : TrimLeftZeros I ≠ [] := by
      intro h0; rw [h0] at h; simp at h
    unfold convertIntegerToCurrency
    simp [h1, h2, h3, h]
  · intro h
    unfold convertIntegerToCurrency
    by_cases h1 : I = [] ∨ I = str "0"
    · exact ⟨_, if_pos h1⟩
    · rw [if_neg h1]
      by_cases h3 : TrimLeftZeros I = []
      · exact ⟨_, if_pos h3⟩
      · simp only [h3, if_false, not_lt.mpr h]
        exact integerLoop_ok currencyNumbers currencyUnits currencyBigUnits
          (by decide!) (by decide!) (by decide!) _ h (TrimLeftZeros I) 0 ([], false)
          hI.trimLeftZeros

theorem Digits.ne_of_not_digit {s : GoString} (h : Digits s) {c : Nat}
    (hc : isDigit c = false) : c ∉ s := by
  intro hmem
  rw [h c hmem] at hc
  exact Bool.noConfusion hc

theorem splitFrom_dot_none (s : GoString) (h : 46 ∉ s) :
    ∀ cur, splitFrom [46] 0 s cur = [cur ++ s] := by
  induction s with
  | nil => intro cur; simp [splitFrom]
  | cons b rest ih =>
    intro cur
    have hb : (46 == b) = false := by
      simp only [beq_eq_false_iff_ne, ne_eq]
      intro hb; exact h (hb ▸ List.mem_cons_self _ _)
    have hrest : 46 ∉ rest := fun hm => h (List.mem_cons_of_mem _ hm)
    simp only [splitFrom, List.isPrefixOf, hb, Bool.false_and]
    rw [if_neg (by simp), ih hrest]
    simp

theorem splitFrom_dot_some (s t : GoString) (h : 46 ∉ s) :
    ∀ cur, splitFrom [46] 0 (s ++ 46 :: t) cur = (cur ++ s) :: splitFrom [46] 0 t [] := by
  induction s with
  | nil => intro cur; simp [splitFrom, List.isPrefixOf]
  | cons b rest ih =>
    intro cur
    have hb : (46 == b) = false := by
      simp only [beq_eq_false_iff_ne, ne_eq]
      intro hb; exact h (hb ▸ List.mem_cons_self _ _)
    have hrest : 46 ∉ rest := fun hm => h (List.mem_cons_of_mem _ hm)
    rw [List.cons_append]
    simp only [splitFrom, List.isPrefixOf, hb, Bool.false_and]
    rw [if_neg (by simp), ih hrest]
    simp

/-- Splitting digits at `.` gives the digits. -/
theorem Split_digits (I : GoString) (hI : Digits I) : Split I (str ".") = [I] := by
  unfold Split
  rw [str_dot, splitFrom_dot_none I (hI.ne_of_not_digit (by decide))]
  rfl

/-- Splitting `I.D` at `.` gives the two digit strings. -/
theorem Split_digits_dot (I D : GoString) (hI : Digits I) (hD : Digits D) :
    Split (I ++ str "." ++ D) (str ".") = [I, D] := by
  unfold Split
  rw [str_dot, List.append_assoc, List.singleton_append,
    splitFrom_dot_some I D (hI.ne_of_not_digit (by decide)),
    splitFrom_dot_none D (hD.ne_of_not_digit (by decide))]
  rfl

theorem toRunesFrom_ascii (s : GoString) (h : ∀ b ∈ s, b < 128) : toRunesFrom 0 s = s := by
  induction s with
  | nil => rfl
  | cons b rest ih =>
    have hb : b < 128 := h b (List.mem_cons_self _ _)
    have hdec : decodeRune (b :: rest) = (b, 1) := by
      unfold decodeRune
      simp [hb]
    simp only [toRunesFrom, hdec]
    rw [ih (fun x hx => h x (List.mem_cons_of_mem _ hx))]

theorem Digits.ascii {s : GoString} (h : Digits s) : ∀ b ∈ s, b < 128 := by
  intro b hb
  have := h b hb
  unfold isDigit at this
  simp only [Bool.and_eq_true, decide_eq_true_eq] at this
  omega

theorem toRunes_digits {s : GoString} (h : Digits s) : toRunes s = s :=
  toRunesFrom_ascii s h.ascii

/-- The plain fraction conversion neither fails nor panics on digits. -/
theorem convertDecimalToChinese_digits (D : GoString) (hD : Digits D) :
    ∃ t, convertDecimalToChinese D = .ok t := by
  unfold convertDecimalToChinese
  by_cases h0 : D = []
  · exact ⟨_, if_pos h0⟩
  · rw [if_neg h0, toRunes_digits hD]
    clear h0
    generalize ([] : GoString) = init
    induction D generalizing init with
    | nil => exact ⟨init, rfl⟩
    | cons b rest ih =>
      have hb := hD.head
      unfold isDigit at hb
      simp only [Bool.and_eq_true, decide_eq_true_eq] at hb
      obtain ⟨x, hx⟩ := index_ok chineseNumbers (b - 48)
        (by have : chineseNumbers.length = 10 := by decide!
            omega)
      rw [List.foldlM_cons, if_neg (by omega), hx]
      simp only [except_bind_ok, except_pure]
      exact ih hD.tail _

/-- The currency fraction conversion neither fails nor panics on digits. -/
theorem convertDecimalToCurrency_digits (D : GoString) (hD : Digits D) :
    ∃ t, convertDecimalToCurrency D = .ok t := by
  unfold convertDecimalToCurrency
  split
  · rename_i b0 b1
    obtain ⟨_, h0⟩ := byteSub_digit (hD b0 (by simp))
    obtain ⟨_, h1⟩ := byteSub_digit (hD b1 (by simp))
    have hlen : currencyNumbers.length = 10 := by decide!
    obtain ⟨x0, hx0⟩ := index_ok currencyNumbers (byteSub b0 48) (by omega)
    obtain ⟨x1, hx1⟩ := index_ok currencyNumbers (byteSub b1 48) (by omega)
    obtain ⟨u0, hu0⟩ := index_ok currencyDecimalUnits 0 (by decide!)
    obtain ⟨u1, hu1⟩ := index_ok currencyDecimalUnits 1 (by decide!)
    simp only [hx0, hx1, hu0, hu1, except_bind_ok, except_pure]
    split_ifs <;> exact ⟨_, rfl⟩
  · exact ⟨_, rfl⟩

theorem HasPrefix_minus_unsigned (I : GoString) (frac : Option GoString) (hI : Digits I) :
    HasPrefix (numeral false I frac) (str "-") = false := by
  unfold numeral HasPrefix
  rw [str_minus, str_dot]
  cases I with
  | nil => cases frac <;> simp [List.isPrefixOf]
  | cons b rest =>
    have hb := hI.head
    unfold isDigit at hb
    simp only [Bool.and_eq_true, decide_eq_true_eq] at hb
    have : (45 == b) = false := by
      simp only [beq_eq_false_iff_ne, ne_eq]; omega
    simp [List.isPrefixOf, this]

theorem Split_numeral (I : GoString) (frac : Option GoString) (hI : Digits I)
    (hD : Digits (frac.getD [])) :
    Split (numeral false I frac) (str ".") = I :: frac.toList := by
  unfold numeral
  cases frac with
  | none => simpa using Split_digits I hI
  | some D =>
    have := Split_digits_dot I D hI hD
    simpa [List.append_assoc] using this

theorem numeral_true (I : GoString) (frac : Option GoString) :
    numeral true I frac = 45 :: numeral false I frac := by
  unfold numeral
  rw [str_minus]
  rfl

theorem convertDecimalToChinese_nil : convertDecimalToChinese [] = .ok [] := rfl

/-- What `ToChineseNumber` computes on a numeral string. -/
theorem ToChineseNumber_numeral (negative : Bool) (I : GoString) (frac : Option GoString)
    (options : Option NumberOptions) (hI : Digits I) (hD : Digits (frac.getD [])) :
    ToChineseNumber (.string (numeral negative I frac)) options =
      (convertIntegerToChinese I (options.getD ⟨false⟩) >>= fun integerChinese =>
        convertDecimalToChinese (frac.getD []) >>= fun decimalChinese =>
          pure (plainText negative integerChinese decimalChinese)) := by
  have hsplit := Split_numeral I frac hI hD
  have hpre := HasPrefix_minus_unsigned I frac hI
  have h1 : HasPrefix (numeral true I frac) (str "-") = true := by
    rw [numeral_true, str_minus]; simp [HasPrefix, List.isPrefixOf]
  have h2 : (numeral true I frac).drop 1 = numeral false I frac := by
    rw [numeral_true]; rfl
  unfold ToChineseNumber
  cases hic : convertIntegerToChinese I (options.getD ⟨false⟩) with
  | error e =>
    cases negative <;>
      simp only [Number.chineseText, hpre, h1, h2, Bool.false_eq_true, if_false, if_true,
        hsplit] <;>
      simp [hic, except_bind_error]
  | ok ic =>
    by_cases hf : frac.getD [] = []
    · cases negative <;>
        simp only [Number.chineseText, hpre, h1, h2, Bool.false_eq_true, if_false, if_true,
          hsplit] <;>
        cases frac <;>
        simp_all [except_bind_ok, except_pure, plainText, convertDecimalToChinese_nil]
    · cases hdc : convertDecimalToChinese (frac.getD []) with
      | error e =>
        cases negative <;>
          simp only [Number.chineseText, hpre, h1, h2, Bool.false_eq_true, if_false, if_true,
            hsplit] <;>
          cases frac <;>
          simp_all [except_bind_ok, except_bind_error, except_pure]
      | ok dc =>
        cases negative <;>
          simp only [Number.chineseText, hpre, h1, h2, Bool.false_eq_true, if_false, if_true,
            hsplit] <;>
          cases frac <;>
          simp_all [except_bind_ok, except_pure, plainText]

/-- What `ToCurrencyNumber` computes on a numeral string. -/
theorem ToCurrencyNumber_numeral (negative : Bool) (I : GoString) (frac : Option GoString)
    (unit : GoString) (hI : Digits I) (hD : Digits (frac.getD [])) :
    ToCurrencyNumber (.string (numeral negative I frac)) unit =
      (convertIntegerToCurrency I >>= fun integerChinese =>
        convertDecimalToCurrency (currencyFraction frac) >>= fun decimalChinese =>
          pure (currencyText negative integerChinese
            (if unit = [] then str "元" else unit) decimalChinese)) := by
  have hsplit := Split_numeral I frac hI hD
  have hpre := HasPrefix_minus_unsigned I frac hI
  have h1 : HasPrefix (numeral true I frac) (str "-") = true := by
    rw [numeral_true, str_minus]; simp [HasPrefix, List.isPrefixOf]
  have h2 : (numeral true I frac).drop 1 = numeral false I frac := by
    rw [numeral_true]; rfl
  have hfrac : (if 1 < (I :: frac.toList).length then
        if ((I :: frac.toList).getD 1 []).length = 1 then
          (I :: frac.toList).getD 1 [] ++ str "0"
        else if ((I :: frac.toList).getD 1 []).length > 2 then
          ((I :: frac.toList).getD 1 []).take 2
        else (I :: frac.toList).getD 1 []
      else str "00") = currencyFraction frac := by
    cases frac <;> simp [currencyFraction]
  unfold ToCurrencyNumber
  cases hic : convertIntegerToCurrency I with
  | error e =>
    cases negative <;>
      simp only [Number.currencyText, hpre, h1, h2, Bool.false_eq_true, if_false, if_true,
        hsplit] <;>
      simp [hic, except_bind_error]
  | ok ic =>
    cases hdc : convertDecimalToCurrency (currencyFraction frac) with
    | error e =>
      cases negative <;>
        simp only [Number.currencyText, hpre, h1, h2, Bool.false_eq_true, if_false, if_true,
          hsplit, gt_iff_lt, hfrac] <;>
        simp [hic, hdc, except_bind_ok, except_bind_error]
    | ok dc =>
      cases negative <;>
        simp only [Number.currencyText, hpre, h1, h2, Bool.false_eq_true, if_false, if_true,
          hsplit, gt_iff_lt, hfrac] <;>
        simp only [List.headD_cons, hic, hdc, except_bind_ok, except_pure, currencyText] <;>
        split_ifs <;> simp_all

theorem Digits_currencyFraction (frac : Option GoString) (hD : Digits (frac.getD [])) :
    Digits (currencyFraction frac) := by
  unfold currencyFraction
  cases frac with
  | none => decide!
  | some D =>
    simp only [Option.getD_some] at hD
    simp only
    split_ifs
    · intro b hb
      rw [str_zero] at hb
      rcases List.mem_append.mp hb with h | h
      · exact hD b h
      · simp at h; rw [h]; rfl
    · exact fun b hb => hD b (List.mem_of_mem_take hb)
    · exact hD

theorem plainHead_append {t : GoString} (h : plainHead t) (u : GoString) :
    plainHead (t ++ u) := by
  unfold plainHead at *
  cases t with
  | nil => simp at h
  | cons b rest => simpa using h

theorem plainHead_of_prefix {n t : GoString} (h : n <+: t) (hn : plainHead n) : plainHead t := by
  obtain ⟨u, rfl⟩ := h
  exact plainHead_append hn u

theorem plainHead_not_negative {t : GoString} (h : plainHead t) :
    HasPrefix t (str "负") = false := by
  have hneg : str "负" = [232, 180, 159] := by decide!
  unfold plainHead at h
  unfold HasPrefix
  rw [hneg]
  cases t with
  | nil => simp at h
  | cons b rest =>
    simp only [List.head?_cons, Option.some.injEq] at h
    have : (232 == b) = false := by
      simp only [beq_eq_false_iff_ne, ne_eq]; omega
    simp [List.isPrefixOf, this]

theorem chineseNumbers_head :
    ∀ d, d < 10 → 0 < d → ∀ n, index chineseNumbers d = .ok n → plainHead n := by
  have key : ∀ d, d < 10 → 0 < d →
      ((index chineseNumbers d).toOption.bind List.head? = some 228 ∨
        (index chineseNumbers d).toOption.bind List.head? = some 229) := by decide!
  intro d h1 h2 n hn
  have := key d h1 h2
  rw [hn] at this
  unfold plainHead
  rcases this with h | h
  · exact Or.inl h
  · exact Or.inr (Or.inl h)

/-- The loop body only appends to the result. -/
theorem integerStep_extends (numbers units bigUnits : List GoString) (length i b : Nat)
    (st st' : GoString × Bool)
    (h : integerStep numbers units bigUnits length i b st = .ok st') : st.1 <+: st'.1 := by
  unfold integerStep at h
  cases h1 : index numbers (byteSub b 48) <;>
    cases h2 : index units ((length - i - 1) % 4) <;>
    cases h3 : index bigUnits ((length - i - 1) / 4) <;>
    simp only [h1, h2, h3, except_pure, except_bind_ok, except_bind_error] at h <;>
    (try split_ifs at h) <;>
    cases h <;> simp

theorem integerLoop_extends (numbers units bigUnits : List GoString) (length : Nat) :
    ∀ (s : GoString) (i : Nat) (st : GoString × Bool) (r : GoString),
      integerLoop numbers units bigUnits length s i st = .ok r → st.1 <+: r := by
  intro s
  induction s with
  | nil =>
    intro i st r h
    simp only [integerLoop, except_pure, Except.ok.injEq] at h
    rw [h]
  | cons b rest ih =>
    intro i st r h
    simp only [integerLoop] at h
    cases hs : integerStep numbers units bigUnits length i b st with
    | error e => rw [hs] at h; exact absurd h (by simp [except_bind_error])
    | ok st' =>
      rw [hs, except_bind_ok] at h
      exact (integerStep_extends _ _ _ _ _ _ _ _ hs).trans (ih _ _ _ h)

/-- On a non-zero digit and the empty result, the loop body starts the result
with the symbol of the digit. -/
theorem integerStep_first (numbers units bigUnits : List GoString) (length b : Nat)
    (st' : GoString × Bool) (hb : isDigit b = true) (hb0 : b ≠ 48)
    (h : integerStep numbers units bigUnits length 0 b ([], false) = .ok st') :
    ∃ n, index numbers (b - 48) = .ok n ∧ n <+: st'.1 := by
  obtain ⟨hsub, hlt⟩ := byteSub_digit hb
  have hne : byteSub b 48 ≠ 0 := by
    unfold isDigit at hb
    simp only [Bool.and_eq_true, decide_eq_true_eq] at hb
    omega
  unfold integerStep at h
  rw [← hsub]
  cases h1 : index numbers (byteSub b 48) <;>
    cases h2 : index units ((length - 0 - 1) % 4) <;>
    cases h3 : index bigUnits ((length - 0 - 1) / 4) <;>
    simp only [h1, h2, h3, hne, Bool.false_eq_true, false_and, if_false, except_pure,
      except_bind_ok, except_bind_error] at h <;>
    (try split_ifs at h) <;>
    cases h <;> exact ⟨_, rfl, by simp⟩

theorem trimLeftZeros_head (s : GoString) (b : Nat) (rest : GoString)
    (h : TrimLeftZeros s = b :: rest) : b ≠ 48 := by
  unfold TrimLeftZeros at h
  have := List.head_dropWhile_not (fun b => b == 48) s
  intro hb
  have hne : List.dropWhile (fun b => b == 48) s ≠ [] := by rw [h]; simp
  have h2 := this hne
  simp only [h, List.head_cons, hb] at h2
  simp at h2

/-- The integer text of the plain encoder starts with the byte of a digit
symbol, of `十` or of `零`. -/
theorem convertIntegerToChinese_head (I : GoString) (options : NumberOptions) (hI : Digits I)
    (t : GoString) (h : convertIntegerToChinese I options = .ok t) : plainHead t := by
  have hzero : plainHead (str "零") := by
    unfold plainHead; decide!
  have hten : ∀ u, plainHead (str "十" ++ u) := by
    intro u
    apply plainHead_append
    unfold plainHead; decide!
  unfold convertIntegerToChinese at h
  by_cases h1 : I = [] ∨ I = str "0"
  · rw [if_pos h1] at h
    cases h; exact hzero
  · rw [if_neg h1] at h
    by_cases h3 : TrimLeftZeros I = []
    · simp only [h3, if_true] at h
      cases h; exact hzero
    · simp only [h3, if_false] at h
      split_ifs at h with hlen
      cases hl : integerLoop chineseNumbers chineseUnits chineseBigUnits
          (TrimLeftZeros I).length (TrimLeftZeros I) 0 ([], false) with
      | error e => rw [hl] at h; exact absurd h (by simp [except_bind_error])
      | ok r =>
        rw [hl, except_bind_ok] at h
        have hr : plainHead r := by
          cases hs : TrimLeftZeros I with
          | nil => exact absurd hs h3
          | cons b rest =>
            have hb0 := trimLeftZeros_head I b rest hs
            have hdig : Digits (b :: rest) := hs ▸ hI.trimLeftZeros
            rw [hs] at hl
            simp only [integerLoop] at hl
            cases hst : integerStep chineseNumbers chineseUnits chineseBigUnits
                (b :: rest).length 0 b ([], false) with
            | error e => rw [hst] at hl; exact absurd hl (by simp [except_bind_error])
            | ok st' =>
              rw [hst, except_bind_ok] at hl
              obtain ⟨n, hn, hpre⟩ := integerStep_first _ _ _ _ _ _ hdig.head hb0 hst
              have hbd := hdig.head
              unfold isDigit at hbd
              simp only [Bool.and_eq_true, decide_eq_true_eq] at hbd
              have hnh := chineseNumbers_head (b - 48) (by omega) (by omega) n hn
              exact plainHead_of_prefix (hpre.trans (integerLoop_extends _ _ _ _ _ _ _ _ hl)) hnh
        split_ifs at h
        · cases h; exact hten _
        · cases h; exact hr

theorem returnsError_ok {α : Type} (a : α) : returnsError (Except.ok a : Except Fault α) = false :=
  rfl

theorem formatNatAux_digits :
    ∀ (fuel n : Nat) (acc : GoString), Digits acc → Digits (formatNatAux fuel n acc) := by
  intro fuel
  induction fuel with
  | zero => intro n acc h; exact h
  | succ fuel ih =>
    intro n acc h
    unfold formatNatAux
    split_ifs with hn
    · intro b hb
      rcases List.mem_cons.mp hb with rfl | hb
      · unfold isDigit; simp; omega
      · exact h b hb
    · apply ih
      intro b hb
      rcases List.mem_cons.mp hb with rfl | hb
      · unfold isDigit; simp; omega
      · exact h b hb

theorem Itoa_digits (v : Int) (hv : 0 ≤ v) : Digits (Itoa v) := by
  unfold Itoa
  rw [if_neg (by omega)]
  exact formatNatAux_digits _ _ _ (fun b hb => absurd hb (List.not_mem_nil b))

theorem numeral_unsigned (I : GoString) : numeral false I none = I := by
  simp [numeral]

theorem ToChineseNumber_int (v : Int) (options : Option NumberOptions) :
    ToChineseNumber (.int v) options = ToChineseNumber (.string (Itoa v)) options := rfl

/-- The text of a non-negative numeral string does not start with `负`. -/
theorem ToChineseNumber_unsigned_head (I : GoString) (frac : Option GoString)
    (options : Option NumberOptions) (hI : Digits I) (hD : Digits (frac.getD []))
    (t : GoString) (h : ToChineseNumber (.string (numeral false I frac)) options = .ok t) :
    HasPrefix t (str "负") = false := by
  rw [ToChineseNumber_numeral false I frac options hI hD] at h
  apply plainHead_not_negative
  cases hic : convertIntegerToChinese I (options.getD ⟨false⟩) with
  | error e => rw [hic] at h; exact absurd h (by simp [except_bind_error])
  | ok ic =>
    have hhead := convertIntegerToChinese_head I _ hI ic hic
    rw [hic, except_bind_ok] at h
    cases hdc : convertDecimalToChinese (frac.getD []) with
    | error e => rw [hdc] at h; exact absurd h (by simp [except_bind_error])
    | ok dc =>
      rw [hdc, except_bind_ok] at h
      simp only [except_pure, Except.ok.injEq] at h
      rw [← h]
      unfold plainText
      simp only [Bool.false_eq_true, if_false, List.nil_append]
      split_ifs
      · rw [List.append_assoc]; exact plainHead_append hhead _
      · exact hhead

/-! ## Numeral conversion: the claims -/

/-- C6 (round trip on 0–99) fails at 10: `ToChineseNumber(10, nil)` is `一十`,
which `ChineseToNumber` rejects, since `parseChineseTen` accepts only `十` and
`十` followed by one digit symbol. -/
theorem roundTrip_ten_fails :
    ToChineseNumber (.int 10) none = .ok (str "一十") ∧
    ChineseToNumber (str "一十") = .error (.error (str "无法解析的十位数字: 一十")) ∧
    roundTrip 10 ≠ .ok 10 := by
  decide!

/-- C6 as amended: for every integer `n` with `0 ≤ n ≤ 9` the round trip
`ChineseToNumber(ToChineseNumber(n, nil))` succeeds and returns `n`; for every
`n` with `10 ≤ n ≤ 99` the decoder returns an error. -/
theorem roundTrip_below_hundred (n : Nat) (h : n ≤ 99) :
    (n ≤ 9 → roundTrip n = .ok (n : ℚ)) ∧
    (10 ≤ n → returnsError (roundTrip n) = true) := by
  have key : ∀ m : Nat, m < 100 →
      (m ≤ 9 → roundTrip m = .ok (m : ℚ)) ∧ (10 ≤ m → returnsError (roundTrip m) = true) := by
    decide!
  exact key n (by omega)

/-- C6 as amended, at `n = 7`. -/
theorem roundTrip_below_hundred_witness :
    (7 : Nat) ≤ 99 ∧ roundTrip (7 : Nat) = .ok ((7 : Nat) : ℚ) :=
  ⟨by decide, (roundTrip_below_hundred 7 (by decide)).1 (by decide)⟩

/-- C7 (TenMin elision), evaluated on the code: `ToChineseNumber(12, TenMin)`
cuts two bytes, not the three bytes of `一`, off the plain encoding `一十二`; the
result is `十`, the stray byte `0x80` and then `十二`, not `十二`. -/
theorem ToChineseNumber_TenMin_twelve :
    ToChineseNumber (.int 12) none = .ok (str "一十二") ∧
    ToChineseNumber (.int 12) (some ⟨true⟩) = .ok (str "十" ++ [0x80] ++ str "十二") ∧
    ToChineseNumber (.int 12) (some ⟨true⟩) ≠ .ok (str "十二") := by
  decide!

/-- C8 (zero-collapse example): `ToChineseNumber(2025, nil)` is `二千零二十五`. -/
theorem ToChineseNumber_2025 :
    ToChineseNumber (.int 2025) none = .ok (str "二千零二十五") := by
  decide!

/-- C9 (magnitude cap): on a numeral string (optional `-`, digits, optional
`.` and digits) `ToChineseNumber` and `ToCurrencyNumber` return an error
exactly when the integer part has more than 16 digits after its leading zeros
are stripped, and otherwise return a text. -/
theorem magnitude_cap (negative : Bool) (I : GoString) (frac : Option GoString)
    (options : Option NumberOptions) (unit : GoString)
    (hI : Digits I) (hD : Digits (frac.getD [])) :
    (returnsError (ToChineseNumber (.string (numeral negative I frac)) options) = true
      ↔ 16 < (TrimLeftZeros I).length) ∧
    (returnsError (ToCurrencyNumber (.string (numeral negative I frac)) unit) = true
      ↔ 16 < (TrimLeftZeros I).length) ∧
    ((TrimLeftZeros I).length ≤ 16 →
      (∃ t, ToChineseNumber (.string (numeral negative I frac)) options = .ok t) ∧
      (∃ t, ToCurrencyNumber (.string (numeral negative I frac)) unit = .ok t)) := by
  have hplain := convertIntegerToChinese_digits I (options.getD ⟨false⟩) hI
  have hcur := convertIntegerToCurrency_digits I hI
  have okPlain : (TrimLeftZeros I).length ≤ 16 →
      ∃ t, ToChineseNumber (.string (numeral negative I frac)) options = .ok t := by
    intro h
    obtain ⟨ic, hic⟩ := hplain.2 h
    obtain ⟨dc, hdc⟩ := convertDecimalToChinese_digits (frac.getD []) hD
    rw [ToChineseNumber_numeral negative I frac options hI hD, hic, hdc]
    exact ⟨_, rfl⟩
  have okCur : (TrimLeftZeros I).length ≤ 16 →
      ∃ t, ToCurrencyNumber (.string (numeral negative I frac)) unit = .ok t := by
    intro h
    obtain ⟨ic, hic⟩ := hcur.2 h
    obtain ⟨dc, hdc⟩ :=
      convertDecimalToCurrency_digits (currencyFraction frac) (Digits_currencyFraction frac hD)
    rw [ToCurrencyNumber_numeral negative I frac unit hI hD, hic, hdc]
    exact ⟨_, rfl⟩
  refine ⟨⟨?_, ?_⟩, ⟨?_, ?_⟩, fun h => ⟨okPlain h, okCur h⟩⟩
  · intro h
    by_contra hle
    obtain ⟨t, ht⟩ := okPlain (by omega)
    rw [ht, returnsError_ok] at h
    exact Bool.noConfusion h
  · intro h
    rw [ToChineseNumber_numeral negative I frac options hI hD, hplain.1 h]
    rfl
  · intro h
    by_contra hle
    obtain ⟨t, ht⟩ := okCur (by omega)
    rw [ht, returnsError_ok] at h
    exact Bool.noConfusion h
  · intro h
    rw [ToCurrencyNumber_numeral negative I frac unit hI hD, hcur.1 h]
    rfl

/-- C9 at `-12345678901234567.5` (17 integer digits: both encoders fail) and at
`0001234567890123456` (16 significant digits: both return a text). -/
theorem magnitude_cap_witness :
    (returnsError (ToChineseNumber
        (.string (numeral true (str "12345678901234567") (some (str "5")))) none) = true ∧
      returnsError (ToCurrencyNumber
        (.string (numeral true (str "12345678901234567") (some (str "5")))) (str "元")) = true) ∧
    ((∃ t, ToChineseNumber
        (.string (numeral false (str "0001234567890123456") none)) none = .ok t) ∧
      (∃ t, ToCurrencyNumber
        (.string (numeral false (str "0001234567890123456") none)) (str "元") = .ok t)) :=
  ⟨⟨(magnitude_cap true (str "12345678901234567") (some (str "5")) none (str "元")
        (by decide!) (by decide!)).1.mpr (by decide!),
    (magnitude_cap true (str "12345678901234567") (some (str "5")) none (str "元")
        (by decide!) (by decide!)).2.1.mpr (by decide!)⟩,
   (magnitude_cap false (str "0001234567890123456") none none (str "元")
        (by decide!) (by decide!)).2.2 (by decide!)⟩

/-- C10 (sign handling): for every numeral string `s` (digits with an optional
fraction), `ToChineseNumber("-" + s)` is `ToChineseNumber(s)` with `负` put in
front (and fails when that fails); the text of a non-negative input, a numeral
string or an `int`, never starts with `负`; and `ToChineseNumber(-100)` is
`负一百`. -/
theorem sign_handling (I : GoString) (frac : Option GoString)
    (options : Option NumberOptions) (hI : Digits I) (hD : Digits (frac.getD [])) :
    ToChineseNumber (.string (str "-" ++ numeral false I frac)) options
      = (fun t => str "负" ++ t) <$> ToChineseNumber (.string (numeral false I frac)) options ∧
    (∀ t, ToChineseNumber (.string (numeral false I frac)) options = .ok t →
      HasPrefix t (str "负") = false) ∧
    (∀ v : Int, 0 ≤ v → ∀ t, ToChineseNumber (.int v) options = .ok t →
      HasPrefix t (str "负") = false) ∧
    ToChineseNumber (.int (-100)) none = .ok (str "负一百") := by
  refine ⟨?_, ToChineseNumber_unsigned_head I frac options hI hD, ?_, by decide!⟩
  · have hneg : str "-" ++ numeral false I frac = numeral true I frac := by
      rw [numeral_true, str_minus]; rfl
    rw [hneg, ToChineseNumber_numeral true I frac options hI hD,
      ToChineseNumber_numeral false I frac options hI hD]
    cases convertIntegerToChinese I (options.getD ⟨false⟩) with
    | error e => rfl
    | ok ic =>
      simp only [except_bind_ok]
      cases convertDecimalToChinese (frac.getD []) with
      | error e => rfl
      | ok dc =>
        show Except.ok (plainText true ic dc) = Except.ok (str "负" ++ plainText false ic dc)
        simp [plainText]
  · intro v hv t ht
    rw [ToChineseNumber_int, ← numeral_unsigned (Itoa v)] at ht
    exact ToChineseNumber_unsigned_head (Itoa v) none options (Itoa_digits v hv)
      (fun b hb => absurd hb (List.not_mem_nil b)) t ht

/-- C10 at `s = "100.5"`: `ToChineseNumber("-100.5")` is `负` followed by
`ToChineseNumber("100.5")`, which is `一百点五`. -/
theorem sign_handling_witness :
    ToChineseNumber (.string (str "-" ++ numeral false (str "100") (some (str "5")))) none
      = (fun t => str "负" ++ t) <$>
          ToChineseNumber (.string (numeral false (str "100") (some (str "5")))) none ∧
    ToChineseNumber (.string (numeral false (str "100") (some (str "5")))) none
      = .ok (str "一百点五") :=
  ⟨(sign_handling (str "100") (some (str "5")) none (by decide!) (by decide!)).1, by decide!⟩

/-! ## Encoders on zero and currency amounts: lemmas -/

theorem Digits_zeros (k : Nat) : Digits (zeros k) := by
  intro b hb
  rw [List.eq_of_mem_replicate hb]
  rfl

theorem Digits_map_zeros (m : Option Nat) : Digits ((m.map zeros).getD []) := by
  cases m with
  | none => exact fun b hb => absurd hb (List.not_mem_nil b)
  | some j => exact Digits_zeros j

theorem TrimLeftZeros_zeros (k : Nat) : TrimLeftZeros (zeros k) = [] := by
  unfold TrimLeftZeros zeros
  rw [List.dropWhile_eq_nil_iff]
  intro b hb
  rw [List.eq_of_mem_replicate hb]
  rfl

theorem convertIntegerToChinese_zeros (k : Nat) (options : NumberOptions) :
    convertIntegerToChinese (zeros k) options = .ok (str "零") := by
  unfold convertIntegerToChinese
  split_ifs with h
  · rfl
  · simp only [TrimLeftZeros_zeros, if_true]
    rfl

theorem convertIntegerToCurrency_zeros (k : Nat) :
    convertIntegerToCurrency (zeros k) = .ok (str "零") := by
  unfold convertIntegerToCurrency
  split_ifs with h
  · rfl
  · simp only [TrimLeftZeros_zeros, if_true]
    rfl

theorem convertDecimalToChinese_zeros (m : Nat) :
    convertDecimalToChinese (zeros m) = .ok (List.replicate m (str "零")).flatten := by
  unfold convertDecimalToChinese
  by_cases h0 : zeros m = []
  · rw [if_pos h0]
    cases m with
    | zero => rfl
    | succ j => simp [zeros, List.replicate_succ] at h0
  · rw [if_neg h0, toRunes_digits (Digits_zeros m)]
    have key : ∀ (j : Nat) (init : GoString),
        List.foldlM (fun (result : GoString) (char : Nat) =>
          if char < 48 then (Except.error Fault.panic : Except Fault GoString)
          else index chineseNumbers (char - 48) >>= fun number => pure (result ++ number))
          init (zeros j) = .ok (init ++ (List.replicate j (str "零")).flatten) := by
      intro j
      induction j with
      | zero => intro init; simp [zeros, except_pure]
      | succ j ih =>
        intro init
        have hidx : index chineseNumbers (48 - 48) = .ok (str "零") := by decide!
        unfold zeros at ih ⊢
        rw [List.replicate_succ, List.foldlM_cons, if_neg (by omega), hidx]
        refine (ih (init ++ str "零")).trans ?_
        simp [List.replicate_succ]
    have := key m []
    simpa using this

theorem convertDecimalToCurrency_all_zero (f : GoString) (h : ∀ b ∈ f, b = 48) :
    convertDecimalToCurrency f = .ok [] := by
  unfold convertDecimalToCurrency
  split
  · rename_i b0 b1
    have h0 : b0 = 48 := h b0 (by simp)
    have h1 : b1 = 48 := h b1 (by simp)
    subst h0 h1
    decide!
  · rfl

theorem currencyFraction_zeros (m : Option Nat) :
    ∀ b ∈ currencyFraction (m.map zeros), b = 48 := by
  cases m with
  | none => decide!
  | some j =>
    intro b hb
    simp only [Option.map_some', currencyFraction] at hb
    split_ifs at hb
    · rw [str_zero] at hb
      rcases List.mem_append.mp hb with h | h
      · exact List.eq_of_mem_replicate h
      · simpa using h
    · exact List.eq_of_mem_replicate (List.mem_of_mem_take hb)
    · exact List.eq_of_mem_replicate hb

theorem currencyNumbers_symbol :
    ∀ d, d < 10 → 0 < d → ∀ n, index currencyNumbers d = .ok n →
      n.length = 3 ∧ n ≠ str "零" := by
  have key : ∀ d, d < 10 → 0 < d →
      ((index currencyNumbers d).toOption.map List.length = some 3 ∧
        (index currencyNumbers d).toOption ≠ some (str "零")) := by decide!
  intro d h1 h2 n hn
  have := key d h1 h2
  rw [hn] at this
  simpa [Except.toOption] using this

theorem convertIntegerToCurrency_zero (I : GoString) (h : TrimLeftZeros I = []) :
    convertIntegerToCurrency I = .ok (str "零") := by
  unfold convertIntegerToCurrency
  split_ifs
  · rfl
  · simp only [h, if_true]; rfl

/-- The financial text of a non-zero integer part is neither empty nor `零`. -/
theorem convertIntegerToCurrency_nonzero (I : GoString) (hI : Digits I)
    (hnz : TrimLeftZeros I ≠ []) (ic : GoString)
    (h : convertIntegerToCurrency I = .ok ic) : ic ≠ [] ∧ ic ≠ str "零" := by
  obtain ⟨h1, h2⟩ := trimLeftZeros_length_pos (List.length_pos.mpr hnz)
  unfold convertIntegerToCurrency at h
  rw [if_neg (by simp [h1, h2])] at h
  simp only [hnz, if_false] at h
  split_ifs at h with hlen
  cases hs : TrimLeftZeros I with
  | nil => exact absurd hs hnz
  | cons b rest =>
    have hb0 := trimLeftZeros_head I b rest hs
    have hdig : Digits (b :: rest) := hs ▸ hI.trimLeftZeros
    rw [hs] at h
    simp only [integerLoop] at h
    cases hst : integerStep currencyNumbers currencyUnits currencyBigUnits
        (b :: rest).length 0 b ([], false) with
    | error e => rw [hst] at h; exact absurd h (by simp [except_bind_error])
    | ok st' =>
      rw [hst, except_bind_ok] at h
      obtain ⟨n, hn, hpre⟩ := integerStep_first _ _ _ _ _ _ hdig.head hb0 hst
      have hbd := hdig.head
      unfold isDigit at hbd
      simp only [Bool.and_eq_true, decide_eq_true_eq] at hbd
      obtain ⟨hn3, hnz0⟩ := currencyNumbers_symbol (b - 48) (by omega) (by omega) n hn
      obtain ⟨u, hu⟩ := hpre.trans (integerLoop_extends _ _ _ _ _ _ _ _ h)
      have hzlen : (str "零").length = 3 := by decide!
      constructor
      · intro hic
        rw [hic] at hu
        have := congrArg List.length hu
        simp [hn3] at this
      · intro hic
        rw [hic] at hu
        have hlen2 := congrArg List.length hu
        rw [List.length_append, hn3, hzlen] at hlen2
        have hu0 : u = [] := List.length_eq_zero.mp (by omega)
        rw [hu0, List.append_nil] at hu
        exact hnz0 hu

theorem HasSuffix_append (a b : GoString) : HasSuffix (a ++ b) b = true := by
  unfold HasSuffix
  rw [List.isSuffixOf_iff_suffix]
  exact List.suffix_append a b

theorem decimalOnlyCheck_digits :
    ∀ j, j < 10 → ∀ f, f < 10 → (j ≠ 0 ∨ f ≠ 0) → ∀ negative : Bool,
      decimalOnlyCheck negative (convertDecimalToCurrency [48 + j, 48 + f]) = true := by
  decide!

theorem currencyFraction_length (frac : Option GoString) :
    (currencyFraction frac).length = 0 ∨ (currencyFraction frac).length = 2 := by
  unfold currencyFraction
  cases frac with
  | none => right; decide!
  | some D =>
    simp only
    split_ifs with h1 h2
    · right; rw [List.length_append, h1, str_zero]; rfl
    · right; rw [List.length_take]; omega
    · omega

/-! ## Decoder on texts of digit symbols: lemmas -/

theorem isHan3_bytes {s : GoString} (h : isHan3 s = true) :
    ∃ a b c, s = [a, b, c] ∧ 0xE1 ≤ a ∧ a ≤ 0xEC ∧ 0x80 ≤ b ∧ b ≤ 0xBF ∧ 0x80 ≤ c ∧ c ≤ 0xBF := by
  match s, h with
  | [a, b, c], h =>
    simp only [isHan3, Bool.and_eq_true, decide_eq_true_eq] at h
    exact ⟨a, b, c, rfl, by omega, by omega, by omega, by omega, by omega, by omega⟩

theorem decodeRune_han3 (a b c : Nat) (rest : GoString)
    (ha : 0xE1 ≤ a ∧ a ≤ 0xEC) (hb : 0x80 ≤ b ∧ b ≤ 0xBF) (hc : 0x80 ≤ c ∧ c ≤ 0xBF) :
    decodeRune (a :: b :: c :: rest) = (a % 16 * 4096 + b % 64 * 64 + c % 64, 3) := by
  have h1 : ¬ a < 128 := by omega
  have h2 : ¬ (a < 194 ∨ 244 < a) := by omega
  have h3 : ¬ a < 224 := by omega
  have h4 : a < 240 := by omega
  have h5 : ¬ a = 224 := by omega
  have h6 : ¬ a = 237 := by omega
  have h7 : 128 ≤ b ∧ b ≤ 191 ∧ 128 ≤ c ∧ c ≤ 191 := by omega
  simp only [decodeRune, h1, h2, h3, h4, h5, h6, h7, if_true, if_false, and_self]

theorem encodeRune_han3 (a b c : Nat)
    (ha : 0xE1 ≤ a ∧ a ≤ 0xEC) (hb : 0x80 ≤ b ∧ b ≤ 0xBF) (hc : 0x80 ≤ c ∧ c ≤ 0xBF) :
    encodeRune (a % 16 * 4096 + b % 64 * 64 + c % 64) = [a, b, c] := by
  unfold encodeRune
  rw [if_neg (by omega), if_neg (by omega), if_neg (by omega), if_pos (by omega)]
  congr 1
  · omega
  · congr 1
    · omega
    · congr 1
      omega

theorem toRunesFrom_han3 (a b c : Nat) (rest : GoString)
    (ha : 0xE1 ≤ a ∧ a ≤ 0xEC) (hb : 0x80 ≤ b ∧ b ≤ 0xBF) (hc : 0x80 ≤ c ∧ c ≤ 0xBF) :
    toRunesFrom 0 (a :: b :: c :: rest)
      = (a % 16 * 4096 + b % 64 * 64 + c % 64) :: toRunesFrom 0 rest := by
  simp only [toRunesFrom, decodeRune_han3 a b c rest ha hb hc]

/-- A three-byte separator whose first byte is not a continuation byte is not
found inside a text of three-byte symbols different from it. -/
theorem splitFrom_han3 (x y z : Nat) (hx : 0xC0 ≤ x) (ss : List GoString)
    (hs : ∀ s ∈ ss, isHan3 s = true ∧ s ≠ [x, y, z]) :
    ∀ cur, splitFrom [x, y, z] 0 ss.flatten cur = [cur ++ ss.flatten] := by
  induction ss with
  | nil => intro cur; simp [splitFrom]
  | cons s ss ih =>
    intro cur
    obtain ⟨h3, hne⟩ := hs s (List.mem_cons_self _ _)
    obtain ⟨a, b, c, rfl, ha1, ha2, hb1, hb2, hc1, hc2⟩ := isHan3_bytes h3
    have hxa : ¬ (x = a ∧ y = b ∧ z = c) := by
      rintro ⟨rfl, rfl, rfl⟩; exact hne rfl
    have hxb : x ≠ b := by omega
    have hxc : x ≠ c := by omega
    have ih' := ih (fun t ht => hs t (List.mem_cons_of_mem _ ht))
    rw [List.flatten_cons]
    show splitFrom [x, y, z] 0 (a :: b :: c :: ss.flatten) cur = _
    have s1 : List.isPrefixOf [x, y, z] (a :: b :: c :: ss.flatten) = false := by
      simp only [List.isPrefixOf, Bool.and_eq_false_iff, beq_eq_false_iff_ne, ne_eq]
      by_cases h1 : x = a
      · by_cases h2 : y = b
        · right; right; left; exact fun h3 => hxa ⟨h1, h2, h3⟩
        · right; left; exact h2
      · left; exact h1
    have s2 : List.isPrefixOf [x, y, z] (b :: c :: ss.flatten) = false := by
      simp [List.isPrefixOf, hxb]
    have s3 : List.isPrefixOf [x, y, z] (c :: ss.flatten) = false := by
      simp [List.isPrefixOf, hxc]
    simp only [splitFrom, s1, s2, s3, Bool.false_eq_true, if_false]
    rw [ih']
    simp

/-- A three-byte text whose first byte is not a continuation byte does not occur
in a text of three-byte symbols different from it. -/
theorem Contains_han3 (x y z : Nat) (hx : 0xC0 ≤ x) (ss : List GoString)
    (hs : ∀ s ∈ ss, isHan3 s = true ∧ s ≠ [x, y, z]) :
    Contains ss.flatten [x, y, z] = false := by
  induction ss with
  | nil => rfl
  | cons s ss ih =>
    obtain ⟨h3, hne⟩ := hs s (List.mem_cons_self _ _)
    obtain ⟨a, b, c, rfl, ha1, ha2, hb1, hb2, hc1, hc2⟩ := isHan3_bytes h3
    have hxa : ¬ (x = a ∧ y = b ∧ z = c) := by
      rintro ⟨rfl, rfl, rfl⟩; exact hne rfl
    have hxb : x ≠ b := by omega
    have hxc : x ≠ c := by omega
    have ih' := ih (fun t ht => hs t (List.mem_cons_of_mem _ ht))
    rw [List.flatten_cons]
    show Contains (a :: b :: c :: ss.flatten) [x, y, z] = false
    have s1 : List.isPrefixOf [x, y, z] (a :: b :: c :: ss.flatten) = false := by
      simp only [List.isPrefixOf, Bool.and_eq_false_iff, beq_eq_false_iff_ne, ne_eq]
      by_cases h1 : x = a
      · by_cases h2 : y = b
        · right; right; left; exact fun h3 => hxa ⟨h1, h2, h3⟩
        · right; left; exact h2
      · left; exact h1
    have s2 : List.isPrefixOf [x, y, z] (b :: c :: ss.flatten) = false := by
      simp [List.isPrefixOf, hxb]
    have s3 : List.isPrefixOf [x, y, z] (c :: ss.flatten) = false := by
      simp [List.isPrefixOf, hxc]
    simp only [Contains, s1, s2, s3, ih', Bool.or_self]

theorem str_dian : str "点" = [231, 130, 185] := by decide!
theorem str_shi : str "十" = [229, 141, 129] := by decide!
theorem str_fu : str "负" = [232, 180, 159] := by decide!

theorem digitSymbol_facts : ∀ fin : Bool, ∀ v, v < 10 →
    isHan3 (digitSymbol (fin, v)) = true ∧
    digitSymbol (fin, v) ≠ [231, 130, 185] ∧
    digitSymbol (fin, v) ≠ [229, 141, 129] ∧
    digitSymbol (fin, v) ≠ [232, 180, 159] ∧
    numberMap.lookup (digitSymbol (fin, v)) = some (v : Int) ∧
    convertChineseToInteger (digitSymbol (fin, v)) = .ok (v : Int) := by
  decide!

theorem digitSymbol_fact (p : Bool × Nat) (hp : p.2 < 10) :
    isHan3 (digitSymbol p) = true ∧
    digitSymbol p ≠ [231, 130, 185] ∧
    digitSymbol p ≠ [229, 141, 129] ∧
    digitSymbol p ≠ [232, 180, 159] ∧
    numberMap.lookup (digitSymbol p) = some (p.2 : Int) ∧
    convertChineseToInteger (digitSymbol p) = .ok (p.2 : Int) :=
  digitSymbol_facts p.1 p.2 hp

theorem isPrefixOf_han3_ne (x y z a b c : Nat) (rest : GoString)
    (hne : [a, b, c] ≠ [x, y, z]) :
    List.isPrefixOf [x, y, z] (a :: b :: c :: rest) = false := by
  simp only [List.isPrefixOf, Bool.and_eq_false_iff, beq_eq_false_iff_ne, ne_eq]
  by_cases h1 : x = a
  · by_cases h2 : y = b
    · right; right; left
      rintro rfl
      exact hne (by rw [h1, h2])
    · right; left; exact h2
  · left; exact h1

theorem symbolsText_cons (p : Bool × Nat) (syms : List (Bool × Nat)) :
    symbolsText (p :: syms) = digitSymbol p ++ symbolsText syms := by
  simp [symbolsText]

theorem symbolsText_length (syms : List (Bool × Nat)) (hv : ∀ p ∈ syms, p.2 < 10) :
    (symbolsText syms).length = 3 * syms.length := by
  induction syms with
  | nil => rfl
  | cons p syms ih =>
    obtain ⟨a, b, c, hs, _⟩ := isHan3_bytes (digitSymbol_fact p (hv p (List.mem_cons_self _ _))).1
    rw [symbolsText_cons, List.length_append, ih (fun q hq => hv q (List.mem_cons_of_mem _ hq)),
      hs]
    simp only [List.length_cons, List.length_nil]
    omega

theorem decimalValue_lt (ds : List Nat) (h : ∀ d ∈ ds, d < 10) :
    decimalValue ds < 10 ^ ds.length := by
  induction ds with
  | nil => simp [decimalValue]
  | cons d ds ih =>
    have hd := h d (List.mem_cons_self _ _)
    have ih' := ih (fun e he => h e (List.mem_cons_of_mem _ he))
    simp only [decimalValue, List.length_cons, pow_succ]
    nlinarith [Nat.pos_pow_of_pos ds.length (by norm_num : 0 < 10)]

theorem wrapInt64_small (x : Int) (h0 : 0 ≤ x) (h1 : x < 9223372036854775808) :
    wrapInt64 x = x := by
  unfold wrapInt64
  have e63 : (2 : Int) ^ 63 = 9223372036854775808 := by norm_num
  have e64 : (2 : Int) ^ 64 = 18446744073709551616 := by norm_num
  rw [e63, e64]
  omega

/-- The digit loop of `convertChineseToInteger` on a text of digit symbols, as
long as the value stays below `2^63 = 9223372036854775808`. -/
theorem integerDigits_loop (msg : Fault) :
    ∀ (syms : List (Bool × Nat)) (acc : Nat), (∀ p ∈ syms, p.2 < 10) →
      acc * 10 ^ syms.length + decimalValue (syms.map Prod.snd) < 9223372036854775808 →
      List.foldlM
        (fun (result : Int) (r : Nat) =>
          match numberMap.lookup (encodeRune r) with
          | some val => (pure (wrapInt64 (result * 10 + val)) : Except Fault Int)
          | none => .error msg)
        (acc : Int) (toRunesFrom 0 (symbolsText syms))
        = .ok ((acc * 10 ^ syms.length + decimalValue (syms.map Prod.snd) : Nat) : Int) := by
  intro syms
  induction syms with
  | nil =>
    intro acc _ _
    simp [symbolsText, toRunesFrom, decimalValue, except_pure]
  | cons p syms ih =>
    intro acc hv hlt
    have hp := hv p (List.mem_cons_self _ _)
    obtain ⟨h3, _, _, _, hlook, _⟩ := digitSymbol_fact p hp
    obtain ⟨a, b, c, hs, ha1, ha2, hb1, hb2, hc1, hc2⟩ := isHan3_bytes h3
    have hpos : 0 < 10 ^ syms.length := Nat.pos_pow_of_pos _ (by norm_num)
    simp only [List.map_cons, decimalValue, List.length_cons, List.length_map, pow_succ] at hlt ⊢
    have hstep : acc * 10 + p.2 < 9223372036854775808 := by nlinarith
    rw [symbolsText_cons, hs]
    show List.foldlM _ _ (toRunesFrom 0 (a :: b :: c :: symbolsText syms)) = _
    rw [toRunesFrom_han3 a b c _ ⟨ha1, ha2⟩ ⟨hb1, hb2⟩ ⟨hc1, hc2⟩, List.foldlM_cons,
      encodeRune_han3 a b c ⟨ha1, ha2⟩ ⟨hb1, hb2⟩ ⟨hc1, hc2⟩, ← hs, hlook]
    have hw : wrapInt64 ((acc : Int) * 10 + (p.2 : Int)) = ((acc * 10 + p.2 : Nat) : Int) := by
      rw [wrapInt64_small _ (by positivity) (by exact_mod_cast hstep)]
      push_cast; ring
    simp only [hw]
    have ih' := ih (acc * 10 + p.2) (fun q hq => hv q (List.mem_cons_of_mem _ hq))
      (by nlinarith)
    rw [except_pure, except_bind_ok, ih']
    exact congrArg (fun n : Nat => (Except.ok (n : Int) : Except Fault Int)) (by ring)

theorem symbols_han3_ne (syms : List (Bool × Nat)) (hv : ∀ p ∈ syms, p.2 < 10)
    (x y z : Nat)
    (hx : ∀ p : Bool × Nat, p.2 < 10 → digitSymbol p ≠ [x, y, z]) :
    ∀ s ∈ syms.map digitSymbol, isHan3 s = true ∧ s ≠ [x, y, z] := by
  intro s hs
  obtain ⟨p, hp, rfl⟩ := List.mem_map.mp hs
  exact ⟨(digitSymbol_fact p (hv p hp)).1, hx p (hv p hp)⟩

theorem numberMap_keys : ∀ p ∈ numberMap, p.1.length = 3 := by decide!

theorem numberMap_lookup_long (t : GoString) (h : t.length ≠ 3) :
    numberMap.lookup t = none := by
  rw [List.lookup_eq_none_iff]
  intro p hp
  have := numberMap_keys p hp
  simp only [bne_iff_ne, ne_eq]
  intro ht
  rw [ht] at h
  exact h this

/-- On a non-empty text of digit symbols `convertChineseToInteger` returns the
number with these decimal digits, as long as it is below `2^63`. -/
theorem convertChineseToInteger_symbols (syms : List (Bool × Nat)) (hne : syms ≠ [])
    (hv : ∀ p ∈ syms, p.2 < 10)
    (hlt : decimalValue (syms.map Prod.snd) < 9223372036854775808) :
    convertChineseToInteger (symbolsText syms)
      = .ok ((decimalValue (syms.map Prod.snd) : Nat) : Int) := by
  match syms, hne with
  | [p], _ =>
    have := (digitSymbol_fact p (hv p (List.mem_cons_self _ _))).2.2.2.2.2
    simpa [symbolsText, decimalValue] using this
  | p :: q :: rest, _ =>
    have hlen := symbolsText_length (p :: q :: rest) hv
    simp only [List.length_cons] at hlen
    have h0 : symbolsText (p :: q :: rest) ≠ str "零" := by
      intro h
      have h3 : (str "零").length = 3 := by decide!
      rw [h] at hlen
      omega
    have hlook : numberMap.lookup (symbolsText (p :: q :: rest)) = none :=
      numberMap_lookup_long _ (by omega)
    have hcont : Contains (symbolsText (p :: q :: rest)) (str "十") = false := by
      rw [str_shi]
      exact Contains_han3 229 141 129 (by norm_num) _
        (symbols_han3_ne _ hv 229 141 129 (fun r hr => (digitSymbol_fact r hr).2.2.1))
    have hloop := integerDigits_loop
      (.error (str "无法解析的中文数字: " ++ symbolsText (p :: q :: rest))) (p :: q :: rest) 0 hv
      (by simpa using hlt)
    unfold convertChineseToInteger
    rw [if_neg h0]
    simp only [hlook, hcont, Bool.false_eq_true, if_false]
    unfold toRunes
    simpa using hloop

/-! ## Encoders and decoder: further claims -/

/-- C11 (negative zero) fails at `"-0"`: `ToChineseNumber("-0")` is `负零` while
`ToChineseNumber("0")` is `零`, and `ToCurrencyNumber("-0", "元")` is `负零元整`, not
`零元整`. -/
theorem negative_zero_differs :
    ToChineseNumber (.string (str "-0")) none = .ok (str "负零") ∧
    ToChineseNumber (.string (str "0")) none = .ok (str "零") ∧
    ToChineseNumber (.string (str "-0")) none ≠ ToChineseNumber (.string (str "0")) none ∧
    ToCurrencyNumber (.string (str "-0")) (str "元") = .ok (str "负零元整") ∧
    ToCurrencyNumber (.string (str "-0")) (str "元") ≠ .ok (str "零元整") := by
  decide!

/-- C11 as amended: the sign is taken from the text alone. For a minus sign
followed by `k` zeros and an optional fraction of `j` zeros, `ToChineseNumber`
returns `负零`, followed by `点` and `j` times `零` when `j > 0`, and
`ToCurrencyNumber` returns `负零`, the unit and `整`; so `"-0"`, `"-0.0"` and
`"-0.00"` give `负零`, `负零点零`, `负零点零零` and, for the unit `元`, `负零元整`, and so
does the negative-zero float, which is formatted to `-0` and to `-0.00`. -/
theorem negative_zero_keeps_sign (k : Nat) (m : Option Nat)
    (options : Option NumberOptions) (unit : GoString) :
    ToChineseNumber (.string (numeral true (zeros k) (m.map zeros))) options
      = .ok (str "负" ++ (str "零" ++
          (match m with
            | none => []
            | some 0 => []
            | some (j + 1) => str "点" ++ (List.replicate (j + 1) (str "零")).flatten))) ∧
    ToCurrencyNumber (.string (numeral true (zeros k) (m.map zeros))) unit
      = .ok (str "负" ++ (str "零" ++ (if unit = [] then str "元" else unit) ++ str "整")) ∧
    (numeral true (zeros 1) none = str "-0" ∧
      numeral true (zeros 1) (some (zeros 1)) = str "-0.0" ∧
      numeral true (zeros 1) (some (zeros 2)) = str "-0.00") ∧
    (ToChineseNumber (.float64 (str "-0") (str "-0.00")) none = .ok (str "负零") ∧
      ToCurrencyNumber (.float64 (str "-0") (str "-0.00")) (str "元") = .ok (str "负零元整")) := by
  refine ⟨?_, ?_, by decide!, by decide!⟩
  · rw [ToChineseNumber_numeral true (zeros k) (m.map zeros) options (Digits_zeros k)
      (Digits_map_zeros m), convertIntegerToChinese_zeros, except_bind_ok]
    cases m with
    | none =>
      show convertDecimalToChinese [] >>= _ = _
      rw [convertDecimalToChinese_nil, except_bind_ok]
      simp [plainText, except_pure]
    | some j =>
      show convertDecimalToChinese (zeros j) >>= _ = _
      rw [convertDecimalToChinese_zeros, except_bind_ok]
      cases j with
      | zero => simp [plainText, except_pure]
      | succ j =>
        have hne : (List.replicate (j + 1) (str "零")).flatten ≠ [] := by
          have : str "零" ≠ [] := by decide!
          simp [List.replicate_succ, this]
        simp [plainText, except_pure, hne]
  · rw [ToCurrencyNumber_numeral true (zeros k) (m.map zeros) unit (Digits_zeros k)
      (Digits_map_zeros m), convertIntegerToCurrency_zeros, except_bind_ok,
      convertDecimalToCurrency_all_zero _ (currencyFraction_zeros m), except_bind_ok]
    simp [currencyText, except_pure]

/-- C12 (currency example) fails as stated: `ToCurrencyNumber(2024.50, "元")`, the
amount being formatted to `2024.50`, is not `二千零二十四元伍角`. -/
theorem ToCurrencyNumber_2024_50_not_plain :
    ToCurrencyNumber (.float64 (str "2024.5") (str "2024.50")) (str "元")
      ≠ .ok (str "二千零二十四元伍角") := by
  decide!

/-- C12 as amended: `ToCurrencyNumber(2024.50, "元")` is `贰仟零贰拾肆元伍角`, the
integer part being written with the financial symbols as well. -/
theorem ToCurrencyNumber_2024_50 :
    ToCurrencyNumber (.float64 (str "2024.5") (str "2024.50")) (str "元")
      = .ok (str "贰仟零贰拾肆元伍角") := by
  decide!

/-- C13 (currency composition): for a numeral string whose integer part is not
zero, or whose two-digit fraction consists of zeros or is absent,
`ToCurrencyNumber` returns `负` if negative, then the financial integer text,
the unit (`元` for the empty unit) and the 角/分 text, or `整` when that text is
empty (and fails when the integer text fails); so the text of a whole amount
ends in `整`, 1000 gives `壹仟元整` and 0 gives `零元整`. -/
theorem currency_composition (negative : Bool) (I : GoString) (frac : Option GoString)
    (unit : GoString) (hI : Digits I) (hD : Digits (frac.getD []))
    (h : TrimLeftZeros I ≠ [] ∨ ∀ b ∈ currencyFraction frac, b = 48) :
    ToCurrencyNumber (.string (numeral negative I frac)) unit =
      (convertIntegerToCurrency I >>= fun integerChinese =>
        convertDecimalToCurrency (currencyFraction frac) >>= fun decimalChinese =>
          pure ((if negative then str "负" else []) ++
            (integerChinese ++ (if unit = [] then str "元" else unit) ++
              (if decimalChinese = [] then str "整" else decimalChinese)))) ∧
    ((∀ b ∈ currencyFraction frac, b = 48) → ∀ t,
      ToCurrencyNumber (.string (numeral negative I frac)) unit = .ok t →
      HasSuffix t (str "整") = true) ∧
    ToCurrencyNumber (.int 1000) (str "元") = .ok (str "壹仟元整") ∧
    ToCurrencyNumber (.int 0) (str "元") = .ok (str "零元整") := by
  have main : ToCurrencyNumber (.string (numeral negative I frac)) unit =
      (convertIntegerToCurrency I >>= fun integerChinese =>
        convertDecimalToCurrency (currencyFraction frac) >>= fun decimalChinese =>
          pure ((if negative then str "负" else []) ++
            (integerChinese ++ (if unit = [] then str "元" else unit) ++
              (if decimalChinese = [] then str "整" else decimalChinese)))) := by
    rw [ToCurrencyNumber_numeral negative I frac unit hI hD]
    cases hic : convertIntegerToCurrency I with
    | error e => rfl
    | ok ic =>
      rw [except_bind_ok, except_bind_ok]
      cases hdc : convertDecimalToCurrency (currencyFraction frac) with
      | error e => rfl
      | ok dc =>
        rw [except_bind_ok, except_bind_ok]
        congr 1
        by_cases hz : TrimLeftZeros I = []
        · have hic0 : ic = str "零" := by
            have := convertIntegerToCurrency_zero I hz
            rw [hic] at this
            exact Except.ok.inj this
          have hdc0 : dc = [] := by
            rcases h with h | h
            · exact absurd hz h
            · have := convertDecimalToCurrency_all_zero _ h
              rw [hdc] at this
              exact Except.ok.inj this
          simp [currencyText, hic0, hdc0]
        · obtain ⟨h1, h2⟩ := convertIntegerToCurrency_nonzero I hI hz ic hic
          simp [currencyText, h1, h2]
  refine ⟨main, ?_, by decide!, by decide!⟩
  intro hzero t ht
  rw [main] at ht
  cases hic : convertIntegerToCurrency I with
  | error e => rw [hic] at ht; exact absurd ht (by simp [except_bind_error])
  | ok ic =>
    rw [hic, except_bind_ok, convertDecimalToCurrency_all_zero _ hzero, except_bind_ok] at ht
    simp only [except_pure, if_true, Except.ok.injEq] at ht
    rw [← ht, ← List.append_assoc]
    exact HasSuffix_append _ _

/-- C13 at `-1000.00` with the unit `元`: the text is `负壹仟元整`. -/
theorem currency_composition_witness :
    ToCurrencyNumber (.string (numeral true (str "1000") (some (str "00")))) (str "元")
      = .ok (str "负壹仟元整") ∧
    HasSuffix (str "负壹仟元整") (str "整") = true :=
  ⟨((currency_composition true (str "1000") (some (str "00")) (str "元")
      (by decide!) (by decide!) (Or.inl (by decide!))).1).trans (by decide!),
   (currency_composition true (str "1000") (some (str "00")) (str "元")
      (by decide!) (by decide!) (Or.inl (by decide!))).2.1 (by decide!) _ (by decide!)⟩

/-- C14 (decimal-only currency): for a numeral string whose integer part is zero
or empty and whose two-digit fraction is not `00`, `ToCurrencyNumber` returns
only the 角/分 text, after `负` if negative: that text is not empty, and the
result contains neither `整` nor `元`; the unit and the `零` of the integer part
are left out. -/
theorem currency_decimal_only (negative : Bool) (I : GoString) (frac : Option GoString)
    (unit : GoString) (hI : Digits I) (hD : Digits (frac.getD []))
    (hzero : TrimLeftZeros I = []) (hfrac : ∃ b ∈ currencyFraction frac, b ≠ 48) :
    ∃ dc, convertDecimalToCurrency (currencyFraction frac) = .ok dc ∧ dc ≠ [] ∧
      ToCurrencyNumber (.string (numeral negative I frac)) unit
        = .ok ((if negative then str "负" else []) ++ dc) ∧
      Contains ((if negative then str "负" else []) ++ dc) (str "整") = false ∧
      Contains ((if negative then str "负" else []) ++ dc) (str "元") = false := by
  have hdig := Digits_currencyFraction frac hD
  obtain ⟨b, hb, hb48⟩ := hfrac
  have hlen : (currencyFraction frac).length = 2 := by
    rcases currencyFraction_length frac with h0 | h2
    · rw [List.length_eq_zero.mp h0] at hb; exact absurd hb (List.not_mem_nil b)
    · exact h2
  obtain ⟨b0, b1, hf⟩ := List.length_eq_two.mp hlen
  rw [hf] at hdig hb
  have hd0 := hdig b0 (by simp)
  have hd1 := hdig b1 (by simp)
  unfold isDigit at hd0 hd1
  simp only [Bool.and_eq_true, decide_eq_true_eq] at hd0 hd1
  have hne : b0 - 48 ≠ 0 ∨ b1 - 48 ≠ 0 := by
    simp only [List.mem_cons, List.mem_singleton, List.not_mem_nil, or_false] at hb
    rcases hb with rfl | rfl
    · left; omega
    · right; omega
  have hcheck := decimalOnlyCheck_digits (b0 - 48) (by omega) (b1 - 48) (by omega) hne negative
  have e0 : 48 + (b0 - 48) = b0 := by omega
  have e1 : 48 + (b1 - 48) = b1 := by omega
  rw [e0, e1, ← hf] at hcheck
  cases hdc : convertDecimalToCurrency (currencyFraction frac) with
  | error e => rw [hdc] at hcheck; exact absurd hcheck (by simp [decimalOnlyCheck])
  | ok dc =>
    rw [hdc] at hcheck
    simp only [decimalOnlyCheck, Bool.and_eq_true, bne_iff_ne, ne_eq, Bool.not_eq_true',
      ] at hcheck
    obtain ⟨⟨hdcne, hc1⟩, hc2⟩ := hcheck
    refine ⟨dc, rfl, hdcne, ?_, hc1, hc2⟩
    rw [ToCurrencyNumber_numeral negative I frac unit hI hD,
      convertIntegerToCurrency_zero I hzero, except_bind_ok, hdc, except_bind_ok]
    simp [currencyText, except_pure, hdcne]

/-- C14 at `0.50` with the unit `元`: the text is `伍角`. -/
theorem currency_decimal_only_witness :
    ToCurrencyNumber (.string (numeral false (str "0") (some (str "50")))) (str "元")
      = .ok (str "伍角") :=
  (currency_decimal_only false (str "0") (some (str "50")) (str "元")
      (by decide!) (by decide!) (by decide!) ⟨53, by decide!, by decide⟩).elim
    (fun dc h => by
      have hval : convertDecimalToCurrency (currencyFraction (some (str "50")))
          = .ok (str "伍角") := by decide!
      have hdc : dc = str "伍角" := Except.ok.inj (h.1.symm.trans hval)
      rw [h.2.2.1, hdc]
      rfl)

/-- C15 (`decode("负一百") == -100`) fails: `ChineseToNumber("负一百")` does not
return `-100`. -/
theorem ChineseToNumber_negative_hundred_ne :
    ChineseToNumber (str "负一百") ≠ .ok (-100) := by
  decide!

/-- C15 as amended: `ChineseToNumber("负一百")` returns the error
`无法解析的中文数字: 一百`, `百` not being in the digit map of the decoder. -/
theorem ChineseToNumber_negative_hundred :
    ChineseToNumber (str "负一百") = .error (.error (str "无法解析的中文数字: 一百")) := by
  decide!

/-- C16 (digit-string decoding): for every non-empty sequence of at most 15
digit symbols of the plain or the financial alphabet, `ChineseToNumber` returns
the number with these decimal digits, most significant first; `二零二四` gives
2024, `一` gives 1 and `零` gives 0. -/
theorem ChineseToNumber_digit_string (syms : List (Bool × Nat)) (hne : syms ≠ [])
    (hlen : syms.length ≤ 15) (hv : ∀ p ∈ syms, p.2 < 10) :
    ChineseToNumber (symbolsText syms)
      = .ok ((decimalValue (syms.map Prod.snd) : Nat) : ℚ) := by
  have hvals : ∀ d ∈ syms.map Prod.snd, d < 10 := by
    intro d hd
    obtain ⟨p, hp, rfl⟩ := List.mem_map.mp hd
    exact hv p hp
  have hbound : decimalValue (syms.map Prod.snd) < 9223372036854775808 := by
    have h1 := decimalValue_lt _ hvals
    rw [List.length_map] at h1
    have h2 : 10 ^ syms.length ≤ 10 ^ 15 := Nat.pow_le_pow_right (by norm_num) hlen
    have h3 : (10 : Nat) ^ 15 < 9223372036854775808 := by norm_num
    omega
  have hint := convertChineseToInteger_symbols syms hne hv hbound
  obtain ⟨p, rest, rfl⟩ := List.exists_cons_of_ne_nil hne
  have hp := hv p (List.mem_cons_self _ _)
  obtain ⟨a, b, c, hs, _⟩ := isHan3_bytes (digitSymbol_fact p hp).1
  have htext : symbolsText (p :: rest) = a :: b :: c :: symbolsText rest := by
    rw [symbolsText_cons, hs]; rfl
  have h1 : symbolsText (p :: rest) ≠ [] := by rw [htext]; simp
  have h2 : HasPrefix (symbolsText (p :: rest)) (str "负") = false := by
    unfold HasPrefix
    rw [htext, str_fu]
    exact isPrefixOf_han3_ne _ _ _ _ _ _ _ (hs ▸ (digitSymbol_fact p hp).2.2.2.1)
  have h3 : Split (symbolsText (p :: rest)) (str "点") = [symbolsText (p :: rest)] := by
    unfold Split
    rw [str_dian]
    have := splitFrom_han3 231 130 185 (by norm_num) ((p :: rest).map digitSymbol)
      (symbols_han3_ne _ hv 231 130 185 (fun r hr => (digitSymbol_fact r hr).2.1)) []
    simpa [symbolsText] using this
  unfold ChineseToNumber
  rw [if_neg h1]
  simp only [h2, Bool.false_eq_true, if_false, h3, List.headD_cons, hint, List.length_singleton,
    lt_self_iff_false, gt_iff_lt, ne_eq, not_true_eq_false, except_bind_ok, except_pure]
  simp

/-- C16 at `二零二四`, `一` and `零`: the values are 2024, 1 and 0. -/
theorem ChineseToNumber_digit_string_witness :
    symbolsText [(false, 2), (false, 0), (false, 2), (false, 4)] = str "二零二四" ∧
    ChineseToNumber (str "二零二四") = .ok 2024 ∧
    ChineseToNumber (str "一") = .ok 1 ∧
    ChineseToNumber (str "零") = .ok 0 :=
  ⟨by decide!,
   (ChineseToNumber_digit_string [(false, 2), (false, 0), (false, 2), (false, 4)]
      (by decide) (by decide) (by decide)).trans (by decide!),
   (ChineseToNumber_digit_string [(false, 1)] (by decide) (by decide) (by decide)).trans
      (by decide!),
   (ChineseToNumber_digit_string [(false, 0)] (by decide) (by decide) (by decide)).trans
      (by decide!)⟩

/-- C17 (ten-expansion): `ChineseToNumber("十")` is 10 and, for every plain digit
symbol `d` from `一` to `九` (of value `v`), `ChineseToNumber("十" + d)` is
`10 + v`; in particular `十二` gives 12. -/
theorem ChineseToNumber_ten (v : Nat) (h1 : 1 ≤ v) (h9 : v ≤ 9) :
    ChineseToNumber (str "十") = .ok 10 ∧
    ChineseToNumber (str "十" ++ chineseNumbers.getD v []) = .ok (10 + (v : ℚ)) ∧
    ChineseToNumber (str "十二") = .ok 12 := by
  have key : ∀ w : Nat, w < 10 → 1 ≤ w →
      ChineseToNumber (str "十") = .ok 10 ∧
      ChineseToNumber (str "十" ++ chineseNumbers.getD w []) = .ok (10 + (w : ℚ)) ∧
      ChineseToNumber (str "十二") = .ok 12 := by
    decide!
  exact key v (by omega) h1

/-- C17 at `d = 七`: `十七` decodes to 17. -/
theorem ChineseToNumber_ten_witness :
    chineseNumbers.getD 7 [] = str "七" ∧
    ChineseToNumber (str "十" ++ chineseNumbers.getD 7 []) = .ok (10 + ((7 : Nat) : ℚ)) :=
  ⟨by decide!, (ChineseToNumber_ten 7 (by decide) (by decide)).2.1⟩

/-- C18 (other shapes containing `十` fail), evaluated on the code: the
three-symbol text `十二三` contains `十` and is neither `十` nor `十` with one digit
symbol, yet `ChineseToNumber` returns 12 for it (and also for `十二百`):
`parseChineseTen` reads the second symbol and ignores what follows. -/
theorem ChineseToNumber_ten_trailing :
    Contains (str "十二三") (str "十") = true ∧
    ChineseToNumber (str "十二三") = .ok 12 ∧
    ChineseToNumber (str "十二百") = .ok 12 ∧
    parseChineseTen (str "十二三") = .ok 12 := by
  decide!

/-- C20 (empty input): `ChineseToNumber("")` returns the error `输入为空`. -/
theorem ChineseToNumber_empty :
    ChineseToNumber [] = .error (.error (str "输入为空")) ∧
    returnsError (ChineseToNumber (str "")) = true := by
  decide!

/-! ## Segmenter, decoder and first letters: evaluations -/

/-- C22 (no shared accumulator), evaluated on the code: on the gc toolchain the
two decompositions of `bababababaxian` are slices of one backing array (array 4,
lengths 7 and 6), and what `SplitPinyinArray` returns is not the pair of
syllable sequences built along the two paths: the first one reads
`ba ba ba ba ba xian an`. -/
theorem splitPinyinRecursive_shares_array :
    (splitPinyinRecursive gc 15 (str "bababababaxian") Heap.init Slice.empty).2
      = [⟨4, 7, 8⟩, ⟨4, 6, 8⟩] ∧
    SplitPinyinArray gc (str "bababababaxian")
      ≠ [["ba", "ba", "ba", "ba", "ba", "xi", "an"].map str,
         ["ba", "ba", "ba", "ba", "ba", "xian"].map str] ∧
    (SplitPinyinArray gc (str "bababababaxian")).head?
      = some (["ba", "ba", "ba", "ba", "ba", "xian", "an"].map str) := by
  decide!

/-- C23 (enumeration order), evaluated on the code: on the gc toolchain
`SplitPinyinArray("bababababafangan")` lists the decomposition
`ba ba ba ba ba fang an` twice (and `ba ba ba ba ba fan gan` not at all), so two
listed decompositions differ at no index; `xian` does give `xi an`, `xian`. -/
theorem SplitPinyinArray_lists_twice :
    SplitPinyinArray gc (str "bababababafangan")
      = [["ba", "ba", "ba", "ba", "ba", "fang", "an"].map str,
         ["ba", "ba", "ba", "ba", "ba", "fang", "an"].map str] ∧
    ¬ (SplitPinyinArray gc (str "bababababafangan")).Nodup ∧
    SplitPinyinArray gc (str "xian") = [["xi", "an"].map str, ["xian"].map str] := by
  decide!

/-- C29 (naive digit-string reading), evaluated on the code: the two-symbol
texts `二拾`, `拾二` and `拾拾` contain no `负`, `点` or `十`, and `ChineseToNumber`
returns 30, 102 and 110 for them: `拾` counts as a digit of value 10, and 110 is
not below `10^2`. -/
theorem ChineseToNumber_financial_ten :
    ChineseToNumber (str "二拾") = .ok 30 ∧
    ChineseToNumber (str "拾二") = .ok 102 ∧
    ChineseToNumber (str "拾拾") = .ok 110 ∧
    Contains (str "拾拾") (str "十") = false ∧
    ChineseToNumber (str "二十") = .error (.error (str "无法解析的十位数字: 二十")) := by
  decide!

/-- C30 (first-letter mode), evaluated on the code: with the table entry
`爱 ↦ ["ài"]`, the first-letter result of `ToPinyin("爱")` is `Ã` (the code point
`U+00C3` of the first byte of `à`), not `à`; a candidate that starts with an
ASCII letter gives that letter. -/
theorem ToPinyin_first_letter_byte :
    (ToPinyin aiTable (str "爱") ModePinyinFirst (str " ") false).PinyinFirst
      = some [[str "Ã"]] ∧
    (toRunes (str "ài")).head? = some 0xE0 ∧
    str "Ã" ≠ encodeRune 0xE0 ∧
    encodeRune 0xE0 = str "à" ∧
    firstLetters [str "zhong", []] = [str "z", []] := by
  decide!

/-! ## UTF-8: decoding what was encoded -/

theorem isScalar_iff (r : Nat) : isScalar r = true ↔ r < 0xD800 ∨ (0xDFFF < r ∧ r < 0x110000) := by
  simp [isScalar]

/-- Decoding what `encodeRune` wrote for a scalar value gives the value back,
with the number of bytes written. -/
theorem decodeRune_encodeRune (r : Nat) (rest : GoString) (h : isScalar r = true) :
    decodeRune (encodeRune r ++ rest) = (r, (encodeRune r).length) := by
  rw [isScalar_iff] at h
  by_cases h1 : r < 0x80
  · have e : encodeRune r = [r] := by unfold encodeRune; rw [if_pos h1]
    rw [e]
    show decodeRune (r :: rest) = _
    simp only [decodeRune, h1, if_true, List.length_singleton]
  · by_cases h2 : r < 0x800
    · have e : encodeRune r = [0xC0 + r / 64, 0x80 + r % 64] := by
        unfold encodeRune; rw [if_neg h1, if_pos h2]
      rw [e]
      show decodeRune ((0xC0 + r / 64) :: (0x80 + r % 64) :: rest) = _
      have c1 : ¬ (0xC0 + r / 64 < 128) := by omega
      have c2 : ¬ (0xC0 + r / 64 < 194 ∨ 244 < 0xC0 + r / 64) := by omega
      have c3 : 0xC0 + r / 64 < 224 := by omega
      have c4 : 128 ≤ 0x80 + r % 64 ∧ 0x80 + r % 64 ≤ 191 := by omega
      simp only [decodeRune, c1, c2, c3, c4, if_true, if_false, and_self]
      refine Prod.ext ?_ rfl
      show (0xC0 + r / 64) % 32 * 64 + (0x80 + r % 64) % 64 = r
      omega
    · by_cases h3 : r < 0x10000
      · have hs : ¬ (0xD800 ≤ r ∧ r ≤ 0xDFFF) := by omega
        have e : encodeRune r = [0xE0 + r / 4096, 0x80 + r / 64 % 64, 0x80 + r % 64] := by
          unfold encodeRune; rw [if_neg h1, if_neg h2, if_neg hs, if_pos h3]
        rw [e]
        show decodeRune ((0xE0 + r / 4096) :: (0x80 + r / 64 % 64) :: (0x80 + r % 64) :: rest) = _
        have c1 : ¬ (0xE0 + r / 4096 < 128) := by omega
        have c2 : ¬ (0xE0 + r / 4096 < 194 ∨ 244 < 0xE0 + r / 4096) := by omega
        have c3 : ¬ (0xE0 + r / 4096 < 224) := by omega
        have c4 : 0xE0 + r / 4096 < 240 := by omega
        have c5 : (if 0xE0 + r / 4096 = 224 then 160 else 128) ≤ 0x80 + r / 64 % 64 ∧
            0x80 + r / 64 % 64 ≤ (if 0xE0 + r / 4096 = 237 then 159 else 191) ∧
            128 ≤ 0x80 + r % 64 ∧ 0x80 + r % 64 ≤ 191 := by
          split_ifs <;> omega
        simp only [decodeRune, c1, c2, c3, c4, c5, if_true, if_false, and_self]
        refine Prod.ext ?_ rfl
        show (0xE0 + r / 4096) % 16 * 4096 + (0x80 + r / 64 % 64) % 64 * 64
          + (0x80 + r % 64) % 64 = r
        omega
      · have hs : ¬ (0xD800 ≤ r ∧ r ≤ 0xDFFF) := by omega
        have h4 : r < 0x110000 := by omega
        have e : encodeRune r = [0xF0 + r / 262144, 0x80 + r / 4096 % 64, 0x80 + r / 64 % 64,
            0x80 + r % 64] := by
          unfold encodeRune; rw [if_neg h1, if_neg h2, if_neg hs, if_neg h3, if_pos h4]
        rw [e]
        show decodeRune ((0xF0 + r / 262144) :: (0x80 + r / 4096 % 64) ::
          (0x80 + r / 64 % 64) :: (0x80 + r % 64) :: rest) = _
        have c1 : ¬ (0xF0 + r / 262144 < 128) := by omega
        have c2 : ¬ (0xF0 + r / 262144 < 194 ∨ 244 < 0xF0 + r / 262144) := by omega
        have c3 : ¬ (0xF0 + r / 262144 < 224) := by omega
        have c4 : ¬ (0xF0 + r / 262144 < 240) := by omega
        have c5 : (if 0xF0 + r / 262144 = 240 then 144 else 128) ≤ 0x80 + r / 4096 % 64 ∧
            0x80 + r / 4096 % 64 ≤ (if 0xF0 + r / 262144 = 244 then 143 else 191) ∧
            128 ≤ 0x80 + r / 64 % 64 ∧ 0x80 + r / 64 % 64 ≤ 191 ∧
            128 ≤ 0x80 + r % 64 ∧ 0x80 + r % 64 ≤ 191 := by
          split_ifs <;> omega
        simp only [decodeRune, c1, c2, c3, c4, c5, if_true, if_false, and_self]
        refine Prod.ext ?_ rfl
        show (0xF0 + r / 262144) % 8 * 262144 + (0x80 + r / 4096 % 64) % 64 * 4096
          + (0x80 + r / 64 % 64) % 64 * 64 + (0x80 + r % 64) % 64 = r
        omega

theorem encodeRune_length (r : Nat) :
    (encodeRune r).length = 1 ∨ (encodeRune r).length = 2 ∨ (encodeRune r).length = 3 ∨
      (encodeRune r).length = 4 := by
  unfold encodeRune
  split_ifs <;> simp

theorem toRunesFrom_skip (k : Nat) (pre rest : GoString) (h : pre.length = k) :
    toRunesFrom k (pre ++ rest) = toRunesFrom 0 rest := by
  induction pre generalizing k with
  | nil => simp at h; subst h; rfl
  | cons b pre ih =>
    cases k with
    | zero => simp at h
    | succ k =>
      simp only [List.cons_append, toRunesFrom]
      exact ih k (by simpa using h)

theorem toRunesFrom_encodeRune (r : Nat) (rest : GoString) (h : isScalar r = true) :
    toRunesFrom 0 (encodeRune r ++ rest) = r :: toRunesFrom 0 rest := by
  have hd := decodeRune_encodeRune r rest h
  have hlen := encodeRune_length r
  cases he : encodeRune r with
  | nil => rw [he] at hlen; simp at hlen
  | cons b pre =>
    rw [he] at hd
    simp only [List.cons_append] at hd ⊢
    simp only [toRunesFrom, hd, List.length_cons, Nat.add_sub_cancel]
    rw [toRunesFrom_skip pre.length pre rest rfl]

/-- Decoding the encoding of a sequence of scalar values gives the sequence. -/
theorem toRunes_runesToString (rs : List Nat) (h : ∀ r ∈ rs, isScalar r = true) :
    toRunes (runesToString rs) = rs := by
  unfold toRunes runesToString
  induction rs with
  | nil => rfl
  | cons r rs ih =>
    simp only [List.map_cons, List.flatten_cons]
    rw [toRunesFrom_encodeRune r _ (h r (List.mem_cons_self _ _)),
      ih (fun x hx => h x (List.mem_cons_of_mem _ hx))]

/-! ## Simplified and traditional substitution -/

/-- Every code point `decodeRune` returns is a scalar value. -/
theorem decodeRune_scalar (s : GoString) : isScalar (decodeRune s).1 = true := by
  rw [isScalar_iff]
  match s with
  | [] => simp [decodeRune]
  | b0 :: rest =>
    by_cases h1 : b0 < 128
    · simp only [decodeRune, h1, if_true]; omega
    · by_cases h2 : b0 < 194 ∨ 244 < b0
      · simp only [decodeRune, h1, h2, if_true, if_false]; omega
      · by_cases h3 : b0 < 224
        · match rest with
          | [] => simp only [decodeRune, h1, h2, h3, if_true, if_false]; omega
          | b1 :: _ =>
            simp only [decodeRune, h1, h2, h3, if_true, if_false]
            split_ifs <;> simp only <;> omega
        · by_cases h4 : b0 < 240
          · match rest with
            | [] => simp only [decodeRune, h1, h2, h3, h4, if_true, if_false]; omega
            | [_] => simp only [decodeRune, h1, h2, h3, h4, if_true, if_false]; omega
            | b1 :: b2 :: _ =>
              simp only [decodeRune, h1, h2, h3, h4, if_true, if_false]
              split_ifs <;> simp only <;> omega
          · match rest with
            | [] => simp only [decodeRune, h1, h2, h3, h4, if_true, if_false]; omega
            | [_] => simp only [decodeRune, h1, h2, h3, h4, if_true, if_false]; omega
            | [_, _] => simp only [decodeRune, h1, h2, h3, h4, if_true, if_false]; omega
            | b1 :: b2 :: b3 :: _ =>
              simp only [decodeRune, h1, h2, h3, h4, if_true, if_false]
              split_ifs <;> simp only <;> omega

theorem toRunesFrom_scalar (s : GoString) :
    ∀ k, ∀ r ∈ toRunesFrom k s, isScalar r = true := by
  induction s with
  | nil => intro k r hr; cases k <;> simp [toRunesFrom] at hr
  | cons b rest ih =>
    intro k r hr
    cases k with
    | succ k =>
      simp only [toRunesFrom] at hr
      exact ih k r hr
    | zero =>
      simp only [toRunesFrom, List.mem_cons] at hr
      rcases hr with rfl | hr
      · exact decodeRune_scalar _
      · exact ih _ r hr

theorem toRunes_scalar (s : GoString) : ∀ r ∈ toRunes s, isScalar r = true :=
  toRunesFrom_scalar s 0

theorem substitute_scalar (table : Nat → Option (List Nat))
    (ht : ∀ r first rest, table r = some (first :: rest) → isScalar first = true)
    (r : Nat) (hr : isScalar r = true) : isScalar (substitute table r) = true := by
  unfold substitute
  split
  · rename_i first rest heq
    exact ht r first rest heq
  · exact hr

theorem substitute_absent (table : Nat → Option (List Nat)) (r : Nat)
    (h : table r = none ∨ table r = some []) : substitute table r = r := by
  unfold substitute
  rcases h with h | h <;> rw [h]

theorem runesToString_ne_nil (rs : List Nat) (h : rs ≠ []) : runesToString rs ≠ [] := by
  obtain ⟨r, rest, rfl⟩ := List.exists_cons_of_ne_nil h
  unfold runesToString
  simp only [List.map_cons, List.flatten_cons]
  intro h0
  have := encodeRune_length r
  rw [(List.append_eq_nil.mp h0).1] at this
  simp at this

/-- What the substitution loop shared by `ToSimplified` and `ToTraditional`
returns, read as code points. -/
theorem substitution_pointwise (table : Nat → Option (List Nat))
    (ht : ∀ r first rest, table r = some (first :: rest) → isScalar first = true)
    (text : GoString) :
    toRunes (if text = [] then [] else runesToString ((toRunes text).map (substitute table)))
      = (toRunes text).map (substitute table) := by
  split_ifs with h
  · rw [h]; rfl
  · apply toRunes_runesToString
    intro x hx
    obtain ⟨r, hr, rfl⟩ := List.mem_map.mp hx
    exact substitute_scalar table ht r (toRunes_scalar text r hr)

/-- C21 (simplified/traditional substitution): with tables whose candidates are
code points, `ToSimplified` and `ToTraditional` return one string whose code
points are, position by position, the first candidate of the non-empty table
entry of the input's code point, or that code point itself; so the number of
code points is kept, and a text (a sequence of code points) whose characters
have no entry, hence any text on `NewChinese()`, is returned unchanged. -/
theorem substitution_passthrough (c : Chinese) (text : GoString) (rs : List Nat)
    (hs : ∀ r first rest, c.simplifiedData r = some (first :: rest) → isScalar first = true)
    (ht : ∀ r first rest, c.traditionalData r = some (first :: rest) → isScalar first = true)
    (hrs : ∀ r ∈ rs, isScalar r = true) :
    (∃ out, ToSimplified c text = [out] ∧
      toRunes out = (toRunes text).map (substitute c.simplifiedData) ∧
      (toRunes out).length = (toRunes text).length) ∧
    (∃ out, ToTraditional c text = [out] ∧
      toRunes out = (toRunes text).map (substitute c.traditionalData) ∧
      (toRunes out).length = (toRunes text).length) ∧
    ((∀ r ∈ rs, c.simplifiedData r = none ∨ c.simplifiedData r = some []) →
      ToSimplified c (runesToString rs) = [runesToString rs]) ∧
    ((∀ r ∈ rs, c.traditionalData r = none ∨ c.traditionalData r = some []) →
      ToTraditional c (runesToString rs) = [runesToString rs]) ∧
    ToSimplified NewChinese (runesToString rs) = [runesToString rs] ∧
    ToTraditional NewChinese (runesToString rs) = [runesToString rs] := by
  have unchanged : ∀ table : Nat → Option (List Nat),
      (∀ r ∈ rs, table r = none ∨ table r = some []) →
      (if runesToString rs = [] then [[]]
        else [runesToString ((toRunes (runesToString rs)).map (substitute table))])
        = [runesToString rs] := by
    intro table hab
    split_ifs with h0
    · rw [h0]
    · rw [toRunes_runesToString rs hrs]
      congr 2
      conv_rhs => rw [← List.map_id rs]
      exact List.map_congr_left (fun r hr => substitute_absent table r (hab r hr))
  refine ⟨?_, ?_, unchanged c.simplifiedData, unchanged c.traditionalData,
    unchanged _ (fun _ _ => Or.inl rfl), unchanged _ (fun _ _ => Or.inl rfl)⟩
  · have key := substitution_pointwise c.simplifiedData hs text
    unfold ToSimplified
    split_ifs at key ⊢ with h
    · exact ⟨[], rfl, key, by rw [key, List.length_map]⟩
    · exact ⟨_, rfl, key, by rw [key, List.length_map]⟩
  · have key := substitution_pointwise c.traditionalData ht text
    unfold ToTraditional
    split_ifs at key ⊢ with h
    · exact ⟨[], rfl, key, by rw [key, List.length_map]⟩
    · exact ⟨_, rfl, key, by rw [key, List.length_map]⟩

/-- C21 at the text `發財`: with the entry `發 ↦ [发]` the result is `发財`, and
without tables the text is returned unchanged. -/
theorem substitution_passthrough_witness :
    runesToString [0x767C, 0x8CA1] = str "發財" ∧
    ToSimplified faTable (str "發財") = [str "发財"] ∧
    ToSimplified NewChinese (runesToString [0x767C, 0x8CA1]) = [runesToString [0x767C, 0x8CA1]] ∧
    ToTraditional NewChinese (runesToString [0x767C, 0x8CA1])
      = [runesToString [0x767C, 0x8CA1]] :=
  have faScalar : ∀ r first rest, faTable.simplifiedData r = some (first :: rest) →
      isScalar first = true := by
    intro r first rest h
    simp only [faTable] at h
    split_ifs at h
    cases h
    decide
  have noEntry : ∀ r first rest, faTable.traditionalData r = some (first :: rest) →
      isScalar first = true := by
    intro r first rest h
    simp [faTable, NewChinese] at h
  ⟨by decide!, by decide!,
   (substitution_passthrough faTable (str "發財") [0x767C, 0x8CA1] faScalar noEntry
      (by decide)).2.2.2.2.1,
   (substitution_passthrough faTable (str "發財") [0x767C, 0x8CA1] faScalar noEntry
      (by decide)).2.2.2.2.2⟩

/-! ## Integer encoders: the text of a symbol sequence -/

theorem TablesOk_chinese : TablesOk chineseNumbers chineseUnits chineseBigUnits := by decide!

theorem TablesOk_currency : TablesOk currencyNumbers currencyUnits currencyBigUnits := by
  decide!

theorem index_getD (table : List GoString) (i : Nat) (h : i < table.length) :
    index table i = .ok (table.getD i []) := by
  unfold index
  rw [List.get?_eq_get h]
  simp [List.getD_eq_getElem?_getD, List.getElem?_eq_getElem h]

theorem render_append (N U B : List GoString) (a b : List Sym) :
    render N U B (a ++ b) = render N U B a ++ render N U B b := by
  simp [render]

theorem render_nil (N U B : List GoString) : render N U B [] = [] := rfl

theorem render_singleton (N U B : List GoString) (s : Sym) :
    render N U B [s] = renderSym N U B s := by
  simp [render]

theorem renderSym_length (N U B : List GoString) (hT : TablesOk N U B) (s : Sym)
    (hs : s ∈ validSyms) : (renderSym N U B s).length = 3 := by
  obtain ⟨a, b, c, h, _⟩ := isHan3_bytes (hT.2.2.2.2 s hs).1
  rw [h]; rfl

theorem render_eq_nil (N U B : List GoString) (hT : TablesOk N U B) (syms : List Sym)
    (hv : ∀ s ∈ syms, s ∈ validSyms) : render N U B syms = [] ↔ syms = [] := by
  constructor
  · intro h
    cases syms with
    | nil => rfl
    | cons s rest =>
      have h3 := renderSym_length N U B hT s (hv s (List.mem_cons_self _ _))
      simp only [render, List.map_cons, List.flatten_cons, List.append_eq_nil] at h
      rw [h.1] at h3
      simp at h3
  · rintro rfl; rfl

/-- The text of valid symbols ends with a three-byte text exactly when its last
symbol is that text. -/
theorem HasSuffix_render (N U B : List GoString) (hT : TablesOk N U B) (syms : List Sym)
    (hv : ∀ s ∈ syms, s ∈ validSyms) (t : GoString) (ht : t.length = 3) :
    HasSuffix (render N U B syms) t = true ↔
      ∃ s, syms.getLast? = some s ∧ renderSym N U B s = t := by
  unfold HasSuffix
  rw [List.isSuffixOf_iff_suffix]
  rcases List.eq_nil_or_concat syms with rfl | ⟨init, s, rfl⟩
  · simp only [render_nil, List.getLast?_nil]
    constructor
    · intro h
      have := List.suffix_nil.mp h
      rw [this] at ht
      simp at ht
    · rintro ⟨s, hs, _⟩; simp at hs
  · rw [List.concat_eq_append] at hv ⊢
    have h3 := renderSym_length N U B hT s (hv s (by simp))
    rw [render_append, render_singleton]
    have hl : (init ++ [s]).getLast? = some s := by simp
    rw [hl]
    simp only [Option.some.injEq, exists_eq_left']
    constructor
    · rintro ⟨u, hu⟩
      exact (List.append_inj' hu (by rw [ht, h3])).2.symm
    · intro h
      rw [h]
      exact List.suffix_append _ _

theorem validSyms_digit {d : Nat} (h : d < 10) : Sym.digit d ∈ validSyms := by
  interval_cases d <;> decide

theorem validSyms_unit {u : Nat} (h0 : 0 < u) (h : u < 4) : Sym.unit u ∈ validSyms := by
  interval_cases u <;> decide

theorem validSyms_big {g : Nat} (h0 : 0 < g) (h : g < 4) : Sym.big g ∈ validSyms := by
  interval_cases g <;> decide

/-- One pass of the loop body on the text of a symbol sequence appends the text
of the symbols of `symStep`. -/
theorem integerStep_render (N U B : List GoString) (hT : TablesOk N U B)
    (length i b : Nat) (syms : List Sym) (flag : Bool) (hlen : length ≤ 16)
    (hd : isDigit b = true) (hs : SymsOk syms (length - i - 1)) :
    integerStep N U B length i b (render N U B syms, flag) =
      .ok (render N U B (symStep length i (b - 48) (syms, flag)).1,
        (symStep length i (b - 48) (syms, flag)).2) := by
  obtain ⟨hN, hU, hB, hz, hsym⟩ := hT
  have hT : TablesOk N U B := ⟨hN, hU, hB, hz, hsym⟩
  obtain ⟨hsub, hlt⟩ := byteSub_digit hd
  have hn := index_getD N (b - 48) (by omega)
  have hu := index_getD U ((length - i - 1) % 4) (by omega)
  have hg := index_getD B ((length - i - 1) / 4) (by omega)
  have hnil : (render N U B syms ≠ []) ↔ syms ≠ [] :=
    not_congr (render_eq_nil N U B hT syms hs.1)
  unfold integerStep symStep
  simp only [hsub, hn, hu, hg, except_pure, except_bind_ok]
  by_cases h0 : b - 48 = 0
  · simp only [h0, if_true]
    by_cases hc : (length - i - 1) % 4 = 0 ∧ (length - i - 1) / 4 > 0
    · have hg3 : (length - i - 1) / 4 ∈ [1, 2, 3] := by
        have : (length - i - 1) / 4 < 4 := by omega
        have h1 := hc.2
        interval_cases (length - i - 1) / 4 <;> simp at h1 ⊢
      have hsuf : HasSuffix (render N U B syms) (B.getD ((length - i - 1) / 4) []) = false := by
        rw [Bool.eq_false_iff]
        intro h
        have hbl : (B.getD ((length - i - 1) / 4) []).length = 3 := by
          have := renderSym_length N U B hT (.big ((length - i - 1) / 4))
            (validSyms_big hc.2 (by omega))
          exact this
        obtain ⟨s, hlast, hr⟩ := (HasSuffix_render N U B hT syms hs.1 _ hbl).1 h
        have hmem : s ∈ syms := List.mem_of_getLast?_eq_some hlast
        have hsb := ((hsym s (hs.1 s hmem)).2.1 _ hg3).1 hr
        subst hsb
        have := hs.2 _ hmem
        omega
      simp only [hc, hsuf, and_self, if_true, Bool.not_false, render_append, render_singleton,
        renderSym]
    · simp only [hc, if_false]
  · simp only [h0, if_false]
    by_cases hf : flag = true ∧ syms ≠ []
    · have hf' : flag = true ∧ render N U B syms ≠ [] := ⟨hf.1, hnil.2 hf.2⟩
      simp only [hf, hf', and_self, if_true, ne_eq, not_false_eq_true]
      split_ifs <;>
        simp only [render_append, render_singleton, render_nil, renderSym, hz,
          List.append_nil, List.append_assoc]
    · have hf' : ¬ (flag = true ∧ render N U B syms ≠ []) := fun h => hf ⟨h.1, hnil.1 h.2⟩
      simp only [hf, hf', if_false]
      split_ifs <;>
        simp only [render_append, render_singleton, render_nil, renderSym, hz,
          List.append_nil, List.append_assoc]

/-- What one step appends to the symbols. -/
theorem symStep_fst (length i d : Nat) (syms : List Sym) (flag : Bool) :
    (symStep length i d (syms, flag)).1 = syms ++
      ((if d = 0 then [] else
          (if flag = true ∧ syms ≠ [] then [Sym.digit 0] else []) ++ [Sym.digit d] ++
          (if (length - i - 1) % 4 > 0 then [Sym.unit ((length - i - 1) % 4)] else [])) ++
        (if (length - i - 1) % 4 = 0 ∧ (length - i - 1) / 4 > 0 then
          [Sym.big ((length - i - 1) / 4)] else [])) := by
  unfold symStep
  by_cases h0 : d = 0
  · simp only [h0, if_true, List.nil_append]
    split_ifs <;> simp
  · simp only [h0, if_false, List.append_assoc]

theorem symStep_snd (length i d : Nat) (st : List Sym × Bool) :
    (symStep length i d st).2 = decide (d = 0) := by
  unfold symStep
  by_cases h0 : d = 0 <;> simp [h0]

theorem symStep_ok (length i d : Nat) (syms : List Sym) (flag : Bool)
    (hlen : length ≤ 16) (hd : d < 10) (hs : SymsOk syms (length - i - 1)) :
    SymsOk (symStep length i d (syms, flag)).1 (length - (i + 1) - 1) := by
  rw [symStep_fst]
  constructor
  · intro s hmem
    simp only [List.mem_append] at hmem
    rcases hmem with h | h | h
    · exact hs.1 s h
    · split_ifs at h with h0 hf hu hu
      · simp at h
      · simp only [List.mem_append, List.mem_singleton, List.append_nil] at h
        rcases h with (h | h) | h
        · subst h; decide
        · subst h; exact validSyms_digit hd
        · subst h; exact validSyms_unit hu (by omega)
      · simp only [List.mem_append, List.mem_singleton, List.append_nil] at h
        rcases h with (h | h)
        · subst h; decide
        · subst h; exact validSyms_digit hd
      · simp only [List.mem_append, List.mem_singleton, List.nil_append] at h
        rcases h with h | h
        · subst h; exact validSyms_digit hd
        · subst h; exact validSyms_unit hu (by omega)
      · simp only [List.mem_append, List.mem_singleton, List.nil_append, List.append_nil] at h
        subst h; exact validSyms_digit hd
    · split_ifs at h with hc
      · simp only [List.mem_singleton] at h
        subst h; exact validSyms_big hc.2 (by omega)
      · simp at h
  · intro g hmem
    simp only [List.mem_append] at hmem
    rcases hmem with h | h | h
    · have := hs.2 g h; omega
    · split_ifs at h <;> simp at h
    · split_ifs at h with hc
      · simp only [List.mem_singleton, Sym.big.injEq] at h
        omega
      · simp at h

/-- The digit loop on the text of a symbol sequence returns the text of the
symbols of `symLoop`. -/
theorem integerLoop_render (N U B : List GoString) (hT : TablesOk N U B) (length : Nat)
    (hlen : length ≤ 16) :
    ∀ (rest : GoString) (i : Nat) (syms : List Sym) (flag : Bool), Digits rest →
      SymsOk syms (length - i - 1) →
      integerLoop N U B length rest i (render N U B syms, flag) =
        .ok (render N U B (symLoop length rest i (syms, flag))) ∧
      SymsOk (symLoop length rest i (syms, flag)) 0 := by
  intro rest
  induction rest with
  | nil =>
    intro i syms flag _ hs
    refine ⟨rfl, hs.1, fun g hg => ?_⟩
    have := hs.2 g hg
    omega
  | cons b rest ih =>
    intro i syms flag hd hs
    have hb := (byteSub_digit hd.head).2
    have hstep := integerStep_render N U B hT length i b syms flag hlen hd.head hs
    have hok := symStep_ok length i (b - 48) syms flag hlen hb hs
    have ih' := ih (i + 1) (symStep length i (b - 48) (syms, flag)).1
      (symStep length i (b - 48) (syms, flag)).2 hd.tail hok
    simp only [integerLoop, hstep, except_bind_ok, symLoop]
    exact ih'

theorem SymsOk_nil (pos : Nat) : SymsOk [] pos :=
  ⟨fun _ h => absurd h (List.not_mem_nil _), fun _ h => absurd h (List.not_mem_nil _)⟩

theorem integerSyms_valid (s : GoString) (hs : Digits s) (h16 : (TrimLeftZeros s).length ≤ 16) :
    ∀ x ∈ integerSyms s, x ∈ validSyms := by
  unfold integerSyms
  split_ifs with h0
  · decide
  · exact (integerLoop_render chineseNumbers chineseUnits chineseBigUnits TablesOk_chinese _ h16
      _ 0 [] false hs.trimLeftZeros (SymsOk_nil _)).2.1

/-- The plain integer text, without the `TenMin` rewriting, is the plain text of
the symbols of the digit string. -/
theorem convertIntegerToChinese_render (s : GoString) (hs : Digits s)
    (h16 : (TrimLeftZeros s).length ≤ 16) :
    convertIntegerToChinese s ⟨false⟩ =
      .ok (render chineseNumbers chineseUnits chineseBigUnits (integerSyms s)) := by
  unfold convertIntegerToChinese integerSyms
  by_cases h1 : s = [] ∨ s = str "0"
  · rw [if_pos h1]
    have : TrimLeftZeros s = [] := by rcases h1 with rfl | rfl <;> rfl
    rw [if_pos this]; rfl
  · rw [if_neg h1]
    by_cases h0 : TrimLeftZeros s = []
    · simp only [h0, if_true]; rfl
    · have hl := (integerLoop_render chineseNumbers chineseUnits chineseBigUnits
        TablesOk_chinese _ h16 _ 0 [] false hs.trimLeftZeros (SymsOk_nil _)).1
      rw [render_nil] at hl
      simp only [h0, if_false, not_lt.mpr h16, hl, except_bind_ok, Bool.false_eq_true,
        false_and, except_pure]

/-- The financial integer text is the financial text of the same symbols. -/
theorem convertIntegerToCurrency_render (s : GoString) (hs : Digits s)
    (h16 : (TrimLeftZeros s).length ≤ 16) :
    convertIntegerToCurrency s =
      .ok (render currencyNumbers currencyUnits currencyBigUnits (integerSyms s)) := by
  unfold convertIntegerToCurrency integerSyms
  by_cases h1 : s = [] ∨ s = str "0"
  · rw [if_pos h1]
    have : TrimLeftZeros s = [] := by rcases h1 with rfl | rfl <;> rfl
    rw [if_pos this]; rfl
  · rw [if_neg h1]
    by_cases h0 : TrimLeftZeros s = []
    · simp only [h0, if_true]; rfl
    · have hl := (integerLoop_render currencyNumbers currencyUnits currencyBigUnits
        TablesOk_currency _ h16 _ 0 [] false hs.trimLeftZeros (SymsOk_nil _)).1
      rw [render_nil] at hl
      simp only [h0, if_false, not_lt.mpr h16, hl]

/-! ## Integer encoders: one algorithm, two alphabets -/

theorem symbolsOf_render (N U B : List GoString) (hT : TablesOk N U B) (syms : List Sym)
    (hv : ∀ s ∈ syms, s ∈ validSyms) :
    symbolsOf (render N U B syms) = syms.map (renderSym N U B) := by
  induction syms with
  | nil => rfl
  | cons s rest ih =>
    obtain ⟨a, b, c, habc, ha1, ha2, hb1, hb2, hc1, hc2⟩ :=
      isHan3_bytes (hT.2.2.2.2 s (hv s (List.mem_cons_self _ _))).1
    have ih' := ih (fun x hx => hv x (List.mem_cons_of_mem _ hx))
    unfold symbolsOf toRunes at ih' ⊢
    have hr : render N U B (s :: rest) = a :: b :: c :: render N U B rest := by
      simp only [render, List.map_cons, List.flatten_cons, habc]; rfl
    rw [hr, toRunesFrom_han3 a b c _ ⟨ha1, ha2⟩ ⟨hb1, hb2⟩ ⟨hc1, hc2⟩, List.map_cons,
      encodeRune_han3 a b c ⟨ha1, ha2⟩ ⟨hb1, hb2⟩ ⟨hc1, hc2⟩, ih', List.map_cons, habc]

theorem financialSymbol_renderSym : ∀ s ∈ validSyms,
    financialSymbol (renderSym chineseNumbers chineseUnits chineseBigUnits s) =
      renderSym currencyNumbers currencyUnits currencyBigUnits s := by
  decide!

theorem toFinancial_render (syms : List Sym) (hv : ∀ s ∈ syms, s ∈ validSyms) :
    toFinancial (render chineseNumbers chineseUnits chineseBigUnits syms) =
      render currencyNumbers currencyUnits currencyBigUnits syms := by
  unfold toFinancial
  rw [symbolsOf_render _ _ _ TablesOk_chinese syms hv, List.map_map]
  unfold render
  congr 1
  exact List.map_congr_left (fun s hs => financialSymbol_renderSym s (hv s hs))

/-- C24: on every digit string the two integer encoders run the same positional
algorithm: with at most 16 significant digits both return a text, and the
financial text is the plain text (`TenMin` off) with each plain symbol replaced by
its financial counterpart; with more than 16 both return an error. -/
theorem one_algorithm_two_alphabets (s : GoString) (hs : Digits s) :
    ((TrimLeftZeros s).length ≤ 16 ∧
      ∃ t, convertIntegerToChinese s ⟨false⟩ = .ok t ∧
        convertIntegerToCurrency s = .ok (toFinancial t)) ∨
    (16 < (TrimLeftZeros s).length ∧
      returnsError (convertIntegerToChinese s ⟨false⟩) = true ∧
      returnsError (convertIntegerToCurrency s) = true) := by
  by_cases h16 : (TrimLeftZeros s).length ≤ 16
  · left
    refine ⟨h16, _, convertIntegerToChinese_render s hs h16, ?_⟩
    rw [toFinancial_render _ (integerSyms_valid s hs h16)]
    exact convertIntegerToCurrency_render s hs h16
  · right
    have h : 16 < (TrimLeftZeros s).length := by omega
    refine ⟨h, ?_, ?_⟩
    · rw [(convertIntegerToChinese_digits s ⟨false⟩ hs).1 h]; rfl
    · rw [(convertIntegerToCurrency_digits s hs).1 h]; rfl

theorem one_algorithm_two_alphabets_witness :
    Digits (str "1020304") ∧
    convertIntegerToChinese (str "1020304") ⟨false⟩ = .ok (str "一百零二万零三百零四") ∧
    toFinancial (str "一百零二万零三百零四") = str "壹佰零贰万零叁佰零肆" ∧
    (((TrimLeftZeros (str "1020304")).length ≤ 16 ∧
      ∃ t, convertIntegerToChinese (str "1020304") ⟨false⟩ = .ok t ∧
        convertIntegerToCurrency (str "1020304") = .ok (toFinancial t)) ∨
    (16 < (TrimLeftZeros (str "1020304")).length ∧
      returnsError (convertIntegerToChinese (str "1020304") ⟨false⟩) = true ∧
      returnsError (convertIntegerToCurrency (str "1020304")) = true)) :=
  ⟨by decide!, by decide!, by decide!, one_algorithm_two_alphabets (str "1020304") (by decide!)⟩

/-! ## Integer encoders: big units -/

theorem bigsOf_append (a b : List Sym) : bigsOf (a ++ b) = bigsOf a ++ bigsOf b := by
  simp [bigsOf, List.filterMap_append]

theorem bigsOf_symStep (length i d : Nat) (syms : List Sym) (flag : Bool) :
    bigsOf (symStep length i d (syms, flag)).1 = bigsOf syms ++
      (if (length - i - 1) % 4 = 0 ∧ (length - i - 1) / 4 > 0 then [(length - i - 1) / 4]
       else []) := by
  rw [symStep_fst, bigsOf_append, bigsOf_append]
  congr 1
  have h1 : bigsOf (if d = 0 then [] else
      (if flag = true ∧ syms ≠ [] then [Sym.digit 0] else []) ++ [Sym.digit d] ++
      (if (length - i - 1) % 4 > 0 then [Sym.unit ((length - i - 1) % 4)] else [])) = [] := by
    split_ifs <;> rfl
  rw [h1, List.nil_append]
  split_ifs <;> rfl

theorem iota_step (n : Nat) :
    (if n % 4 = 0 ∧ n / 4 > 0 then [n / 4] else []) ++ List.iota ((n - 1) / 4) =
      List.iota (n / 4) := by
  by_cases h : n % 4 = 0 ∧ n / 4 > 0
  · rw [if_pos h]
    obtain ⟨k, hk⟩ : ∃ k, n / 4 = k + 1 := ⟨n / 4 - 1, by omega⟩
    have h2 : (n - 1) / 4 = k := by omega
    rw [h2, hk]
    rfl
  · rw [if_neg h, List.nil_append]
    congr 1
    omega

theorem bigsOf_symLoop (length : Nat) :
    ∀ (rest : GoString) (i : Nat) (syms : List Sym) (flag : Bool),
      rest.length = length - i →
      bigsOf (symLoop length rest i (syms, flag)) =
        bigsOf syms ++ List.iota ((rest.length - 1) / 4) := by
  intro rest
  induction rest with
  | nil => intro i syms flag _; simp [symLoop, List.iota]
  | cons b rest ih =>
    intro i syms flag hlen
    simp only [List.length_cons] at hlen
    have hpos : length - i - 1 = rest.length := by omega
    have ih' := ih (i + 1) (symStep length i (b - 48) (syms, flag)).1
      (symStep length i (b - 48) (syms, flag)).2 (by omega)
    simp only [symLoop, List.length_cons, Nat.add_sub_cancel]
    rw [ih', bigsOf_symStep, hpos, List.append_assoc, iota_step]

theorem bigsOf_integerSyms (s : GoString) (h : TrimLeftZeros s ≠ []) :
    bigsOf (integerSyms s) = List.iota (((TrimLeftZeros s).length - 1) / 4) := by
  unfold integerSyms
  rw [if_neg h, bigsOf_symLoop _ _ 0 [] false (by omega)]
  rfl

theorem bigUnitSymbols_eq (N U B : List GoString) (hT : TablesOk N U B) (syms : List Sym)
    (hv : ∀ s ∈ syms, s ∈ validSyms) :
    (syms.map (renderSym N U B)).filter (fun x => decide (x ∈ [B.getD 1 [], B.getD 2 [],
      B.getD 3 []])) = (bigsOf syms).map (fun g => B.getD g []) := by
  induction syms with
  | nil => rfl
  | cons s rest ih =>
    have ih' := ih (fun x hx => hv x (List.mem_cons_of_mem _ hx))
    have hs := (hT.2.2.2.2 s (hv s (List.mem_cons_self _ _))).2.1
    have h1 := hs 1 (by decide)
    have h2 := hs 2 (by decide)
    have h3 := hs 3 (by decide)
    have hv3 : ∀ g, Sym.big g ∈ validSyms → g = 1 ∨ g = 2 ∨ g = 3 := by
      intro g hg
      simp [validSyms] at hg
      exact hg
    rw [List.map_cons, List.filter_cons]
    cases s with
    | big g =>
      have hg := hv3 g (hv _ (List.mem_cons_self _ _))
      have hin : renderSym N U B (.big g) ∈ [B.getD 1 [], B.getD 2 [], B.getD 3 []] := by
        rcases hg with rfl | rfl | rfl <;> simp [renderSym]
      rw [if_pos (by simpa using hin), ih']
      rfl
    | digit d =>
      have hin : ¬ renderSym N U B (.digit d) ∈ [B.getD 1 [], B.getD 2 [], B.getD 3 []] := by
        simp only [List.mem_cons, List.mem_singleton, List.not_mem_nil, or_false, h1, h2, h3]
        simp
      rw [if_neg (by simpa using hin), ih']
      rfl
    | unit u =>
      have hin : ¬ renderSym N U B (.unit u) ∈ [B.getD 1 [], B.getD 2 [], B.getD 3 []] := by
        simp only [List.mem_cons, List.mem_singleton, List.not_mem_nil, or_false, h1, h2, h3]
        simp
      rw [if_neg (by simpa using hin), ih']
      rfl

theorem chineseBigUnits_symbols :
    [chineseBigUnits.getD 1 [], chineseBigUnits.getD 2 [], chineseBigUnits.getD 3 []] =
      bigUnitSymbols := by decide!

theorem currencyBigUnits_symbols :
    [currencyBigUnits.getD 1 [], currencyBigUnits.getD 2 [], currencyBigUnits.getD 3 []] =
      bigUnitSymbols ∧ currencyBigUnits = chineseBigUnits := by decide!

/-- C25: for a digit string with `d` significant digits, `5 ≤ d ≤ 16`, both
integer encoders return the text of the symbols of the guard-free positional rule
(`integerSyms`, whose zero digit at a group boundary always emits the big unit),
and the big-unit symbols of either text, read in order, are exactly those of the
groups `⌊(d−1)/4⌋, …, 1`: each once, in descending order. -/
theorem big_unit_emission (s : GoString) (hs : Digits s)
    (h5 : 5 ≤ (TrimLeftZeros s).length) (h16 : (TrimLeftZeros s).length ≤ 16) :
    ∃ t f, convertIntegerToChinese s ⟨false⟩ = .ok t ∧ convertIntegerToCurrency s = .ok f ∧
      t = render chineseNumbers chineseUnits chineseBigUnits (integerSyms s) ∧
      f = render currencyNumbers currencyUnits currencyBigUnits (integerSyms s) ∧
      (symbolsOf t).filter (fun x => decide (x ∈ bigUnitSymbols)) =
        descendingBigUnits (((TrimLeftZeros s).length - 1) / 4) ∧
      (symbolsOf f).filter (fun x => decide (x ∈ bigUnitSymbols)) =
        descendingBigUnits (((TrimLeftZeros s).length - 1) / 4) := by
  have hv := integerSyms_valid s hs h16
  have hne : TrimLeftZeros s ≠ [] := by
    intro h0; rw [h0] at h5; simp at h5
  refine ⟨_, _, convertIntegerToChinese_render s hs h16,
    convertIntegerToCurrency_render s hs h16, rfl, rfl, ?_, ?_⟩
  · rw [symbolsOf_render _ _ _ TablesOk_chinese _ hv, ← chineseBigUnits_symbols,
      bigUnitSymbols_eq _ _ _ TablesOk_chinese _ hv, bigsOf_integerSyms s hne]
    rfl
  · rw [symbolsOf_render _ _ _ TablesOk_currency _ hv, ← currencyBigUnits_symbols.1,
      bigUnitSymbols_eq _ _ _ TablesOk_currency _ hv, bigsOf_integerSyms s hne,
      currencyBigUnits_symbols.2]
    rfl

theorem big_unit_emission_witness :
    Digits (str "100000000") ∧
    convertIntegerToChinese (str "100000000") ⟨false⟩ = .ok (str "一亿万") ∧
    descendingBigUnits (((TrimLeftZeros (str "100000000")).length - 1) / 4) =
      [str "亿", str "万"] ∧
    ∃ t f, convertIntegerToChinese (str "100000000") ⟨false⟩ = .ok t ∧
      convertIntegerToCurrency (str "100000000") = .ok f ∧
      t = render chineseNumbers chineseUnits chineseBigUnits (integerSyms (str "100000000")) ∧
      f = render currencyNumbers currencyUnits currencyBigUnits
        (integerSyms (str "100000000")) ∧
      (symbolsOf t).filter (fun x => decide (x ∈ bigUnitSymbols)) =
        descendingBigUnits (((TrimLeftZeros (str "100000000")).length - 1) / 4) ∧
      (symbolsOf f).filter (fun x => decide (x ∈ bigUnitSymbols)) =
        descendingBigUnits (((TrimLeftZeros (str "100000000")).length - 1) / 4) :=
  ⟨by decide!, by decide!, by decide!,
    big_unit_emission (str "100000000") (by decide!) (by decide!) (by decide!)⟩

/-! ## Integer encoders: zero collapsing -/

theorem SymsCollapsed.append {a b : List Sym} (ha : SymsCollapsed a) (hb : SymsCollapsed b) :
    SymsCollapsed (a ++ b) := by
  constructor
  · rw [List.getLast?_append]
    cases h : b.getLast? with
    | none => simpa using ha.1
    | some x =>
      have := hb.1
      rw [h] at this
      simpa using this
  · refine List.Chain'.append ha.2 hb.2 ?_
    intro x hx y _ hxy
    exact ha.1 (by rw [Option.mem_def.mp hx, hxy.1])

theorem SymsCollapsed_emitted (length i d : Nat) (syms : List Sym) (flag : Bool) :
    SymsCollapsed ((if d = 0 then [] else
          (if flag = true ∧ syms ≠ [] then [Sym.digit 0] else []) ++ [Sym.digit d] ++
          (if (length - i - 1) % 4 > 0 then [Sym.unit ((length - i - 1) % 4)] else [])) ++
        (if (length - i - 1) % 4 = 0 ∧ (length - i - 1) / 4 > 0 then
          [Sym.big ((length - i - 1) / 4)] else [])) := by
  refine SymsCollapsed.append ?_ ?_
  · by_cases h0 : d = 0
    · rw [if_pos h0]; exact ⟨by simp, List.chain'_nil⟩
    · rw [if_neg h0]
      refine SymsCollapsed.append ?_ ?_
      · split_ifs
        · refine ⟨by simp [h0], ?_⟩
          simp [List.chain'_cons, symNotBothZero, h0]
        · refine ⟨by simp [h0], ?_⟩
          simp
      · split_ifs
        · exact ⟨by simp, by simp⟩
        · exact ⟨by simp, List.chain'_nil⟩
  · split_ifs
    · exact ⟨by simp, by simp⟩
    · exact ⟨by simp, List.chain'_nil⟩

theorem SymsCollapsed_symLoop (length : Nat) :
    ∀ (rest : GoString) (i : Nat) (syms : List Sym) (flag : Bool), SymsCollapsed syms →
      SymsCollapsed (symLoop length rest i (syms, flag)) := by
  intro rest
  induction rest with
  | nil => intro i syms flag h; exact h
  | cons b rest ih =>
    intro i syms flag h
    simp only [symLoop]
    refine ih (i + 1) (symStep length i (b - 48) (syms, flag)).1
      (symStep length i (b - 48) (syms, flag)).2 ?_
    rw [symStep_fst]
    exact h.append (SymsCollapsed_emitted length i (b - 48) syms flag)

/-- The loop only appends: the first symbol stays. -/
theorem symLoop_head (length : Nat) :
    ∀ (rest : GoString) (i : Nat) (syms : List Sym) (flag : Bool), syms ≠ [] →
      (symLoop length rest i (syms, flag)).head? = syms.head? := by
  intro rest
  induction rest with
  | nil => intro i syms flag _; rfl
  | cons b rest ih =>
    intro i syms flag h
    simp only [symLoop]
    have hne : (symStep length i (b - 48) (syms, flag)).1 ≠ [] := by
      rw [symStep_fst]; simp [h]
    rw [ih (i + 1) _ _ hne, symStep_fst]
    cases syms with
    | nil => exact absurd rfl h
    | cons x xs => rfl

theorem count_zero_symLoop (length : Nat) :
    ∀ (rest : GoString) (i : Nat) (syms : List Sym) (flag : Bool), Digits rest →
      (syms ≠ [] ∨ (flag = false ∧ ∀ b r, rest = b :: r → b ≠ 48)) →
      (symLoop length rest i (syms, flag)).count (Sym.digit 0) =
        syms.count (Sym.digit 0) + zeroRunsFrom flag rest := by
  intro rest
  induction rest with
  | nil => intro i syms flag _ _; simp [symLoop, zeroRunsFrom]
  | cons b rest ih =>
    intro i syms flag hd h
    have hb := hd.head
    unfold isDigit at hb
    simp only [Bool.and_eq_true, decide_eq_true_eq] at hb
    simp only [symLoop, zeroRunsFrom]
    have hnext : (symStep length i (b - 48) (syms, flag)).1 ≠ [] ∨
        ((symStep length i (b - 48) (syms, flag)).2 = false ∧
          ∀ b' r, rest = b' :: r → b' ≠ 48) := by
      left
      rw [symStep_fst]
      rcases h with h | h
      · simp [h]
      · have : b - 48 ≠ 0 := by
          have := h.2 b rest rfl
          omega
        simp [this]
    rw [ih (i + 1) _ _ hd.tail hnext, symStep_snd, symStep_fst]
    have hdec : decide (b - 48 = 0) = decide (b = 48) := by
      by_cases hb48 : b = 48
      · simp [hb48]
      · have : b - 48 ≠ 0 := by omega
        simp [hb48, this]
    rw [hdec, ← Nat.add_assoc]
    congr 1
    rw [List.count_append, List.count_append]
    congr 1
    have hbig : List.count (Sym.digit 0)
        (if (length - i - 1) % 4 = 0 ∧ (length - i - 1) / 4 > 0 then
          [Sym.big ((length - i - 1) / 4)] else []) = 0 := by
      split_ifs <;> simp
    rw [hbig, Nat.add_zero]
    by_cases hb48 : b = 48
    · have : b - 48 = 0 := by omega
      simp [hb48]
    · have h0 : b - 48 ≠ 0 := by omega
      have hunit : List.count (Sym.digit 0)
          (if (length - i - 1) % 4 > 0 then [Sym.unit ((length - i - 1) % 4)] else []) = 0 := by
        split_ifs <;> simp
      rw [if_neg h0, List.count_append, List.count_append, hunit, Nat.add_zero]
      have hdig : List.count (Sym.digit 0) [Sym.digit (b - 48)] = 0 :=
        List.count_eq_zero.mpr (by simp only [List.mem_singleton, Sym.digit.injEq]; omega)
      rw [hdig, Nat.add_zero]
      rcases h with h | h
      · by_cases hf : flag = true
        · simp [hf, h, hb48]
        · simp [hf]
      · obtain ⟨hf, _⟩ := h
        subst hf
        simp

theorem SymsCollapsed_nil : SymsCollapsed [] := ⟨by simp, List.chain'_nil⟩

theorem integerSyms_collapsed (s : GoString) (h : TrimLeftZeros s ≠ []) :
    SymsCollapsed (integerSyms s) := by
  unfold integerSyms
  rw [if_neg h]
  exact SymsCollapsed_symLoop _ _ 0 [] false SymsCollapsed_nil

theorem integerSyms_head (s : GoString) (hs : Digits s) (h : TrimLeftZeros s ≠ []) :
    (integerSyms s).head? ≠ some (Sym.digit 0) := by
  unfold integerSyms
  rw [if_neg h]
  cases hT : TrimLeftZeros s with
  | nil => exact absurd hT h
  | cons b rest =>
    have hb0 := trimLeftZeros_head s b rest hT
    have hd : Digits (b :: rest) := hT ▸ hs.trimLeftZeros
    have hb := hd.head
    unfold isDigit at hb
    simp only [Bool.and_eq_true, decide_eq_true_eq] at hb
    have h0 : b - 48 ≠ 0 := by omega
    have hne : (symStep (b :: rest).length 0 (b - 48) ([], false)).1 ≠ [] := by
      rw [symStep_fst]; simp [h0]
    have hloop : symLoop (b :: rest).length (b :: rest) 0 ([], false) =
        symLoop (b :: rest).length rest 1
          ((symStep (b :: rest).length 0 (b - 48) ([], false)).1,
            (symStep (b :: rest).length 0 (b - 48) ([], false)).2) := rfl
    rw [hloop, symLoop_head _ _ _ _ _ hne, symStep_fst]
    simp only [h0, if_false, Bool.false_eq_true, false_and, List.nil_append, List.append_assoc,
      List.singleton_append, List.cons_append, List.head?_cons, ne_eq, Option.some.injEq,
      Sym.digit.injEq, not_false_eq_true]

theorem integerSyms_count (s : GoString) (hs : Digits s) (h : TrimLeftZeros s ≠ []) :
    (integerSyms s).count (Sym.digit 0) = interiorZeroRuns (TrimLeftZeros s) := by
  unfold integerSyms interiorZeroRuns
  rw [if_neg h, count_zero_symLoop _ _ 0 [] false hs.trimLeftZeros]
  · simp
  · right
    exact ⟨rfl, fun b r hbr => trimLeftZeros_head s b r hbr⟩

theorem count_zero_render (N U B : List GoString) (hT : TablesOk N U B) (syms : List Sym)
    (hv : ∀ s ∈ syms, s ∈ validSyms) :
    (syms.map (renderSym N U B)).count (str "零") = syms.count (Sym.digit 0) := by
  induction syms with
  | nil => rfl
  | cons x rest ih =>
    have hx := (hT.2.2.2.2 x (hv x (List.mem_cons_self _ _))).2.2.1
    rw [List.map_cons, List.count_cons, List.count_cons,
      ih (fun y hy => hv y (List.mem_cons_of_mem _ hy))]
    congr 1
    by_cases h : x = Sym.digit 0
    · have h2 := hx.2 h
      rw [h] at h2 ⊢
      simp [h2]
    · have : renderSym N U B x ≠ str "零" := fun h2 => h (hx.1 h2)
      simp [h, this]

/-- The text of collapsed symbols is collapsed. -/
theorem ZeroCollapsed_render (N U B : List GoString) (hT : TablesOk N U B) (syms : List Sym)
    (hv : ∀ s ∈ syms, s ∈ validSyms) (hh : syms.head? ≠ some (Sym.digit 0))
    (hc : SymsCollapsed syms) :
    ZeroCollapsed (syms.count (Sym.digit 0)) (render N U B syms) := by
  have hz : ∀ x ∈ syms, renderSym N U B x = str "零" → x = Sym.digit 0 :=
    fun x hx => (hT.2.2.2.2 x (hv x hx)).2.2.1.1
  unfold ZeroCollapsed
  rw [symbolsOf_render N U B hT syms hv]
  refine ⟨?_, ?_, ?_, count_zero_render N U B hT syms hv⟩
  · rw [List.head?_map]
    intro h
    cases hs : syms.head? with
    | none => rw [hs] at h; simp at h
    | some x =>
      rw [hs] at h hh
      simp only [Option.map_some', Option.some.injEq] at h
      exact hh (by rw [hz x (List.mem_of_mem_head? hs) h])
  · rw [List.getLast?_map]
    intro h
    cases hs : syms.getLast? with
    | none => rw [hs] at h; simp at h
    | some x =>
      rw [hs] at h
      simp only [Option.map_some', Option.some.injEq] at h
      exact hc.1 (by rw [hs, hz x (List.mem_of_getLast?_eq_some hs) h])
  · rw [List.chain'_map]
    refine (List.Chain'.iff_mem.mp hc.2).imp ?_
    rintro a b ⟨ha, hb, hab⟩ ⟨h1, h2⟩
    exact hab ⟨hz a ha h1, hz b hb h2⟩

theorem convertIntegerToChinese_zero (I : GoString) (options : NumberOptions)
    (h : TrimLeftZeros I = []) : convertIntegerToChinese I options = .ok (str "零") := by
  unfold convertIntegerToChinese
  split_ifs
  · rfl
  · simp only [h, if_true]; rfl

/-- C26: on a digit string of at most 16 significant digits, an empty or all-zero
integer part encodes as the single symbol `零` in both alphabets, and a positive
one encodes (plain with `TenMin` off, or financial) as a text that does not begin
with `零`, does not end with `零`, has no two adjacent `零`, and has as many `零` as
the digits have runs of zeros between two non-zero digits. -/
theorem zero_collapsing (s : GoString) (hs : Digits s) (h16 : (TrimLeftZeros s).length ≤ 16) :
    (TrimLeftZeros s = [] →
      ∀ options, convertIntegerToChinese s options = .ok (str "零") ∧
        convertIntegerToCurrency s = .ok (str "零")) ∧
    (TrimLeftZeros s ≠ [] →
      ∃ t f, convertIntegerToChinese s ⟨false⟩ = .ok t ∧ convertIntegerToCurrency s = .ok f ∧
        ZeroCollapsed (interiorZeroRuns (TrimLeftZeros s)) t ∧
        ZeroCollapsed (interiorZeroRuns (TrimLeftZeros s)) f) := by
  constructor
  · intro h options
    exact ⟨convertIntegerToChinese_zero s options h, convertIntegerToCurrency_zero s h⟩
  · intro h
    have hv := integerSyms_valid s hs h16
    have hh := integerSyms_head s hs h
    have hc := integerSyms_collapsed s h
    have hcount := integerSyms_count s hs h
    refine ⟨_, _, convertIntegerToChinese_render s hs h16,
      convertIntegerToCurrency_render s hs h16, ?_, ?_⟩
    · rw [← hcount]
      exact ZeroCollapsed_render _ _ _ TablesOk_chinese _ hv hh hc
    · rw [← hcount]
      exact ZeroCollapsed_render _ _ _ TablesOk_currency _ hv hh hc

theorem zero_collapsing_witness :
    Digits (str "10203000") ∧ (TrimLeftZeros (str "10203000")).length ≤ 16 ∧
    convertIntegerToChinese (str "10203000") ⟨false⟩ = .ok (str "一千零二十万零三千") ∧
    interiorZeroRuns (TrimLeftZeros (str "10203000")) = 2 ∧
    interiorZeroRuns (str "1000") = 0 ∧
    convertIntegerToChinese (str "1000") ⟨false⟩ = .ok (str "一千") ∧
    (TrimLeftZeros (str "10203000") = [] →
      ∀ options, convertIntegerToChinese (str "10203000") options = .ok (str "零") ∧
        convertIntegerToCurrency (str "10203000") = .ok (str "零")) ∧
    (TrimLeftZeros (str "10203000") ≠ [] →
      ∃ t f, convertIntegerToChinese (str "10203000") ⟨false⟩ = .ok t ∧
        convertIntegerToCurrency (str "10203000") = .ok f ∧
        ZeroCollapsed (interiorZeroRuns (TrimLeftZeros (str "10203000"))) t ∧
        ZeroCollapsed (interiorZeroRuns (TrimLeftZeros (str "10203000"))) f) :=
  ⟨by decide!, by decide!, by decide!, by decide!, by decide!, by decide!,
    zero_collapsing (str "10203000") (by decide!) (by decide!)⟩

/-! ## Fractions -/

theorem convertDecimalToCurrency_pairs : ∀ j, j < 10 → ∀ f, f < 10 →
    convertDecimalToCurrency [48 + j, 48 + f] = .ok (fractionText j f) ∧
    (fractionText j f = [] ↔ j = 0 ∧ f = 0) := by
  decide!

theorem convertDecimalToCurrency_pair (a b : Nat) (ha : isDigit a = true)
    (hb : isDigit b = true) :
    convertDecimalToCurrency [a, b] = .ok (fractionText (a - 48) (b - 48)) ∧
    (fractionText (a - 48) (b - 48) = [] ↔ a - 48 = 0 ∧ b - 48 = 0) := by
  unfold isDigit at ha hb
  simp only [Bool.and_eq_true, decide_eq_true_eq] at ha hb
  have h := convertDecimalToCurrency_pairs (a - 48) (by omega) (b - 48) (by omega)
  have e1 : 48 + (a - 48) = a := by omega
  have e2 : 48 + (b - 48) = b := by omega
  rw [e1, e2] at h
  exact h

theorem currencyFraction_digits (D : GoString) (hD : Digits D) (hne : D ≠ []) :
    ∃ a b, currencyFraction (some D) = [a, b] ∧ isDigit a = true ∧ isDigit b = true ∧
      a - 48 = fractionDigit D 0 ∧ b - 48 = fractionDigit D 1 := by
  unfold currencyFraction fractionDigit
  match D, hD, hne with
  | [a], hD, _ =>
    exact ⟨a, 48, by simp [str_zero], hD a (by simp), by decide, rfl, rfl⟩
  | [a, b], hD, _ =>
    exact ⟨a, b, by simp, hD a (by simp), hD b (by simp), rfl, rfl⟩
  | a :: b :: c :: rest, hD, _ =>
    exact ⟨a, b, by simp, hD a (by simp), hD b (by simp), rfl, rfl⟩

/-- C27: for a non-empty fraction of digits, padded with a trailing `0` when it
has one digit and cut (not rounded) after two, with digit values `d1 d2`, the
角/分 text is (financial `d1` + 角 if `d1 ≠ 0`), then (零 if `d1 = 0` and `d2 ≠ 0`),
then (financial `d2` + 分 if `d2 ≠ 0`); it is empty exactly when `d1 = d2 = 0`;
`ToCurrencyNumber` joins it to the integer text.  `1.05` gives 壹元零伍分 and
`1.999` gives 壹元玖角玖分. -/
theorem currency_fraction_rule (D : GoString) (hD : Digits D) (hne : D ≠ []) :
    convertDecimalToCurrency (currencyFraction (some D)) =
      .ok (fractionText (fractionDigit D 0) (fractionDigit D 1)) ∧
    (fractionText (fractionDigit D 0) (fractionDigit D 1) = [] ↔
      fractionDigit D 0 = 0 ∧ fractionDigit D 1 = 0) ∧
    (∀ (negative : Bool) (I unit : GoString), Digits I →
      ToCurrencyNumber (.string (numeral negative I (some D))) unit =
        (convertIntegerToCurrency I >>= fun integerChinese =>
          pure (currencyText negative integerChinese (if unit = [] then str "元" else unit)
            (fractionText (fractionDigit D 0) (fractionDigit D 1))))) ∧
    ToCurrencyNumber (.string (str "1.05")) (str "元") = .ok (str "壹元零伍分") ∧
    ToCurrencyNumber (.string (str "1.999")) (str "元") = .ok (str "壹元玖角玖分") := by
  obtain ⟨a, b, hab, ha, hb, h1, h2⟩ := currencyFraction_digits D hD hne
  have hp := convertDecimalToCurrency_pair a b ha hb
  rw [h1, h2] at hp
  refine ⟨by rw [hab]; exact hp.1, hp.2, ?_, by decide!, by decide!⟩
  intro negative I unit hI
  rw [ToCurrencyNumber_numeral negative I (some D) unit hI hD, hab, hp.1]
  rfl

theorem currency_fraction_rule_witness :
    Digits (str "5") ∧ currencyFraction (some (str "5")) = str "50" ∧
    fractionText (fractionDigit (str "5") 0) (fractionDigit (str "5") 1) = str "伍角" ∧
    convertDecimalToCurrency (currencyFraction (some (str "5"))) =
      .ok (fractionText (fractionDigit (str "5") 0) (fractionDigit (str "5") 1)) :=
  ⟨by decide!, by decide!, by decide!,
    (currency_fraction_rule (str "5") (by decide!) (by decide!)).1⟩

theorem convertDecimalToChinese_plainDigits (D : GoString) (hD : Digits D) :
    convertDecimalToChinese D = .ok (plainDigits D) := by
  unfold convertDecimalToChinese
  by_cases h0 : D = []
  · rw [if_pos h0, h0]; rfl
  · rw [if_neg h0, toRunes_digits hD]
    clear h0
    have key : ∀ init : GoString, List.foldlM
        (fun result char =>
          if char < 48 then (.error .panic : Except Fault GoString)
          else do
            let number ← index chineseNumbers (char - 48)
            pure (result ++ number)) init D = .ok (init ++ plainDigits D) := by
      induction D with
      | nil => intro init; simp [plainDigits]; rfl
      | cons b rest ih =>
        intro init
        have hb := hD.head
        unfold isDigit at hb
        simp only [Bool.and_eq_true, decide_eq_true_eq] at hb
        have hx := index_getD chineseNumbers (b - 48)
          (by have : chineseNumbers.length = 10 := by decide!
              omega)
        rw [List.foldlM_cons, if_neg (by omega), hx]
        simp only [except_bind_ok, except_pure]
        refine (ih hD.tail _).trans ?_
        simp [plainDigits]
    simpa using key []

theorem plainDigits_eq_nil (D : GoString) (hD : Digits D) : plainDigits D = [] ↔ D = [] := by
  constructor
  · intro h
    cases D with
    | nil => rfl
    | cons b rest =>
      exfalso
      have hb := (byteSub_digit hD.head).2
      have hlen : (chineseNumbers.getD (b - 48) []).length = 3 :=
        renderSym_length _ _ _ TablesOk_chinese (.digit (b - 48)) (validSyms_digit hb)
      simp only [plainDigits, List.map_cons, List.flatten_cons, List.append_eq_nil] at h
      rw [h.1] at hlen
      simp at hlen
  · rintro rfl; rfl

theorem dian_not_in_render (N U B : List GoString) (hT : TablesOk N U B) (syms : List Sym)
    (hv : ∀ s ∈ syms, s ∈ validSyms) : str "点" ∉ symbolsOf (render N U B syms) := by
  rw [symbolsOf_render N U B hT syms hv]
  intro h
  obtain ⟨x, hx, hxe⟩ := List.mem_map.mp h
  exact (hT.2.2.2.2 x (hv x hx)).2.2.2 hxe

/-- C28: on a numeral string with integer digits `I` and fraction digits `D`,
`ToChineseNumber` returns the optional 负, the integer text, and, when `D` is not
empty, 点 followed by the plain symbol of each digit of `D` (zeros kept, no
units); with the fraction absent or empty it returns the sign and the integer
text only, and the integer text (`TenMin` off) holds no 点.  `123.45` gives
一百二十三点四五. -/
theorem plain_fraction_rule (negative : Bool) (I D : GoString)
    (options : Option NumberOptions) (hI : Digits I) (hD : Digits D) :
    (D ≠ [] →
      ToChineseNumber (.string (numeral negative I (some D))) options =
        (convertIntegerToChinese I (options.getD ⟨false⟩) >>= fun integerChinese =>
          pure ((if negative then str "负" else []) ++
            (integerChinese ++ str "点" ++ plainDigits D)))) ∧
    ToChineseNumber (.string (numeral negative I none)) options =
      (convertIntegerToChinese I (options.getD ⟨false⟩) >>= fun integerChinese =>
        pure ((if negative then str "负" else []) ++ integerChinese)) ∧
    ToChineseNumber (.string (numeral negative I (some []))) options =
      (convertIntegerToChinese I (options.getD ⟨false⟩) >>= fun integerChinese =>
        pure ((if negative then str "负" else []) ++ integerChinese)) ∧
    (∀ t, convertIntegerToChinese I ⟨false⟩ = .ok t → str "点" ∉ symbolsOf t) ∧
    ToChineseNumber (.string (str "123.45")) none = .ok (str "一百二十三点四五") ∧
    ToChineseNumber (.string (str "1.00")) none = .ok (str "一点零零") := by
  refine ⟨?_, ?_, ?_, ?_, by decide!, by decide!⟩
  · intro hne
    have hpd : plainDigits D ≠ [] := fun h => hne ((plainDigits_eq_nil D hD).1 h)
    rw [ToChineseNumber_numeral negative I (some D) options hI hD]
    simp only [Option.getD_some, convertDecimalToChinese_plainDigits D hD, except_bind_ok,
      plainText, hpd, ne_eq, not_false_eq_true, if_true]
  · rw [ToChineseNumber_numeral negative I none options hI (by intro b hb; simp at hb)]
    simp only [Option.getD_none, convertDecimalToChinese_nil, except_bind_ok, plainText,
      ne_eq, not_true_eq_false, if_false]
  · rw [ToChineseNumber_numeral negative I (some []) options hI (by intro b hb; simp at hb)]
    simp only [Option.getD_some, convertDecimalToChinese_nil, except_bind_ok, plainText,
      ne_eq, not_true_eq_false, if_false]
  · intro t ht
    by_cases h16 : (TrimLeftZeros I).length ≤ 16
    · rw [convertIntegerToChinese_render I hI h16] at ht
      rw [← Except.ok.inj ht]
      exact dian_not_in_render _ _ _ TablesOk_chinese _ (integerSyms_valid I hI h16)
    · rw [(convertIntegerToChinese_digits I ⟨false⟩ hI).1 (by omega)] at ht
      cases ht

theorem plain_fraction_rule_witness :
    Digits (str "20") ∧ Digits (str "05") ∧ str "05" ≠ [] ∧
    plainDigits (str "05") = str "零五" ∧
    ToChineseNumber (.string (numeral true (str "20") (some (str "05")))) none =
      (convertIntegerToChinese (str "20") ((none : Option NumberOptions).getD ⟨false⟩) >>=
        fun integerChinese =>
          pure ((if true = true then str "负" else []) ++
            (integerChinese ++ str "点" ++ plainDigits (str "05")))) :=
  ⟨by decide!, by decide!, by decide!, by decide!,
    (plain_fraction_rule true (str "20") (str "05") none (by decide!) (by decide!)).1
      (by decide!)⟩

/-! ## Integer encoders: the symbols denote the number -/

theorem digitsValue_trimLeftZeros (s : GoString) :
    digitsValue (TrimLeftZeros s) = digitsValue s := by
  unfold TrimLeftZeros
  induction s with
  | nil => rfl
  | cons b rest ih =>
    by_cases hb : b = 48
    · subst hb
      rw [List.dropWhile_cons_of_pos (by simp), ih]
      simp [digitsValue]
    · rw [List.dropWhile_cons_of_neg (by simpa using hb)]

/-- What reading the symbols of one step does to a state without pending digit. -/
theorem parse_emitted (length i d : Nat) (syms : List Sym) (flag : Bool) (T S : Nat) :
    List.foldl parseStep (T, S, 0)
      ((if d = 0 then [] else
          (if flag = true ∧ syms ≠ [] then [Sym.digit 0] else []) ++ [Sym.digit d] ++
          (if (length - i - 1) % 4 > 0 then [Sym.unit ((length - i - 1) % 4)] else [])) ++
        (if (length - i - 1) % 4 = 0 ∧ (length - i - 1) / 4 > 0 then
          [Sym.big ((length - i - 1) / 4)] else [])) =
      if (length - i - 1) % 4 > 0 then (T, S + d * 10 ^ ((length - i - 1) % 4), 0)
      else if (length - i - 1) / 4 > 0 then
        (T + (S + d) * 10 ^ (4 * ((length - i - 1) / 4)), 0, 0)
      else (T, S, d) := by
  by_cases h0 : d = 0
  · subst h0
    by_cases hu : (length - i - 1) % 4 > 0
    · have hu' : ¬ ((length - i - 1) % 4 = 0 ∧ (length - i - 1) / 4 > 0) := by omega
      simp [hu, hu']
    · by_cases hg : (length - i - 1) / 4 > 0
      · have hu' : (length - i - 1) % 4 = 0 ∧ (length - i - 1) / 4 > 0 := ⟨by omega, hg⟩
        simp [hu, hg, hu', parseStep]
      · have hu' : ¬ ((length - i - 1) % 4 = 0 ∧ (length - i - 1) / 4 > 0) := by omega
        simp [hu, hg, hu']
  · by_cases hu : (length - i - 1) % 4 > 0
    · have hu' : ¬ ((length - i - 1) % 4 = 0 ∧ (length - i - 1) / 4 > 0) := by omega
      by_cases hf : flag = true ∧ syms ≠ [] <;> simp [h0, hu, hu', hf, parseStep]
    · by_cases hg : (length - i - 1) / 4 > 0
      · have hu' : (length - i - 1) % 4 = 0 ∧ (length - i - 1) / 4 > 0 := ⟨by omega, hg⟩
        by_cases hf : flag = true ∧ syms ≠ [] <;> simp [h0, hu, hg, hu', hf, parseStep]
      · have hu' : ¬ ((length - i - 1) % 4 = 0 ∧ (length - i - 1) / 4 > 0) := by omega
        by_cases hf : flag = true ∧ syms ≠ [] <;> simp [h0, hu, hg, hu', hf, parseStep]

/-- Reading the symbols the loop produces: the digits still to be processed add
their value to the value of the symbols so far. -/
theorem symsValue_symLoop (length : Nat) :
    ∀ (rest : GoString) (i : Nat) (syms : List Sym) (flag : Bool) (T S p : Nat),
      rest.length = length - i → Digits rest →
      List.foldl parseStep (0, 0, 0) syms = (T, S, p) → (rest ≠ [] → p = 0) →
      symsValue (symLoop length rest i (syms, flag)) =
        T + (S + p) * 10 ^ (4 * ((rest.length - 1) / 4)) + digitsValue rest := by
  intro rest
  induction rest with
  | nil =>
    intro i syms flag T S p _ _ hst _
    show (List.foldl parseStep (0, 0, 0) syms).1 + (List.foldl parseStep (0, 0, 0) syms).2.1 +
      (List.foldl parseStep (0, 0, 0) syms).2.2 = _
    rw [hst]
    simp [digitsValue]
    ring
  | cons b rest ih =>
    intro i syms flag T S p hlen hd hst hp
    have hp0 : p = 0 := hp (by simp)
    subst hp0
    simp only [List.length_cons] at hlen
    have hpos : length - i - 1 = rest.length := by omega
    have hfold : List.foldl parseStep (0, 0, 0) (symStep length i (b - 48) (syms, flag)).1 =
        if rest.length % 4 > 0 then (T, S + (b - 48) * 10 ^ (rest.length % 4), 0)
        else if rest.length / 4 > 0 then
          (T + (S + (b - 48)) * 10 ^ (4 * (rest.length / 4)), 0, 0)
        else (T, S, b - 48) := by
      rw [symStep_fst, List.foldl_append, hst, parse_emitted, hpos]
    have hloop : symLoop length (b :: rest) i (syms, flag) =
        symLoop length rest (i + 1) ((symStep length i (b - 48) (syms, flag)).1,
          (symStep length i (b - 48) (syms, flag)).2) := rfl
    have hdiv : 4 * (rest.length / 4) + rest.length % 4 = rest.length := Nat.div_add_mod _ 4
    rw [hloop]
    simp only [List.length_cons, Nat.add_sub_cancel, digitsValue, Nat.add_zero]
    by_cases hu : rest.length % 4 > 0
    · rw [if_pos hu] at hfold
      rw [ih (i + 1) _ _ _ _ _ (by omega) hd.tail hfold (fun _ => rfl)]
      have h1 : (rest.length - 1) / 4 = rest.length / 4 := by omega
      have hpow : 10 ^ rest.length = 10 ^ (4 * (rest.length / 4)) * 10 ^ (rest.length % 4) := by
        rw [← pow_add, hdiv]
      rw [h1, hpow]
      ring
    · rw [if_neg hu] at hfold
      by_cases hg : rest.length / 4 > 0
      · rw [if_pos hg] at hfold
        rw [ih (i + 1) _ _ _ _ _ (by omega) hd.tail hfold (fun _ => rfl)]
        have hpow : 10 ^ rest.length = 10 ^ (4 * (rest.length / 4)) := by
          congr 1; omega
        rw [hpow]
        simp only [Nat.zero_add, Nat.add_zero, Nat.zero_mul]
        ring
      · rw [if_neg hg] at hfold
        have h0 : rest.length = 0 := by omega
        have hnil : rest = [] := List.length_eq_zero.mp h0
        subst hnil
        rw [ih (i + 1) _ _ _ _ _ (by simp at hlen ⊢; omega) hd.tail hfold
          (fun h => absurd rfl h)]
        simp [digitsValue]
        ring

/-- The symbols of a digit string denote the number the digits denote. -/
theorem symsValue_integerSyms (s : GoString) (hs : Digits s) :
    symsValue (integerSyms s) = digitsValue s := by
  rw [← digitsValue_trimLeftZeros s]
  unfold integerSyms
  split_ifs with h0
  · rw [h0]; rfl
  · rw [symsValue_symLoop _ _ 0 [] false 0 0 0 (by omega) hs.trimLeftZeros rfl (fun _ => rfl)]
    simp

/-! ## Integer encoders: injectivity -/

theorem renderSym_injective_chinese : ∀ x ∈ validSyms, ∀ y ∈ validSyms,
    renderSym chineseNumbers chineseUnits chineseBigUnits x =
      renderSym chineseNumbers chineseUnits chineseBigUnits y → x = y := by
  decide!

theorem renderSym_injective_currency : ∀ x ∈ validSyms, ∀ y ∈ validSyms,
    renderSym currencyNumbers currencyUnits currencyBigUnits x =
      renderSym currencyNumbers currencyUnits currencyBigUnits y → x = y := by
  decide!

/-- Two sequences of valid symbols with the same text are equal, when different
symbols have different texts. -/
theorem render_injective (N U B : List GoString) (hT : TablesOk N U B)
    (hinj : ∀ x ∈ validSyms, ∀ y ∈ validSyms, renderSym N U B x = renderSym N U B y → x = y) :
    ∀ (a b : List Sym), (∀ s ∈ a, s ∈ validSyms) → (∀ s ∈ b, s ∈ validSyms) →
      render N U B a = render N U B b → a = b := by
  intro a b ha hb h
  have hmap : a.map (renderSym N U B) = b.map (renderSym N U B) := by
    rw [← symbolsOf_render N U B hT a ha, ← symbolsOf_render N U B hT b hb, h]
  clear h
  induction a generalizing b with
  | nil =>
    cases b with
    | nil => rfl
    | cons y b => simp at hmap
  | cons x a ih =>
    cases b with
    | nil => simp at hmap
    | cons y b =>
      simp only [List.map_cons, List.cons.injEq] at hmap
      have hxy := hinj x (ha x (List.mem_cons_self _ _)) y (hb y (List.mem_cons_self _ _)) hmap.1
      rw [hxy, ih b (fun s hs => ha s (List.mem_cons_of_mem _ hs))
        (fun s hs => hb s (List.mem_cons_of_mem _ hs)) hmap.2]

theorem digitsValue_formatNatAux :
    ∀ (fuel n : Nat) (acc : GoString), n < fuel →
      digitsValue (formatNatAux fuel n acc) = n * 10 ^ acc.length + digitsValue acc := by
  intro fuel
  induction fuel with
  | zero => intro n acc h; omega
  | succ fuel ih =>
    intro n acc h
    unfold formatNatAux
    split_ifs with hn
    · simp [digitsValue]
    · rw [ih (n / 10) _ (by omega)]
      simp only [digitsValue, List.length_cons, Nat.add_sub_cancel_left, pow_succ]
      have h10 : n = 10 * (n / 10) + n % 10 := (Nat.div_add_mod n 10).symm
      conv_rhs => rw [h10]
      ring

theorem digitsValue_Itoa (n : Nat) : digitsValue (Itoa (n : Int)) = n := by
  unfold Itoa
  rw [if_neg (by omega), digitsValue_formatNatAux _ _ _ (by simp)]
  simp [digitsValue]

/-- A digit string whose value is below `10^16` has at most 16 significant
digits. -/
theorem trimLeftZeros_length_le (s : GoString) (hs : Digits s)
    (hv : digitsValue s < 10 ^ 16) : (TrimLeftZeros s).length ≤ 16 := by
  rw [← digitsValue_trimLeftZeros] at hv
  cases hT : TrimLeftZeros s with
  | nil => simp
  | cons b rest =>
    have hb0 := trimLeftZeros_head s b rest hT
    have hd : Digits (b :: rest) := hT ▸ hs.trimLeftZeros
    have hb := hd.head
    unfold isDigit at hb
    simp only [Bool.and_eq_true, decide_eq_true_eq] at hb
    rw [hT] at hv
    simp only [digitsValue] at hv
    have h1 : 1 ≤ b - 48 := by omega
    have h2 : 10 ^ rest.length ≤ (b - 48) * 10 ^ rest.length := Nat.le_mul_of_pos_left _ h1
    have h3 : 10 ^ rest.length < 10 ^ 16 := by omega
    have h4 : rest.length < 16 := (Nat.pow_lt_pow_iff_right (by norm_num)).1 h3
    simp only [List.length_cons]
    omega

/-- Digit strings with different values and at most 16 significant digits have
different texts, in both alphabets. -/
theorem encodings_differ (s t : GoString) (hs : Digits s) (ht : Digits t)
    (hs16 : (TrimLeftZeros s).length ≤ 16) (ht16 : (TrimLeftZeros t).length ≤ 16)
    (hne : digitsValue s ≠ digitsValue t) :
    render chineseNumbers chineseUnits chineseBigUnits (integerSyms s) ≠
      render chineseNumbers chineseUnits chineseBigUnits (integerSyms t) ∧
    render currencyNumbers currencyUnits currencyBigUnits (integerSyms s) ≠
      render currencyNumbers currencyUnits currencyBigUnits (integerSyms t) := by
  have hvs := integerSyms_valid s hs hs16
  have hvt := integerSyms_valid t ht ht16
  have key : integerSyms s ≠ integerSyms t := by
    intro h
    apply hne
    rw [← symsValue_integerSyms s hs, ← symsValue_integerSyms t ht, h]
  exact ⟨fun h => key (render_injective _ _ _ TablesOk_chinese renderSym_injective_chinese
      _ _ hvs hvt h),
    fun h => key (render_injective _ _ _ TablesOk_currency renderSym_injective_currency
      _ _ hvs hvt h)⟩

/-- C31: the integer encoders are injective on the integers below `10^16`: for
two different natural numbers `m`, `n < 10^16` the plain texts (`TenMin` off) of
their decimal forms exist and differ, and so do the financial texts. -/
theorem integer_encoder_injective (m n : Nat) (hm : m < 10 ^ 16) (hn : n < 10 ^ 16)
    (hne : m ≠ n) :
    (∃ a b, convertIntegerToChinese (Itoa (m : Int)) ⟨false⟩ = .ok a ∧
      convertIntegerToChinese (Itoa (n : Int)) ⟨false⟩ = .ok b ∧ a ≠ b) ∧
    (∃ f g, convertIntegerToCurrency (Itoa (m : Int)) = .ok f ∧
      convertIntegerToCurrency (Itoa (n : Int)) = .ok g ∧ f ≠ g) := by
  have hdm := Itoa_digits (m : Int) (by omega)
  have hdn := Itoa_digits (n : Int) (by omega)
  have hm16 := trimLeftZeros_length_le _ hdm (by rw [digitsValue_Itoa]; exact hm)
  have hn16 := trimLeftZeros_length_le _ hdn (by rw [digitsValue_Itoa]; exact hn)
  have hd := encodings_differ _ _ hdm hdn hm16 hn16
    (by rw [digitsValue_Itoa, digitsValue_Itoa]; exact hne)
  exact ⟨⟨_, _, convertIntegerToChinese_render _ hdm hm16,
      convertIntegerToChinese_render _ hdn hn16, hd.1⟩,
    ⟨_, _, convertIntegerToCurrency_render _ hdm hm16,
      convertIntegerToCurrency_render _ hdn hn16, hd.2⟩⟩

/-- C31 at 10000 and 100000000: the texts `一万` and `一亿万` differ. -/
theorem integer_encoder_injective_witness :
    convertIntegerToChinese (Itoa 10000) ⟨false⟩ = .ok (str "一万") ∧
    convertIntegerToChinese (Itoa 100000000) ⟨false⟩ = .ok (str "一亿万") ∧
    symsValue (integerSyms (Itoa 100000000)) = 100000000 ∧
    ((∃ a b, convertIntegerToChinese (Itoa ((10000 : Nat) : Int)) ⟨false⟩ = .ok a ∧
      convertIntegerToChinese (Itoa ((100000000 : Nat) : Int)) ⟨false⟩ = .ok b ∧ a ≠ b) ∧
    (∃ f g, convertIntegerToCurrency (Itoa ((10000 : Nat) : Int)) = .ok f ∧
      convertIntegerToCurrency (Itoa ((100000000 : Nat) : Int)) = .ok g ∧ f ≠ g)) :=
  ⟨by decide!, by decide!, by decide!,
    integer_encoder_injective 10000 100000000 (by norm_num) (by norm_num) (by norm_num)⟩

/-! ## Encoders on strings of digits and dots -/

theorem splitFrom_numeralChars (s : GoString) (hs : NumeralChars s) :
    ∀ cur, Digits cur → ∀ p ∈ splitFrom [46] 0 s cur, Digits p := by
  induction s with
  | nil =>
    intro cur hcur p hp
    simp only [splitFrom, List.mem_singleton] at hp
    rw [hp]; exact hcur
  | cons b rest ih =>
    intro cur hcur p hp
    have hrest : NumeralChars rest := fun x hx => hs x (List.mem_cons_of_mem _ hx)
    by_cases hb : b = 46
    · subst hb
      simp only [splitFrom, List.isPrefixOf, beq_self_eq_true, Bool.true_and, if_true,
        List.length_singleton, Nat.sub_self, List.mem_cons] at hp
      rcases hp with hp | hp
      · rw [hp]; exact hcur
      · exact ih hrest [] (fun x hx => absurd hx (List.not_mem_nil x)) p hp
    · have hb' : (46 == b) = false := by
        simp only [beq_eq_false_iff_ne, ne_eq]; exact fun h => hb h.symm
      simp only [splitFrom, List.isPrefixOf, hb', Bool.false_and] at hp
      rw [if_neg (by simp)] at hp
      have hd : isDigit b = true := (hs b (List.mem_cons_self _ _)).resolve_right hb
      refine ih hrest (cur ++ [b]) ?_ p hp
      intro x hx
      rcases List.mem_append.mp hx with h | h
      · exact hcur x h
      · simp only [List.mem_singleton] at h; rw [h]; exact hd

theorem Split_numeralChars (s : GoString) (hs : NumeralChars s) :
    ∀ p ∈ Split s (str "."), Digits p := by
  unfold Split
  rw [str_dot]
  exact splitFrom_numeralChars s hs [] (fun x hx => absurd hx (List.not_mem_nil x))

theorem Digits_nil : Digits [] := fun x hx => absurd hx (List.not_mem_nil x)

theorem Digits_headD (parts : List GoString) (h : ∀ p ∈ parts, Digits p) :
    Digits (parts.headD []) := by
  cases parts with
  | nil => exact Digits_nil
  | cons a rest => exact h a (List.mem_cons_self _ _)

theorem Digits_getD (parts : List GoString) (i : Nat) (h : ∀ p ∈ parts, Digits p) :
    Digits (parts.getD i []) := by
  rw [List.getD_eq_getElem?_getD]
  cases hi : parts[i]? with
  | none => exact Digits_nil
  | some a => exact h a (List.getElem?_mem hi)

theorem HasPrefix_minus_numeralChars (s : GoString) (hs : NumeralChars s) :
    HasPrefix s (str "-") = false := by
  unfold HasPrefix
  rw [str_minus]
  cases s with
  | nil => rfl
  | cons b rest =>
    have hb := hs b (List.mem_cons_self _ _)
    unfold isDigit at hb
    simp only [Bool.and_eq_true, decide_eq_true_eq] at hb
    have : (45 == b) = false := by
      simp only [beq_eq_false_iff_ne, ne_eq]; omega
    simp [List.isPrefixOf, this]

/-- C32: on a string made of an optional leading `-` followed only by ASCII
digits and `.`, every table lookup of the two encoders is in range: each call
returns a text or the magnitude error, never an out-of-range access (the model's
`Fault.panic`). -/
theorem lookups_in_range (negative : Bool) (body : GoString)
    (options : Option NumberOptions) (unit : GoString) (hbody : NumeralChars body) :
    ((∃ t, ToChineseNumber (.string ((if negative then str "-" else []) ++ body)) options
        = .ok t) ∨
      ToChineseNumber (.string ((if negative then str "-" else []) ++ body)) options
        = .error (.error (str "数字过大，超出处理范围"))) ∧
    ((∃ t, ToCurrencyNumber (.string ((if negative then str "-" else []) ++ body)) unit
        = .ok t) ∨
      ToCurrencyNumber (.string ((if negative then str "-" else []) ++ body)) unit
        = .error (.error (str "金额过大，超出处理范围"))) := by
  have hparts := Split_numeralChars body hbody
  have hI := Digits_headD _ hparts
  have hD := Digits_getD _ 1 hparts
  have hpre := HasPrefix_minus_numeralChars body hbody
  have h1 : HasPrefix (str "-" ++ body) (str "-") = true := by
    rw [str_minus]; simp [HasPrefix, List.isPrefixOf]
  have h2 : (str "-" ++ body).drop 1 = body := by
    rw [str_minus]; rfl
  have hDc : Digits (if 1 < (Split body (str ".")).length then
        if ((Split body (str ".")).getD 1 []).length = 1 then
          (Split body (str ".")).getD 1 [] ++ str "0"
        else if ((Split body (str ".")).getD 1 []).length > 2 then
          ((Split body (str ".")).getD 1 []).take 2
        else (Split body (str ".")).getD 1 []
      else str "00") := by
    split_ifs
    · intro b hb
      rw [str_zero] at hb
      rcases List.mem_append.mp hb with h | h
      · exact hD b h
      · simp at h; rw [h]; rfl
    · exact fun b hb => hD b (List.mem_of_mem_take hb)
    · exact hD
    · decide!
  constructor
  · obtain ⟨herr, hok⟩ := convertIntegerToChinese_digits _ (options.getD ⟨false⟩) hI
    obtain ⟨dc, hdc⟩ := convertDecimalToChinese_digits _ hD
    unfold ToChineseNumber
    by_cases h16 : (TrimLeftZeros ((Split body (str ".")).headD [])).length ≤ 16
    · left
      obtain ⟨ic, hic⟩ := hok h16
      by_cases hl : (Split body (str ".")).length > 1 <;> cases negative <;>
        simp only [Number.chineseText, hpre, h1, h2, Bool.false_eq_true, if_false, if_true,
          List.nil_append, hic, hdc, hl, except_bind_ok, except_pure, ne_eq,
          not_true_eq_false] <;>
        (try split_ifs) <;> exact ⟨_, rfl⟩
    · right
      have he := herr (by omega)
      cases negative <;>
        simp only [Number.chineseText, hpre, h1, h2, Bool.false_eq_true, if_false, if_true,
          List.nil_append, he, except_bind_error]
  · obtain ⟨herr, hok⟩ := convertIntegerToCurrency_digits _ hI
    obtain ⟨dc, hdc⟩ := convertDecimalToCurrency_digits _ hDc
    unfold ToCurrencyNumber
    by_cases h16 : (TrimLeftZeros ((Split body (str ".")).headD [])).length ≤ 16
    · left
      obtain ⟨ic, hic⟩ := hok h16
      cases negative <;>
        simp only [Number.currencyText, hpre, h1, h2, Bool.false_eq_true, if_false, if_true,
          List.nil_append, gt_iff_lt, hic, hdc, except_bind_ok, except_pure] <;>
        (try split_ifs) <;> exact ⟨_, rfl⟩
    · right
      have he := herr (by omega)
      cases negative <;>
        simp only [Number.currencyText, hpre, h1, h2, Bool.false_eq_true, if_false, if_true,
          List.nil_append, gt_iff_lt, he, except_bind_error]

/-- C32 at `-12.3.4`: both encoders return a text. -/
theorem lookups_in_range_witness :
    NumeralChars (str "12.3.4") ∧
    ToChineseNumber (.string (str "-12.3.4")) none = .ok (str "负一十二点三") ∧
    ToCurrencyNumber (.string (str "-.5")) (str "元") = .ok (str "负伍角") ∧
    (((∃ t, ToChineseNumber (.string ((if true = true then str "-" else []) ++ str "12.3.4"))
        none = .ok t) ∨
      ToChineseNumber (.string ((if true = true then str "-" else []) ++ str "12.3.4")) none
        = .error (.error (str "数字过大，超出处理范围"))) ∧
    ((∃ t, ToCurrencyNumber (.string ((if true = true then str "-" else []) ++ str "12.3.4"))
        (str "元") = .ok t) ∨
      ToCurrencyNumber (.string ((if true = true then str "-" else []) ++ str "12.3.4"))
        (str "元") = .error (.error (str "金额过大，超出处理范围")))) :=
  ⟨by decide!, by decide!, by decide!,
    lookups_in_range true (str "12.3.4") none (str "元") (by decide!)⟩

/-! ## Decoder: empty integer-text -/

/-- Splitting at a three-byte separator that follows three-byte symbols
different from it. -/
theorem splitFrom_han3_sep (x y z : Nat) (hx : 0xC0 ≤ x) (ss : List GoString)
    (hs : ∀ s ∈ ss, isHan3 s = true ∧ s ≠ [x, y, z]) (rest : GoString) :
    ∀ cur, splitFrom [x, y, z] 0 (ss.flatten ++ x :: y :: z :: rest) cur =
      (cur ++ ss.flatten) :: splitFrom [x, y, z] 0 rest [] := by
  induction ss with
  | nil => intro cur; simp [splitFrom, List.isPrefixOf]
  | cons s ss ih =>
    intro cur
    obtain ⟨h3, hne⟩ := hs s (List.mem_cons_self _ _)
    obtain ⟨a, b, c, rfl, ha1, ha2, hb1, hb2, hc1, hc2⟩ := isHan3_bytes h3
    have hxb : x ≠ b := by omega
    have hxc : x ≠ c := by omega
    have ih' := ih (fun t ht => hs t (List.mem_cons_of_mem _ ht))
    rw [List.flatten_cons]
    show splitFrom [x, y, z] 0 (a :: b :: c :: (ss.flatten ++ x :: y :: z :: rest)) cur = _
    have s1 := isPrefixOf_han3_ne x y z a b c (ss.flatten ++ x :: y :: z :: rest) hne
    have s2 : List.isPrefixOf [x, y, z] (b :: c :: (ss.flatten ++ x :: y :: z :: rest))
        = false := by
      simp [List.isPrefixOf, hxb]
    have s3 : List.isPrefixOf [x, y, z] (c :: (ss.flatten ++ x :: y :: z :: rest)) = false := by
      simp [List.isPrefixOf, hxc]
    simp only [splitFrom, s1, s2, s3, Bool.false_eq_true, if_false]
    rw [ih']
    simp

theorem toRunes_han3_cons (s : GoString) (hs : isHan3 s = true) (rest : GoString) :
    ∃ r, toRunes (s ++ rest) = r :: toRunes rest ∧ encodeRune r = s := by
  obtain ⟨a, b, c, rfl, ha1, ha2, hb1, hb2, hc1, hc2⟩ := isHan3_bytes hs
  exact ⟨_, toRunesFrom_han3 a b c rest ⟨ha1, ha2⟩ ⟨hb1, hb2⟩ ⟨hc1, hc2⟩,
    encodeRune_han3 a b c ⟨ha1, ha2⟩ ⟨hb1, hb2⟩ ⟨hc1, hc2⟩⟩

/-- A text of three-byte symbols is what `string([]rune(text))` returns. -/
theorem runesToString_toRunes_han3 (ss : List GoString) (hs : ∀ s ∈ ss, isHan3 s = true) :
    runesToString (toRunes ss.flatten) = ss.flatten := by
  induction ss with
  | nil => rfl
  | cons s ss ih =>
    obtain ⟨r, hr, he⟩ := toRunes_han3_cons s (hs s (List.mem_cons_self _ _)) ss.flatten
    rw [List.flatten_cons, hr]
    show encodeRune r ++ runesToString (toRunes ss.flatten) = _
    rw [he, ih (fun t ht => hs t (List.mem_cons_of_mem _ ht))]

theorem han3_dian_fu : isHan3 (str "点") = true ∧ isHan3 (str "负") = true ∧
    str "点" ≠ str "负" := by decide!

/-- The parts of a text `t 点 D` of three-byte symbols, with and without a
leading `负`. -/
theorem parts_han3 (ts Ds : List GoString)
    (hts : ∀ s ∈ ts, isHan3 s = true ∧ s ≠ str "点") (hsign : ts.head? ≠ some (str "负"))
    (hDs : ∀ s ∈ Ds, isHan3 s = true ∧ s ≠ str "点") (negative : Bool) :
    afterSign ((if negative then str "负" else []) ++ (ts.flatten ++ str "点" ++ Ds.flatten)) =
      ts.flatten ++ str "点" ++ Ds.flatten ∧
    HasPrefix ((if negative then str "负" else []) ++ (ts.flatten ++ str "点" ++ Ds.flatten))
      (str "负") = negative ∧
    Split (ts.flatten ++ str "点" ++ Ds.flatten) (str "点") = [ts.flatten, Ds.flatten] := by
  have hbody : ts.flatten ++ str "点" ++ Ds.flatten = (ts ++ [str "点"] ++ Ds).flatten := by
    simp
  have hall : ∀ s ∈ ts ++ [str "点"] ++ Ds, isHan3 s = true := by
    intro s hs
    simp only [List.mem_append, List.mem_singleton] at hs
    rcases hs with (h | h) | h
    · exact (hts s h).1
    · rw [h]; exact han3_dian_fu.1
    · exact (hDs s h).1
  have hnot : HasPrefix (ts.flatten ++ str "点" ++ Ds.flatten) (str "负") = false := by
    unfold HasPrefix
    cases ts with
    | nil =>
      rw [str_fu, str_dian]
      exact isPrefixOf_han3_ne _ _ _ _ _ _ _ (by decide)
    | cons s rest =>
      obtain ⟨a, b, c, habc, _⟩ := isHan3_bytes (hts s (List.mem_cons_self _ _)).1
      have hne : s ≠ str "负" := fun h => hsign (by rw [h]; rfl)
      rw [habc, str_fu] at hne
      rw [List.flatten_cons, habc, str_fu]
      exact isPrefixOf_han3_ne _ _ _ _ _ _ _ hne
  refine ⟨?_, ?_, ?_⟩
  · cases negative with
    | false =>
      simp only [Bool.false_eq_true, if_false, List.nil_append]
      unfold afterSign
      rw [hnot]; rfl
    | true =>
      simp only [if_true]
      have hpre : HasPrefix (str "负" ++ (ts.flatten ++ str "点" ++ Ds.flatten)) (str "负")
          = true := by
        rw [str_fu]; simp [HasPrefix, List.isPrefixOf]
      obtain ⟨r, hr, _⟩ := toRunes_han3_cons (str "负") han3_dian_fu.2.1
        (ts.flatten ++ str "点" ++ Ds.flatten)
      unfold afterSign
      rw [hpre, if_pos rfl, hr, List.drop_one, List.tail_cons, hbody,
        runesToString_toRunes_han3 _ hall]
  · cases negative with
    | false => simpa using hnot
    | true =>
      simp only [if_true]
      rw [str_fu]; simp [HasPrefix, List.isPrefixOf]
  · unfold Split
    rw [str_dian] at hts hDs ⊢
    rw [List.append_assoc]
    show splitFrom [231, 130, 185] 0 (ts.flatten ++ 231 :: 130 :: 185 :: Ds.flatten) [] = _
    rw [splitFrom_han3_sep 231 130 185 (by norm_num) ts hts,
      splitFrom_han3 231 130 185 (by norm_num) Ds hDs]
    rfl

/-! ## Decoder in binary64 arithmetic: the decimal loop -/

theorem plain_digit_facts : ∀ d, d < 10 →
    isHan3 (chineseNumbers.getD d []) = true ∧ chineseNumbers.getD d [] ≠ str "点" ∧
    decimalNumberMap.lookup (chineseNumbers.getD d []) = some (d : Int) := by
  decide!

/-- The loop of `convertChineseToDecimal64` on the plain symbols of the digits
`ds` runs `decimalStep64` on their values. -/
theorem decimalLoop64_digits (msg : GoString) (ds : List Nat) (hd : ∀ d ∈ ds, d < 10) :
    ∀ st : ℚ × Float64,
      (toRunes (digitsText ds)).foldlM
        (fun (st : ℚ × Float64) char =>
          match decimalNumberMap.lookup (encodeRune char) with
          | some val => (pure (decimalStep64 st val) : Except Fault (ℚ × Float64))
          | none => .error (.error msg)) st =
      .ok (ds.foldl (fun st (d : Nat) => decimalStep64 st (d : Int)) st) := by
  induction ds with
  | nil => intro st; rfl
  | cons d ds ih =>
    intro st
    obtain ⟨h3, _, hlook⟩ := plain_digit_facts d (hd d (List.mem_cons_self _ _))
    obtain ⟨r, hr, he⟩ := toRunes_han3_cons _ h3 (digitsText ds)
    have htext : digitsText (d :: ds) = chineseNumbers.getD d [] ++ digitsText ds := by
      simp [digitsText]
    rw [htext, hr, List.foldlM_cons, he, hlook]
    simp only [except_pure, except_bind_ok, List.foldl_cons]
    exact ih (fun x hx => hd x (List.mem_cons_of_mem _ hx)) _

theorem convertChineseToDecimal64_digits (ds : List Nat) (hd : ∀ d ∈ ds, d < 10) :
    convertChineseToDecimal64 (digitsText ds) = .ok (decimalSum64 ds) := by
  unfold convertChineseToDecimal64 decimalSum64
  exact congrArg (fun r : Except Fault (ℚ × Float64) => Prod.fst <$> r)
    (decimalLoop64_digits _ ds hd _)

/-- The loop of `convertChineseToDecimal64` fails on a code point that is not a
key of its map, whatever precedes and follows it. -/
theorem decimalLoop64_fails (msg : GoString) (rs : List Nat)
    (hbad : ∃ r ∈ rs, decimalNumberMap.lookup (encodeRune r) = none) :
    ∀ st : ℚ × Float64,
      rs.foldlM
        (fun (st : ℚ × Float64) char =>
          match decimalNumberMap.lookup (encodeRune char) with
          | some val => (pure (decimalStep64 st val) : Except Fault (ℚ × Float64))
          | none => .error (.error msg)) st = .error (.error msg) := by
  induction rs with
  | nil => obtain ⟨r, hr, _⟩ := hbad; exact absurd hr (List.not_mem_nil r)
  | cons r rs ih =>
    intro st
    rw [List.foldlM_cons]
    cases hl : decimalNumberMap.lookup (encodeRune r) with
    | none => rfl
    | some val =>
      simp only [except_pure, except_bind_ok]
      apply ih
      obtain ⟨r', hr', hbad'⟩ := hbad
      rcases List.mem_cons.mp hr' with h | h
      · rw [h, hl] at hbad'; cases hbad'
      · exact ⟨r', h, hbad'⟩

theorem convertChineseToDecimal64_fails (D : GoString)
    (hbad : ∃ r ∈ toRunes D, decimalNumberMap.lookup (encodeRune r) = none) :
    convertChineseToDecimal64 D = .error (.error (str "无法解析的中文小数: " ++ D)) := by
  unfold convertChineseToDecimal64
  exact congrArg (fun r : Except Fault (ℚ × Float64) => Prod.fst <$> r)
    (decimalLoop64_fails _ _ hbad _)

theorem signed_sum64 (negative : Bool) (D : GoString) (v : Int) :
    (if D ≠ [] then
        (convertChineseToDecimal64 D >>= fun y =>
          if negative = true then
            (pure (-roundFloat64 (roundFloat64 (v : ℚ) + y)) : Except Fault ℚ)
          else pure (roundFloat64 (roundFloat64 (v : ℚ) + y)))
      else
        ((pure 0 : Except Fault ℚ) >>= fun y =>
          if negative = true then
            (pure (-roundFloat64 (roundFloat64 (v : ℚ) + y)) : Except Fault ℚ)
          else pure (roundFloat64 (roundFloat64 (v : ℚ) + y)))) =
      ((if D ≠ [] then convertChineseToDecimal64 D else pure 0) >>= fun decimalValue =>
        pure (if negative = true then -roundFloat64 (roundFloat64 (v : ℚ) + decimalValue)
          else roundFloat64 (roundFloat64 (v : ℚ) + decimalValue))) := by
  by_cases hD : D = []
  · simp only [hD, ne_eq, not_true_eq_false, if_false, except_pure, except_bind_ok]
    split_ifs <;> rfl
  · simp only [hD, ne_eq, not_false_eq_true, if_true]
    cases convertChineseToDecimal64 D with
    | error e => rfl
    | ok w =>
      simp only [except_bind_ok, except_pure]
      split_ifs <;> rfl

/-- What `ChineseToNumber64` computes from the integer-text and the decimal-text
of a non-empty input. -/
theorem ChineseToNumber64_parts (s : GoString) (hs : s ≠ []) :
    ChineseToNumber64 s =
      (convertChineseToInteger (integerText s) >>= fun v =>
        (if decimalText s ≠ [] then convertChineseToDecimal64 (decimalText s) else pure 0) >>=
          fun decimalValue =>
            pure (if HasPrefix s (str "负") = true then
                -roundFloat64 (roundFloat64 (v : ℚ) + decimalValue)
              else roundFloat64 (roundFloat64 (v : ℚ) + decimalValue))) := by
  unfold ChineseToNumber64
  rw [if_neg hs]
  unfold integerText decimalText afterSign
  simp only
  cases convertChineseToInteger ((Split (if HasPrefix s (str "负") = true then
      runesToString (List.drop 1 (toRunes s)) else s) (str "点")).headD []) with
  | error e => rfl
  | ok v =>
    simp only [except_bind_ok]
    exact signed_sum64 _ _ _

theorem symbolsOf_han3 (ss : List GoString) (hs : ∀ s ∈ ss, isHan3 s = true) :
    symbolsOf ss.flatten = ss := by
  induction ss with
  | nil => rfl
  | cons s ss ih =>
    obtain ⟨r, hr, he⟩ := toRunes_han3_cons s (hs s (List.mem_cons_self _ _)) ss.flatten
    have ih' := ih (fun t ht => hs t (List.mem_cons_of_mem _ ht))
    unfold symbolsOf at ih' ⊢
    rw [List.flatten_cons, hr, List.map_cons, he, ih']

theorem digitsText_symbols (ds : List Nat) (hd : ∀ d ∈ ds, d < 10) :
    ∀ s ∈ ds.map (fun d => chineseNumbers.getD d []), isHan3 s = true ∧ s ≠ str "点" := by
  intro s hs
  obtain ⟨d, hd', rfl⟩ := List.mem_map.mp hs
  exact ⟨(plain_digit_facts d (hd d hd')).1, (plain_digit_facts d (hd d hd')).2.1⟩

theorem digitsText_ne_nil (ds : List Nat) (hds : ds ≠ []) (hd : ∀ d ∈ ds, d < 10) :
    digitsText ds ≠ [] := by
  obtain ⟨d, rest, rfl⟩ := List.exists_cons_of_ne_nil hds
  obtain ⟨a, b, c, h, _⟩ := isHan3_bytes (plain_digit_facts d (hd d (List.mem_cons_self _ _))).1
  have htext : digitsText (d :: rest) = a :: b :: c :: digitsText rest := by
    simp only [digitsText, List.map_cons, List.flatten_cons, h]; rfl
  rw [htext]
  exact List.cons_ne_nil _ _

/-- The value and the failure of `ChineseToNumber64` on a text `[负] t 点 D` of
three-byte symbols whose integer-text `t` decodes to `v`. -/
theorem ChineseToNumber64_han3 (ts Ds : List GoString) (v : Int)
    (hts : ∀ s ∈ ts, isHan3 s = true ∧ s ≠ str "点") (hsign : ts.head? ≠ some (str "负"))
    (hv : convertChineseToInteger ts.flatten = .ok v)
    (hDs : ∀ s ∈ Ds, isHan3 s = true ∧ s ≠ str "点") (negative : Bool) :
    ChineseToNumber64 ((if negative then str "负" else []) ++
        (ts.flatten ++ str "点" ++ Ds.flatten)) =
      ((if Ds.flatten ≠ [] then convertChineseToDecimal64 Ds.flatten else pure 0) >>=
        fun decimalValue =>
          pure (if negative = true then -roundFloat64 (roundFloat64 (v : ℚ) + decimalValue)
            else roundFloat64 (roundFloat64 (v : ℚ) + decimalValue))) := by
  obtain ⟨h1, h2, h3⟩ := parts_han3 ts Ds hts hsign hDs negative
  have hne : (if negative then str "负" else []) ++ (ts.flatten ++ str "点" ++ Ds.flatten) ≠ [] := by
    rw [str_dian]; cases negative <;> simp
  rw [ChineseToNumber64_parts _ hne]
  unfold integerText decimalText
  rw [h1, h2, h3]
  simp only [List.headD_cons, hv, except_bind_ok, List.length_cons, List.length_nil,
    List.getD_cons_succ, List.getD_cons_zero]
  rfl

/-! ## Decoder in binary64 arithmetic: sign, value and failure -/

/-- Prefixing a non-empty text of three-byte symbols that does not start with
`负` by `负` negates what `ChineseToNumber64` returns, and keeps its failure. -/
theorem ChineseToNumber64_negated (bs : List GoString) (hbs : ∀ s ∈ bs, isHan3 s = true)
    (hne : bs ≠ []) (hsign : bs.head? ≠ some (str "负")) :
    ChineseToNumber64 (str "负" ++ bs.flatten) =
      (fun x : ℚ => -x) <$> ChineseToNumber64 bs.flatten := by
  obtain ⟨s, rest, rfl⟩ := List.exists_cons_of_ne_nil hne
  obtain ⟨a, b, c, habc, _⟩ := isHan3_bytes (hbs s (List.mem_cons_self _ _))
  have hsne : s ≠ str "负" := fun h => hsign (by rw [h]; rfl)
  have hbody : (s :: rest).flatten ≠ [] := by
    rw [List.flatten_cons, habc]; exact List.cons_ne_nil _ _
  have hneg : str "负" ++ (s :: rest).flatten ≠ [] := by
    rw [str_fu]; exact List.cons_ne_nil _ _
  have hpre : HasPrefix (str "负" ++ (s :: rest).flatten) (str "负") = true := by
    rw [str_fu]; simp [HasPrefix, List.isPrefixOf]
  have hnot : HasPrefix (s :: rest).flatten (str "负") = false := by
    unfold HasPrefix
    rw [habc, str_fu] at hsne
    rw [List.flatten_cons, habc, str_fu]
    exact isPrefixOf_han3_ne _ _ _ _ _ _ _ hsne
  have hafter : afterSign (str "负" ++ (s :: rest).flatten) = afterSign (s :: rest).flatten := by
    obtain ⟨r, hr, _⟩ := toRunes_han3_cons (str "负") han3_dian_fu.2.1 (s :: rest).flatten
    unfold afterSign
    rw [hpre, hnot, if_pos rfl, if_neg (by simp), hr, List.drop_one, List.tail_cons,
      runesToString_toRunes_han3 _ hbs]
  rw [ChineseToNumber64_parts _ hneg, ChineseToNumber64_parts _ hbody]
  unfold integerText decimalText
  rw [hafter, hpre, hnot]
  cases convertChineseToInteger ((Split (afterSign (s :: rest).flatten) (str "点")).headD []) with
  | error e => rfl
  | ok v =>
    simp only [except_bind_ok]
    cases (if (if (Split (afterSign (s :: rest).flatten) (str "点")).length > 1 then
          (Split (afterSign (s :: rest).flatten) (str "点")).getD 1 [] else []) ≠ [] then
        convertChineseToDecimal64
          (if (Split (afterSign (s :: rest).flatten) (str "点")).length > 1 then
            (Split (afterSign (s :: rest).flatten) (str "点")).getD 1 [] else [])
        else pure 0) with
    | error e => rfl
    | ok d => rfl

/-- C19, counterexample: `零` decodes to 0 and `一二` are plain digit symbols, but
`ChineseToNumber("零点一二")` is the `float64` `0x1.eb851eb851eb9p-4`
(printed `0.12000000000000001`): it is neither the exact sum
`0 + 1/10 + 2/100 = 3/25` nor the `float64` nearest to it, `0x1.eb851eb851eb8p-4`. -/
theorem decoder_sum_not_exact :
    convertChineseToInteger (str "零") = .ok 0 ∧
    str "零" ++ str "点" ++ digitsText [1, 2] = str "零点一二" ∧
    decimalSum [1, 2] = 3 / 25 ∧
    ChineseToNumber64 (str "零点一二") = .ok (8646911284551353 / 72057594037927936) ∧
    (8646911284551353 / 72057594037927936 : ℚ) ≠ 0 + decimalSum [1, 2] ∧
    roundFloat64 (0 + decimalSum [1, 2]) = 1080863910568919 / 9007199254740992 ∧
    (8646911284551353 / 72057594037927936 : ℚ) ≠ roundFloat64 (0 + decimalSum [1, 2]) := by
  decide!

/-- Sample values of the rounding: `0.1`, two ties at `2^53`, a negative
number, a subnormal result, and numbers that are not changed. -/
theorem roundFloat64_samples :
    roundFloat64 (1 / 10) = 3602879701896397 / 36028797018963968 ∧
    roundFloat64 9007199254740993 = 9007199254740992 ∧
    roundFloat64 9007199254740995 = 9007199254740996 ∧
    roundFloat64 (-7 / 3) = -(5254199565265579 / 2251799813685248) ∧
    roundFloat64 (1 / ((2 ^ 1074 : Nat) : ℚ)) = 1 / ((2 ^ 1074 : Nat) : ℚ) ∧
    roundFloat64 (3 / ((2 ^ 1076 : Nat) : ℚ)) = 1 / ((2 ^ 1074 : Nat) : ℚ) ∧
    roundFloat64 (1 / ((2 ^ 1075 : Nat) : ℚ)) = 0 ∧
    roundFloat64 0 = 0 ∧ roundFloat64 1 = 1 ∧ roundFloat64 (25 / 2) = 25 / 2 ∧
    roundFloat64 (-9223372036854775808) = -9223372036854775808 := by
  decide!

/-- C19, amended: for a text `t 点 d1…dk` of three-byte symbols whose
integer-text `t` decodes to `v` and whose decimal-text consists of `k ≥ 1` plain
digit symbols, `ChineseToNumber` returns the `float64`
`fl(fl(v) + r_k)`, where `r_0 = 0`, `r_i = fl(r_(i-1) + fl(d_i / p_i))` and
`p_1 = 10`, `p_(i+1) = fl(10 · p_i)` (`fl` rounds to binary64); a leading `负`
negates the result; a decimal-text with a symbol that is not one of `零…九` makes
the call fail.  `一点二三` gives the `float64` nearest to `1.23` (not `123/100`
itself), `负一` gives `-1`, `十二点五` gives `12.5`. -/
theorem decoder_composition (ts : List GoString) (v : Int) (ds : List Nat)
    (hts : ∀ s ∈ ts, isHan3 s = true ∧ s ≠ str "点") (hsign : ts.head? ≠ some (str "负"))
    (hv : convertChineseToInteger ts.flatten = .ok v) (hds : ds ≠ [])
    (hd : ∀ d ∈ ds, d < 10) :
    ChineseToNumber64 (ts.flatten ++ str "点" ++ digitsText ds) =
      .ok (roundFloat64 (roundFloat64 (v : ℚ) + decimalSum64 ds)) ∧
    ChineseToNumber64 (str "负" ++ (ts.flatten ++ str "点" ++ digitsText ds)) =
      .ok (-roundFloat64 (roundFloat64 (v : ℚ) + decimalSum64 ds)) ∧
    (∀ bs : List GoString, (∀ s ∈ bs, isHan3 s = true) → bs ≠ [] →
      bs.head? ≠ some (str "负") →
      ChineseToNumber64 (str "负" ++ bs.flatten) =
        (fun x : ℚ => -x) <$> ChineseToNumber64 bs.flatten) ∧
    (∀ Ds : List GoString, (∀ s ∈ Ds, isHan3 s = true ∧ s ≠ str "点") →
      (∃ s ∈ Ds, decimalNumberMap.lookup s = none) → ∀ negative : Bool,
      ChineseToNumber64 ((if negative then str "负" else []) ++
          (ts.flatten ++ str "点" ++ Ds.flatten)) =
        .error (.error (str "无法解析的中文小数: " ++ Ds.flatten))) ∧
    (∀ s : GoString, s ≠ [] → ∀ w, convertChineseToInteger (integerText s) = .ok w →
      decimalText s = digitsText ds →
      ChineseToNumber64 s =
        .ok (if HasPrefix s (str "负") = true then
            -roundFloat64 (roundFloat64 (w : ℚ) + decimalSum64 ds)
          else roundFloat64 (roundFloat64 (w : ℚ) + decimalSum64 ds))) ∧
    (∀ s : GoString, s ≠ [] → (∃ w, convertChineseToInteger (integerText s) = .ok w) →
      (∃ r ∈ toRunes (decimalText s), decimalNumberMap.lookup (encodeRune r) = none) →
      ChineseToNumber64 s = .error (.error (str "无法解析的中文小数: " ++ decimalText s))) ∧
    ChineseToNumber64 (str "一点二三") = .ok (roundFloat64 (123 / 100)) ∧
    roundFloat64 (123 / 100) ≠ 123 / 100 ∧
    ChineseToNumber64 (str "负一") = .ok (-1) ∧
    ChineseToNumber64 (str "十二点五") = .ok (25 / 2) := by
  have hDs := digitsText_symbols ds hd
  have hnil := digitsText_ne_nil ds hds hd
  have hval : ∀ negative : Bool,
      ChineseToNumber64 ((if negative then str "负" else []) ++
          (ts.flatten ++ str "点" ++ digitsText ds)) =
        .ok (if negative = true then -roundFloat64 (roundFloat64 (v : ℚ) + decimalSum64 ds)
          else roundFloat64 (roundFloat64 (v : ℚ) + decimalSum64 ds)) := by
    intro negative
    have h := ChineseToNumber64_han3 ts _ v hts hsign hv hDs negative
    rw [show (ds.map (fun d => chineseNumbers.getD d [])).flatten = digitsText ds from rfl] at h
    rw [h, if_pos hnil, convertChineseToDecimal64_digits ds hd]
    rfl
  refine ⟨by simpa using hval false, by simpa using hval true,
    fun bs hbs hne hs => ChineseToNumber64_negated bs hbs hne hs, ?_, ?_, ?_,
    by decide!, by decide!, by decide!, by decide!⟩
  · intro Ds hDs' hbad negative
    have hne : Ds.flatten ≠ [] := by
      obtain ⟨s, hs, _⟩ := hbad
      obtain ⟨a, b, c, habc, _⟩ := isHan3_bytes (hDs' s hs).1
      intro h0
      have := List.flatten_eq_nil_iff.mp h0 s hs
      rw [habc] at this
      cases this
    have hrunes : ∃ r ∈ toRunes Ds.flatten, decimalNumberMap.lookup (encodeRune r) = none := by
      obtain ⟨s, hs, hl⟩ := hbad
      have hsym := symbolsOf_han3 Ds (fun t ht => (hDs' t ht).1)
      rw [← hsym] at hs
      obtain ⟨r, hr, rfl⟩ := List.mem_map.mp hs
      exact ⟨r, hr, hl⟩
    rw [ChineseToNumber64_han3 ts Ds v hts hsign hv hDs' negative, if_pos hne,
      convertChineseToDecimal64_fails _ hrunes]
    rfl
  · intro s hs w hw hdec
    rw [ChineseToNumber64_parts s hs, hw, hdec, if_pos hnil,
      convertChineseToDecimal64_digits ds hd]
    rfl
  · intro s hs hw hbad
    obtain ⟨w, hw⟩ := hw
    have hne : decimalText s ≠ [] := by
      obtain ⟨r, hr, _⟩ := hbad
      intro h0
      rw [h0] at hr
      exact absurd hr (List.not_mem_nil r)
    rw [ChineseToNumber64_parts s hs, hw, if_pos hne, convertChineseToDecimal64_fails _ hbad]
    rfl

/-- C19 at `一点二三`: the result is `fl(fl(1) + r_2)`, which is the `float64`
nearest to `1.23`. -/
theorem decoder_composition_witness :
    [str "一"].flatten ++ str "点" ++ digitsText [2, 3] = str "一点二三" ∧
    roundFloat64 (roundFloat64 ((1 : Int) : ℚ) + decimalSum64 [2, 3]) = roundFloat64 (123 / 100) ∧
    ChineseToNumber64 ([str "一"].flatten ++ str "点" ++ digitsText [2, 3]) =
      .ok (roundFloat64 (roundFloat64 ((1 : Int) : ℚ) + decimalSum64 [2, 3])) :=
  ⟨by decide!, by decide!,
    (decoder_composition [str "一"] 1 [2, 3] (by decide!) (by decide!) (by decide!)
      (by decide) (by decide)).1⟩

/-! ## Decoder: the exact model and the binary64 model agree on integers -/

theorem floorLog2Aux_spec : ∀ fuel n : Nat, 1 ≤ n → n ≤ fuel →
    2 ^ floorLog2Aux fuel n ≤ n ∧ n < 2 ^ (floorLog2Aux fuel n + 1) := by
  intro fuel
  induction fuel with
  | zero => intro n h1 h2; omega
  | succ fuel ih =>
    intro n h1 h2
    unfold floorLog2Aux
    split_ifs with hn
    · have : n = 1 := by omega
      subst this
      norm_num
    · obtain ⟨ha, hb⟩ := ih (n / 2) (by omega) (by omega)
      rw [pow_succ] at hb ⊢
      rw [pow_succ]
      constructor <;> omega

theorem floorLog2_spec (n : Nat) (h : 1 ≤ n) :
    2 ^ floorLog2 n ≤ n ∧ n < 2 ^ (floorLog2 n + 1) :=
  floorLog2Aux_spec n n h (le_refl n)

/-- A natural number below `2^53` is a `float64`: rounding does not change it. -/
theorem roundFloat64_natCast (n : Nat) (h : n < 2 ^ 53) : roundFloat64 (n : ℚ) = n := by
  by_cases h0 : n = 0
  · subst h0; simp [roundFloat64]
  have h1 : 1 ≤ n := by omega
  obtain ⟨hlo, hhi⟩ := floorLog2_spec n h1
  have hk : floorLog2 n ≤ 52 := by
    by_contra hc
    have : 2 ^ 53 ≤ 2 ^ floorLog2 n := Nat.pow_le_pow_right (by norm_num) (by omega)
    omega
  have hone : floorLog2 1 = 0 := by decide
  have hexp : binaryExponent n 1 = (floorLog2 n : Int) := by
    unfold binaryExponent scaleByPow2
    simp only [hone, Nat.cast_zero, sub_zero, Nat.cast_nonneg, if_true, Int.toNat_ofNat, one_mul,
      hlo]
  have hx : ((n : ℚ) = 0) = False := by simp [h0]
  unfold roundFloat64
  simp only [hx, if_false, Rat.num_natCast, Int.natAbs_ofNat, Rat.den_natCast, hexp]
  have hmax : max (floorLog2 n : Int) (-1022) = (floorLog2 n : Int) := by omega
  rw [hmax]
  have hneg : ¬ ((n : Int) < 0) := by omega
  rw [if_neg hneg]
  by_cases h52 : floorLog2 n = 52
  · have hq : ((floorLog2 n : Int) - 52) = 0 := by omega
    rw [hq]
    simp [scaleByPow2, nearestEven, Nat.mod_one]
  · have hq : ¬ (0 ≤ (floorLog2 n : Int) - 52) := by omega
    have hto : (-((floorLog2 n : Int) - 52)).toNat = 52 - floorLog2 n := by omega
    simp only [scaleByPow2, hq, if_false, hto, nearestEven, Nat.div_one, Nat.mod_one,
      Nat.mul_zero, Nat.lt_one_iff, Nat.zero_lt_one, if_true]
    push_cast
    field_simp

theorem roundFloat64_neg (x : ℚ) : roundFloat64 (-x) = -roundFloat64 x := by
  by_cases h0 : x = 0
  · subst h0; simp [roundFloat64]
  have hn0 : -x ≠ 0 := neg_ne_zero.mpr h0
  have hnum : x.num ≠ 0 := Rat.num_ne_zero.mpr h0
  unfold roundFloat64
  simp only [h0, hn0, if_false, Rat.neg_num, Int.natAbs_neg, Rat.neg_den]
  by_cases hlt : x.num < 0
  · have : ¬ (-x.num < 0) := by omega
    simp only [hlt, this, if_true, if_false, neg_neg]
  · have : -x.num < 0 := by omega
    simp only [hlt, this, if_true, if_false]

/-- An integer of absolute value below `2^53` is a `float64`. -/
theorem roundFloat64_intCast (v : Int) (h : v.natAbs < 2 ^ 53) : roundFloat64 (v : ℚ) = v := by
  obtain ⟨n, rfl | rfl⟩ := Int.eq_nat_or_neg v
  · rw [Int.natAbs_ofNat] at h
    exact_mod_cast roundFloat64_natCast n h
  · rw [Int.natAbs_neg, Int.natAbs_ofNat] at h
    push_cast
    rw [roundFloat64_neg, roundFloat64_natCast n h]

theorem signed_sum (negative : Bool) (D : GoString) (v : Int) :
    (if D ≠ [] then
        (convertChineseToDecimal D >>= fun y =>
          if negative = true then (pure (-((v : ℚ) + y)) : Except Fault ℚ)
          else pure ((v : ℚ) + y))
      else
        ((pure 0 : Except Fault ℚ) >>= fun y =>
          if negative = true then (pure (-((v : ℚ) + y)) : Except Fault ℚ)
          else pure ((v : ℚ) + y))) =
      ((if D ≠ [] then convertChineseToDecimal D else pure 0) >>= fun decimalValue =>
        pure (if negative = true then -((v : ℚ) + decimalValue)
          else (v : ℚ) + decimalValue)) := by
  by_cases hD : D = []
  · simp only [hD, ne_eq, not_true_eq_false, if_false, except_pure, except_bind_ok]
    split_ifs <;> rfl
  · simp only [hD, ne_eq, not_false_eq_true, if_true]
    cases convertChineseToDecimal D with
    | error e => rfl
    | ok w =>
      simp only [except_bind_ok, except_pure]
      split_ifs <;> rfl

/-- What `ChineseToNumber` (exact arithmetic) computes from the integer-text and
the decimal-text of a non-empty input. -/
theorem ChineseToNumber_parts (s : GoString) (hs : s ≠ []) :
    ChineseToNumber s =
      (convertChineseToInteger (integerText s) >>= fun v =>
        (if decimalText s ≠ [] then convertChineseToDecimal (decimalText s) else pure 0) >>=
          fun decimalValue =>
            pure (if HasPrefix s (str "负") = true then -((v : ℚ) + decimalValue)
              else (v : ℚ) + decimalValue)) := by
  unfold ChineseToNumber
  rw [if_neg hs]
  unfold integerText decimalText afterSign
  simp only
  cases convertChineseToInteger ((Split (if HasPrefix s (str "负") = true then
      runesToString (List.drop 1 (toRunes s)) else s) (str "点")).headD []) with
  | error e => rfl
  | ok v =>
    simp only [except_bind_ok]
    exact signed_sum _ _ _

/-- The two models of `ChineseToNumber` agree where no operation rounds: on every
input without decimal-text whose integer value, if there is one, is below `2^53`
in absolute value. -/
theorem ChineseToNumber64_eq_exact (s : GoString) (hD : decimalText s = [])
    (hv : ∀ v, convertChineseToInteger (integerText s) = .ok v → v.natAbs < 2 ^ 53) :
    ChineseToNumber64 s = ChineseToNumber s := by
  by_cases hs : s = []
  · subst hs; rfl
  rw [ChineseToNumber64_parts s hs, ChineseToNumber_parts s hs, hD]
  cases hI : convertChineseToInteger (integerText s) with
  | error e => rfl
  | ok v =>
    have hr := roundFloat64_intCast v (hv v hI)
    simp only [ne_eq, not_true_eq_false, if_false, except_pure, except_bind_ok, add_zero, hr]

end Zhkit
